import Mathlib

/-!
Verification of the bevy_archive persistence engine.

This file gives a shallow embedding, in Lean 4, of the data model and the
operations of the bevy_archive repository (an archetype-based ECS snapshot
library), and proves or refutes the specification claims about them.

Conventions of the embedding:
* Rust `u32` / `usize` values are modelled as `Nat` (none of the verified
  code paths exercise wrap-around arithmetic);
* `serde_json::Value` is modelled by the inductive type `Val` below; its
  `Object` variant is a key-sorted association list, matching the `BTreeMap`
  representation used by `serde_json` with default features;
* fallible Rust code (`Result`, `panic!`, `unwrap`) is modelled with
  `Except` / `Option`, where the error value marks the panicking branch;
* side effects (invocations of stored drop functions) are modelled by
  explicit ghost lists threaded through the state.
-/

namespace BevyArchive

/-- Model of `serde_json::Value`.  Objects are association lists sorted by
key, the invariant maintained by the `BTreeMap`-backed `serde_json::Map`. -/
inductive Val where
  | null : Val
  | bool (b : Bool) : Val
  | int (n : Int) : Val
  | str (s : String) : Val
  | arr (xs : List Val) : Val
  | obj (kvs : List (String × Val)) : Val

/-! ## SparseU32List (src/binary_archive/common.rs, sparse_entitiy_list.rs) -/

/-- Model of `SparseSegment`: a single id or an inclusive range. -/
inductive SparseSegment where
  | single (v : Nat) : SparseSegment
  | range (lo hi : Nat) : SparseSegment
deriving DecidableEq, Repr

/-- Model of `SparseU32List`: run-length compressed id list. -/
structure SparseU32List where
  segments : List SparseSegment
deriving DecidableEq, Repr

/-- Helper modelling the inner `while` loop of `SparseU32List::from_sorted`:
starting from the previously consumed id `prev`, consume the maximal run of
successive ids each equal to its predecessor plus one, returning the last id
of the run and the unconsumed remainder. -/
def takeRun (prev : Nat) : List Nat → Nat × List Nat
  | [] => (prev, [])
  | x :: xs => if x = prev + 1 then takeRun x xs else (prev, x :: xs)

theorem takeRun_rest_length (prev : Nat) (l : List Nat) :
    (takeRun prev l).2.length ≤ l.length := by
  induction l generalizing prev with
  | nil => simp [takeRun]
  | cons x xs ih =>
    simp only [takeRun]
    split
    · exact Nat.le_succ_of_le (ih x)
    · exact Nat.le_refl _

theorem le_takeRun_fst (prev : Nat) (l : List Nat) : prev ≤ (takeRun prev l).1 := by
  induction l generalizing prev with
  | nil => simp [takeRun]
  | cons x xs ih =>
    simp only [takeRun]
    split
    · rename_i h
      subst h
      exact Nat.le_trans (Nat.le_succ prev) (ih (prev + 1))
    · exact Nat.le_refl _

/-- Model of `SparseU32List::from_sorted`: compress a list of ids into
maximal consecutive runs, emitting `single` for one-element runs and
`range` otherwise. -/
def SparseU32List.from_sorted : List Nat → List SparseSegment
  | [] => []
  | x :: xs =>
    (if x = (takeRun x xs).1 then SparseSegment.single x
     else SparseSegment.range x (takeRun x xs).1) ::
      SparseU32List.from_sorted (takeRun x xs).2
termination_by l => l.length
decreasing_by
  simp only [List.length_cons]
  exact Nat.lt_succ_of_le (takeRun_rest_length _ _)

/-- Model of `SparseU32List::from_unsorted`: `sort_unstable` then
`from_sorted`. -/
def SparseU32List.from_unsorted (ids : List Nat) : List SparseSegment :=
  SparseU32List.from_sorted (ids.mergeSort (fun a b => a ≤ b))

/-- Decompression of one segment, as in `SparseU32List::to_vec`. -/
def SparseSegment.toList : SparseSegment → List Nat
  | .single v => [v]
  | .range lo hi => List.range' lo (hi + 1 - lo)

/-- Model of `SparseU32List::to_vec`: decompress all segments in order. -/
def SparseU32List.to_vec (segs : List SparseSegment) : List Nat :=
  (segs.map SparseSegment.toList).flatten

theorem takeRun_decomp (prev : Nat) (l : List Nat) :
    List.range' prev ((takeRun prev l).1 + 1 - prev) ++ (takeRun prev l).2
      = prev :: l := by
  induction l generalizing prev with
  | nil => simp [takeRun, List.range']
  | cons x xs ih =>
    simp only [takeRun]
    split
    · rename_i h
      subst h
      have hle := le_takeRun_fst (prev + 1) xs
      have hcount : (takeRun (prev + 1) xs).1 + 1 - prev
          = ((takeRun (prev + 1) xs).1 + 1 - (prev + 1)) + 1 := by omega
      rw [hcount, List.range'_succ, List.cons_append, ih (prev + 1)]
    · simp [List.range']

theorem to_vec_from_sorted :
    ∀ l : List Nat, SparseU32List.to_vec (SparseU32List.from_sorted l) = l
  | [] => by simp [SparseU32List.from_sorted, SparseU32List.to_vec]
  | x :: xs => by
    have ihr := to_vec_from_sorted (takeRun x xs).2
    rw [SparseU32List.from_sorted]
    have hseg :
        (if x = (takeRun x xs).1 then SparseSegment.single x
         else SparseSegment.range x (takeRun x xs).1).toList
          = List.range' x ((takeRun x xs).1 + 1 - x) := by
      split
      · rename_i h
        simp [SparseSegment.toList, ← h, List.range']
      · simp [SparseSegment.toList]
    simp only [SparseU32List.to_vec, List.map_cons, List.flatten_cons]
    rw [hseg]
    unfold SparseU32List.to_vec at ihr
    rw [ihr, takeRun_decomp x xs]
termination_by l => l.length
decreasing_by
  simp only [List.length_cons]
  exact Nat.lt_succ_of_le (takeRun_rest_length _ _)

theorem nat_le_trans_bool (a b c : Nat) :
    decide (a ≤ b) = true → decide (b ≤ c) = true → decide (a ≤ c) = true := by
  simp only [decide_eq_true_eq]
  omega

theorem nat_le_total_bool (a b : Nat) :
    (decide (a ≤ b) || decide (b ≤ a)) = true := by
  simpa using Nat.le_total a b

theorem mergeSort_nat_sorted (l : List Nat) :
    (l.mergeSort (fun a b => a ≤ b)).Sorted (fun a b => a ≤ b) := by
  have h := List.sorted_mergeSort nat_le_trans_bool nat_le_total_bool l
  simpa [List.Sorted] using h

/-- C9: decompressing a `SparseU32List` built by `from_unsorted` recovers the
input sorted ascending with multiplicities preserved, and `from_sorted`
followed by `to_vec` is the identity on ascending-sorted lists; hence the
run-length compressed entity-ID list is lossless. -/
theorem sparse_u32_list_roundtrip (v l : List Nat) (hl : l.Sorted (fun a b => a ≤ b)) :
    (SparseU32List.to_vec (SparseU32List.from_unsorted v)).Sorted (fun a b => a ≤ b)
    ∧ (SparseU32List.to_vec (SparseU32List.from_unsorted v)).Perm v
    ∧ SparseU32List.to_vec (SparseU32List.from_sorted l) = l := by
  refine ⟨?_, ?_, to_vec_from_sorted l⟩
  · rw [SparseU32List.from_unsorted, to_vec_from_sorted]
    exact mergeSort_nat_sorted v
  · rw [SparseU32List.from_unsorted, to_vec_from_sorted]
    exact List.mergeSort_perm v _

/-- Witness for `sparse_u32_list_roundtrip` at `v = [3, 1, 2]`,
`l = [5, 7, 8]`. -/
theorem sparse_u32_list_roundtrip_witness :
    ([5, 7, 8] : List Nat).Sorted (fun a b => a ≤ b)
    ∧ ((SparseU32List.to_vec (SparseU32List.from_unsorted [3, 1, 2])).Sorted
        (fun a b => a ≤ b)
      ∧ (SparseU32List.to_vec (SparseU32List.from_unsorted [3, 1, 2])).Perm [3, 1, 2]
      ∧ SparseU32List.to_vec (SparseU32List.from_sorted [5, 7, 8]) = [5, 7, 8]) :=
  ⟨by decide, sparse_u32_list_roundtrip [3, 1, 2] [5, 7, 8] (by decide)⟩

/-! ## WorldArchSnapshot.purge_null (src/archetype_archive.rs) -/

/-- Model of `StorageTypeFlag`. -/
inductive StorageTypeFlag where
  | table : StorageTypeFlag
  | sparseSet : StorageTypeFlag
deriving DecidableEq, Repr

/-- Model of `ArchetypeSnapshot`: a columnar table of one archetype.
`component_types`, `storage_types` and `columns` are parallel;
each column is parallel to `entities`. -/
structure ArchetypeSnapshot where
  component_types : List String
  storage_types : List StorageTypeFlag
  columns : List (List Val)
  entities : List Nat

/-- Model of `WorldArchSnapshot`. -/
structure WorldArchSnapshot where
  entities : List Nat
  archetypes : List ArchetypeSnapshot

/-- Model of `WorldArchSnapshot::purge_null`: clear `entities`, extend it
with every archetype's entity list, then `sort_unstable`.  The source does
not deduplicate (its comment: "we may want to deduplicate entities here"). -/
def WorldArchSnapshot.purge_null (s : WorldArchSnapshot) : WorldArchSnapshot :=
  { s with
    entities :=
      ((s.archetypes.map ArchetypeSnapshot.entities).flatten).mergeSort
        (fun a b => a ≤ b) }

/-- C4 counterexample: a snapshot with the entity index 0 present in two
archetypes.  After `purge_null` the `entities` field is `[0, 0]`, which is
not deduplicated and contains a duplicate index, contradicting the claim. -/
theorem purge_null_counterexample :
    (WorldArchSnapshot.purge_null
        { entities := [0]
          archetypes :=
            [ { component_types := ["A"], storage_types := [.table]
                columns := [[Val.null]], entities := [0] },
              { component_types := ["B"], storage_types := [.table]
                columns := [[Val.null]], entities := [0] } ] }).entities = [0, 0]
    ∧ ¬ ([0, 0] : List Nat).Nodup := by
  refine ⟨?_, by decide⟩
  have hs : ([0, 0] : List Nat).Sorted (fun a b => a ≤ b) := by decide
  have h := List.mergeSort_eq_self hs
  simpa [WorldArchSnapshot.purge_null] using h

/-- C4 (amended): after `purge_null` the `entities` field is the ascending
sort of the concatenation of all archetype entity lists, with multiplicities
preserved (no deduplication); the archetype list is unchanged. -/
theorem purge_null_spec (s : WorldArchSnapshot) :
    ((s.purge_null).entities).Sorted (fun a b => a ≤ b)
    ∧ (s.purge_null).entities.Perm
        ((s.archetypes.map ArchetypeSnapshot.entities).flatten)
    ∧ (s.purge_null).archetypes = s.archetypes := by
  refine ⟨mergeSort_nat_sorted _, ?_, rfl⟩
  exact List.mergeSort_perm _ _

/-! ## count_entities and to_world_reg (src/binary_archive/world_snapshot.rs) -/

namespace BinaryArchive

/-- Model of the file-local `count_entities` in
`src/binary_archive/world_snapshot.rs`.  The source evaluates
`snapshot.iter().max().unwrap_unchecked() + 1`; the `None` branch of the
unchecked unwrap (reached exactly when the slice is empty) is modelled as
`none`. -/
def count_entities (snapshot : List Nat) : Option Nat :=
  snapshot.max?.map (· + 1)

/-- Model of `WorldArrowSnapshot`.  The archetype tables (`ComponentTable`,
defined outside the archived sources) are kept abstract in the type
parameter `τ`; resources and metadata play no role in the verified claim. -/
structure WorldArrowSnapshot (τ : Type) where
  entities : List Nat
  archetypes : List τ

/-- Model of the prefix of `WorldArrowSnapshot::to_world_reg` relevant to the
claim: the method first reserves `count_entities(&self.entities)` entities and
then hands each archetype table, in order, to the arrow loader.  The result
records the reserved count and the archetype list; `none` marks the
unchecked-unwrap failure on an empty entity list. -/
def WorldArrowSnapshot.to_world_reg_reserve {τ : Type} (s : WorldArrowSnapshot τ) :
    Option (Nat × List τ) :=
  (count_entities s.entities).map (fun n => (n, s.archetypes))

/-- C10: with a non-empty `entities` vector, `count_entities` is total and
returns the maximum entity index plus one, and `to_world_reg` reserves
exactly that many entities before applying the archetypes; with an empty
vector the `None` branch of the unchecked unwrap is reached, so non-emptiness
is a necessary precondition. -/
theorem count_entities_spec {τ : Type} (s : WorldArrowSnapshot τ) :
    (s.entities ≠ [] →
      ∃ m, m ∈ s.entities ∧ (∀ x ∈ s.entities, x ≤ m)
        ∧ count_entities s.entities = some (m + 1)
        ∧ s.to_world_reg_reserve = some (m + 1, s.archetypes))
    ∧ (s.entities = [] → count_entities s.entities = none) := by
  constructor
  · intro hne
    have hmax : s.entities.max?.isSome := by
      cases hm : s.entities.max? with
      | none => exact absurd (List.max?_eq_none_iff.mp hm) hne
      | some m => rfl
    obtain ⟨m, hm⟩ := Option.isSome_iff_exists.mp hmax
    have hmem : m ∈ s.entities := List.max?_mem (fun a b => max_choice a b) hm
    have hle : ∀ x ∈ s.entities, x ≤ m := by
      intro x hx
      have h := (List.max?_le_iff (fun a b c => Nat.max_le) hm (x := m)).mp (Nat.le_refl m)
      exact h x hx
    refine ⟨m, hmem, hle, ?_, ?_⟩
    · simp [count_entities, hm]
    · simp [WorldArrowSnapshot.to_world_reg_reserve, count_entities, hm]
  · intro he
    simp [count_entities, he]

/-- Witness for `count_entities_spec` at `entities = [2, 5, 3]` (non-empty
branch) and at `entities = []` (empty branch). -/
theorem count_entities_spec_witness :
    (([2, 5, 3] : List Nat) ≠ []
      ∧ ∃ m, m ∈ [2, 5, 3] ∧ (∀ x ∈ [2, 5, 3], x ≤ m)
          ∧ count_entities [2, 5, 3] = some (m + 1)
          ∧ (WorldArrowSnapshot.to_world_reg_reserve ⟨[2, 5, 3], [0]⟩)
              = some (m + 1, [0]))
    ∧ (([] : List Nat) = [] → count_entities [] = none) :=
  ⟨⟨by decide, (count_entities_spec (τ := Nat) ⟨[2, 5, 3], [0]⟩).1 (by decide)⟩,
    (count_entities_spec (τ := Nat) ⟨[], [0]⟩).2⟩

end BinaryArchive

/-! ## Aurora manifest locations and formats (src/aurora_archive.rs) -/

namespace AuroraArchive

/-- Model of Rust `str::ends_with` on the character sequence. -/
def strEndsWith (s pat : String) : Bool :=
  pat.data.isSuffixOf s.data

/-- Model of Rust `str::starts_with` on the character sequence. -/
def strStartsWith (s pat : String) : Bool :=
  pat.data.isPrefixOf s.data

/-- Model of `AuroraLocation`. -/
inductive AuroraLocation where
  | file (path : String) : AuroraLocation
  | embed (name : String) : AuroraLocation
  | unknown (s : String) : AuroraLocation
deriving DecidableEq, Repr

/-- Model of `impl From<&str> for AuroraLocation`: `strip_prefix("file://")`,
then `strip_prefix("embed://")`, else `Unknown`. -/
def aurora_location_from_str (s : String) : AuroraLocation :=
  if strStartsWith s "file://" then .file ⟨s.data.drop 7⟩
  else if strStartsWith s "embed://" then .embed ⟨s.data.drop 8⟩
  else .unknown s

/-- Model of `AuroraFormat` (with the `arrow_rs` feature enabled, so the
`Parquet` variant is present). -/
inductive AuroraFormat where
  | csv : AuroraFormat
  | json : AuroraFormat
  | msgPack : AuroraFormat
  | csvMsgPack : AuroraFormat
  | parquet : AuroraFormat
  | unknown : AuroraFormat
deriving DecidableEq, Repr

/-- Model of `AuroraFormat::from_path`: suffix tests in source order, with
the `.parquet` test inside the final `else` branch. -/
def AuroraFormat.from_path (path : String) : AuroraFormat :=
  if strEndsWith path ".csv" then .csv
  else if strEndsWith path ".json" then .json
  else if strEndsWith path ".csv.msgpack" then .csvMsgPack
  else if strEndsWith path ".msgpack" then .msgPack
  else if strEndsWith path ".parquet" then .parquet
  else .unknown

/-- Model of `AuroraFormat::from_str`: exact match on the format string. -/
def AuroraFormat.from_format_str (s : String) : AuroraFormat :=
  if s = "csv" then .csv
  else if s = "json" then .json
  else if s = "msgpack" then .msgPack
  else if s = "csv.msgpack" then .csvMsgPack
  else if s = "parquet" then .parquet
  else .unknown

/-- The in-memory representation chosen by `parse_blob` for each format.
The per-format decoders themselves are external serializers; `none` models
the `Err("Cannot parse unknown format")` branch. -/
inductive AuroraInternalKind where
  | columnarCsv : AuroraInternalKind
  | archetypeSnapshot : AuroraInternalKind
  | arrowComponentTable : AuroraInternalKind
deriving DecidableEq, Repr

/-- Model of the dispatch performed by `parse_blob` on the blob's format. -/
def parse_blob_kind : AuroraFormat → Option AuroraInternalKind
  | .csv => some .columnarCsv
  | .json => some .archetypeSnapshot
  | .msgPack => some .archetypeSnapshot
  | .csvMsgPack => some .columnarCsv
  | .parquet => some .arrowComponentTable
  | .unknown => none

/-- Model of `EmbeddedBlob`. -/
structure EmbeddedBlob where
  format : String
  data : String
deriving DecidableEq, Repr

/-- Formats whose embedded `data` string is base64 (the
`MsgPack | CsvMsgPack` and `Parquet` match arms of
`load_blob_from_location_with_base`). -/
def AuroraFormat.is_base64_embedded : AuroraFormat → Bool
  | .msgPack => true
  | .csvMsgPack => true
  | .parquet => true
  | _ => false

/-- Value of one character in the standard base64 alphabet. -/
def base64CharVal (c : Char) : Option Nat :=
  if 'A' ≤ c ∧ c ≤ 'Z' then some (c.toNat - 65)
  else if 'a' ≤ c ∧ c ≤ 'z' then some (c.toNat - 71)
  else if '0' ≤ c ∧ c ≤ '9' then some (c.toNat + 4)
  else if c = '+' then some 62
  else if c = '/' then some 63
  else none

/-- Strict base64 decoding with the standard alphabet and mandatory
canonical padding, as enforced by the `base64` crate's `BASE64_STANDARD`
engine (an external collaborator): invalid characters, a length that is not
a multiple of four, misplaced padding, or non-canonical trailing bits are
all rejected. -/
def base64DecodeChars : List Char → Option (List Nat)
  | [] => some []
  | a :: b :: c :: d :: rest =>
    match base64CharVal a, base64CharVal b with
    | some va, some vb =>
      if c = '=' then
        if d = '=' ∧ rest = [] ∧ vb % 16 = 0 then some [va * 4 + vb / 16]
        else none
      else
        match base64CharVal c with
        | some vc =>
          if d = '=' then
            if rest = [] ∧ vc % 4 = 0 then
              some [va * 4 + vb / 16, vb % 16 * 16 + vc / 4]
            else none
          else
            match base64CharVal d with
            | some vd =>
              (base64DecodeChars rest).map
                (fun tail =>
                  (va * 4 + vb / 16) :: (vb % 16 * 16 + vc / 4) ::
                    (vc % 4 * 64 + vd) :: tail)
            | none => none
        | none => none
    | _, _ => none
  | _ => none

/-- Base64 decoding of a string. -/
def base64Decode (s : String) : Option (List Nat) :=
  base64DecodeChars s.data

/-- Byte content of an embedded text blob (`blob.data.as_bytes()`), modelled
at the level of character scalars. -/
def strBytes (s : String) : List Nat :=
  s.data.map Char.toNat

/-- Model of `LoadedBlob`. -/
structure LoadedBlob where
  format : AuroraFormat
  bytes : List Nat
deriving DecidableEq, Repr

/-- Model of Rust `Path::is_absolute` for Unix-style path strings. -/
def is_absolute (p : String) : Bool :=
  strStartsWith p "/"

/-- Model of Rust `Path::join` for string paths. -/
def join_path (base rel : String) : String :=
  if strEndsWith base "/" then base ++ rel else base ++ "/" ++ rel

/-- The full path read for a `file://` location: kept as given when
absolute, else joined onto the base directory (the `let full_path` step of
`load_blob_from_location_with_base`). -/
def resolve_with_base (base rel : String) : String :=
  if is_absolute rel then rel else join_path base rel

/-- Model of Rust `Path::file_name` for string paths: the last
`/`-separated component. -/
def file_name (p : String) : String :=
  (p.splitOn "/").getLastD ""

/-- Model of `load_blob_from_location_with_base`.  The filesystem is the
external collaborator `fs` (path to bytes); the embed map is an association
list, as the manifest's `embed` table. -/
def load_blob_from_location_with_base
    (fs : String → Option (List Nat)) (loc : AuroraLocation)
    (embed_map : List (String × EmbeddedBlob)) (base_dir : String) :
    Except String LoadedBlob :=
  match loc with
  | .file raw_path =>
    let full_path := resolve_with_base base_dir raw_path
    match fs full_path with
    | some bytes => .ok ⟨AuroraFormat.from_path (file_name full_path), bytes⟩
    | none => .error "Failed to read file"
  | .embed name =>
    match embed_map.lookup name with
    | none => .error "Embedded blob not found in manifest embed section."
    | some blob =>
      let format := AuroraFormat.from_format_str blob.format
      if format.is_base64_embedded then
        match base64Decode blob.data with
        | some bytes => .ok ⟨format, bytes⟩
        | none => .error "Base64 decode failed"
      else .ok ⟨format, strBytes blob.data⟩
  | .unknown s => .error ("Unknown location type: " ++ s)

theorem strEndsWith_suffix {p a : String} (h : strEndsWith p a = true) :
    a.data <:+ p.data :=
  List.isSuffixOf_iff_suffix.mp h

theorem short_false_of_long {p a b : String} (hb : strEndsWith p b = true)
    (hlen : a.data.length ≤ b.data.length) (hnab : ¬ a.data <:+ b.data) :
    strEndsWith p a = false := by
  by_contra h
  rw [Bool.not_eq_false] at h
  exact hnab
    (List.suffix_of_suffix_length_le (strEndsWith_suffix h) (strEndsWith_suffix hb) hlen)

theorem long_false_of_short {p a b : String} (ha : strEndsWith p a = true)
    (hlen : a.data.length ≤ b.data.length) (hnab : ¬ a.data <:+ b.data) :
    strEndsWith p b = false := by
  by_contra h
  rw [Bool.not_eq_false] at h
  exact hnab
    (List.suffix_of_suffix_length_le (strEndsWith_suffix ha) (strEndsWith_suffix h) hlen)

/-- C7: the parser is selected from the path extension exactly as specified:
`.csv` is columnar CSV, `.json` a JSON archetype snapshot, `.csv.msgpack` a
MessagePack-wrapped columnar CSV (taking precedence over plain `.msgpack`),
`.msgpack` a MessagePack archetype snapshot, `.parquet` an Arrow
`ComponentTable`; explicit format strings select likewise, and any other
extension or format string is `Unknown`, which `parse_blob` refuses. -/
theorem format_dispatch :
    (∀ p, strEndsWith p ".csv" = true →
      AuroraFormat.from_path p = .csv
      ∧ parse_blob_kind (AuroraFormat.from_path p) = some .columnarCsv)
    ∧ (∀ p, strEndsWith p ".json" = true →
      AuroraFormat.from_path p = .json
      ∧ parse_blob_kind (AuroraFormat.from_path p) = some .archetypeSnapshot)
    ∧ (∀ p, strEndsWith p ".csv.msgpack" = true →
      AuroraFormat.from_path p = .csvMsgPack
      ∧ parse_blob_kind (AuroraFormat.from_path p) = some .columnarCsv)
    ∧ (∀ p, strEndsWith p ".msgpack" = true → strEndsWith p ".csv.msgpack" = false →
      AuroraFormat.from_path p = .msgPack
      ∧ parse_blob_kind (AuroraFormat.from_path p) = some .archetypeSnapshot)
    ∧ (∀ p, strEndsWith p ".parquet" = true →
      AuroraFormat.from_path p = .parquet
      ∧ parse_blob_kind (AuroraFormat.from_path p) = some .arrowComponentTable)
    ∧ (∀ p, strEndsWith p ".csv" = false → strEndsWith p ".json" = false →
      strEndsWith p ".csv.msgpack" = false → strEndsWith p ".msgpack" = false →
      strEndsWith p ".parquet" = false →
      AuroraFormat.from_path p = .unknown
      ∧ parse_blob_kind (AuroraFormat.from_path p) = none)
    ∧ (AuroraFormat.from_format_str "csv" = .csv
      ∧ AuroraFormat.from_format_str "json" = .json
      ∧ AuroraFormat.from_format_str "msgpack" = .msgPack
      ∧ AuroraFormat.from_format_str "csv.msgpack" = .csvMsgPack
      ∧ AuroraFormat.from_format_str "parquet" = .parquet)
    ∧ (∀ s, s ≠ "csv" → s ≠ "json" → s ≠ "msgpack" → s ≠ "csv.msgpack" →
      s ≠ "parquet" →
      AuroraFormat.from_format_str s = .unknown
      ∧ parse_blob_kind (AuroraFormat.from_format_str s) = none) := by
  refine ⟨?_, ?_, ?_, ?_, ?_, ?_, ?_, ?_⟩
  · intro p h
    simp [AuroraFormat.from_path, h, parse_blob_kind]
  · intro p h
    have h1 : strEndsWith p ".csv" = false :=
      short_false_of_long h (by decide) (by decide)
    simp [AuroraFormat.from_path, h, h1, parse_blob_kind]
  · intro p h
    have h1 : strEndsWith p ".csv" = false :=
      short_false_of_long h (by decide) (by decide)
    have h2 : strEndsWith p ".json" = false :=
      short_false_of_long h (by decide) (by decide)
    simp [AuroraFormat.from_path, h, h1, h2, parse_blob_kind]
  · intro p h hn
    have h1 : strEndsWith p ".csv" = false :=
      short_false_of_long h (by decide) (by decide)
    have h2 : strEndsWith p ".json" = false :=
      short_false_of_long h (by decide) (by decide)
    simp [AuroraFormat.from_path, h, h1, h2, hn, parse_blob_kind]
  · intro p h
    have h1 : strEndsWith p ".csv" = false :=
      short_false_of_long h (by decide) (by decide)
    have h2 : strEndsWith p ".json" = false :=
      short_false_of_long h (by decide) (by decide)
    have h3 : strEndsWith p ".csv.msgpack" = false :=
      long_false_of_short h (by decide) (by decide)
    have h4 : strEndsWith p ".msgpack" = false :=
      short_false_of_long h (by decide) (by decide)
    simp [AuroraFormat.from_path, h, h1, h2, h3, h4, parse_blob_kind]
  · intro p h1 h2 h3 h4 h5
    simp [AuroraFormat.from_path, h1, h2, h3, h4, h5, parse_blob_kind]
  · exact ⟨rfl, rfl, rfl, rfl, rfl⟩
  · intro s h1 h2 h3 h4 h5
    simp [AuroraFormat.from_format_str, h1, h2, h3, h4, h5, parse_blob_kind]

/-- Witness for `format_dispatch` at concrete paths and format strings. -/
theorem format_dispatch_witness :
    (AuroraFormat.from_path "a.csv" = .csv
      ∧ parse_blob_kind (AuroraFormat.from_path "a.csv") = some .columnarCsv)
    ∧ (AuroraFormat.from_path "a.json" = .json
      ∧ parse_blob_kind (AuroraFormat.from_path "a.json") = some .archetypeSnapshot)
    ∧ (AuroraFormat.from_path "a.csv.msgpack" = .csvMsgPack
      ∧ parse_blob_kind (AuroraFormat.from_path "a.csv.msgpack") = some .columnarCsv)
    ∧ (AuroraFormat.from_path "a.msgpack" = .msgPack
      ∧ parse_blob_kind (AuroraFormat.from_path "a.msgpack")
          = some .archetypeSnapshot)
    ∧ (AuroraFormat.from_path "a.parquet" = .parquet
      ∧ parse_blob_kind (AuroraFormat.from_path "a.parquet")
          = some .arrowComponentTable)
    ∧ (AuroraFormat.from_path "a.toml" = .unknown
      ∧ parse_blob_kind (AuroraFormat.from_path "a.toml") = none)
    ∧ (AuroraFormat.from_format_str "weird" = .unknown
      ∧ parse_blob_kind (AuroraFormat.from_format_str "weird") = none) :=
  ⟨format_dispatch.1 "a.csv" (by decide),
    format_dispatch.2.1 "a.json" (by decide),
    format_dispatch.2.2.1 "a.csv.msgpack" (by decide),
    format_dispatch.2.2.2.1 "a.msgpack" (by decide) (by decide),
    format_dispatch.2.2.2.2.1 "a.parquet" (by decide),
    format_dispatch.2.2.2.2.2.1 "a.toml" (by decide) (by decide) (by decide)
      (by decide) (by decide),
    format_dispatch.2.2.2.2.2.2.2 "weird" (by decide) (by decide) (by decide)
      (by decide) (by decide)⟩

/-- Whether an embedded blob's payload is decodable: text formats always
are; `msgpack`, `csv.msgpack` and `parquet` payloads must be valid base64. -/
def embed_decodable (blob : EmbeddedBlob) : Bool :=
  !(AuroraFormat.from_format_str blob.format).is_base64_embedded
    || (base64Decode blob.data).isSome

/-- C6 counterexample: the embed map contains the key `X`, yet resolving
`embed://X` fails, because the blob's declared format is binary (`msgpack`)
and its payload is not valid base64.  So `embed://X` resolving is not
equivalent to the manifest's embed map containing `X`. -/
theorem manifest_embed_counterexample :
    (List.lookup "X" [("X", EmbeddedBlob.mk "msgpack" "!!!")]).isSome = true
    ∧ load_blob_from_location_with_base (fun _ => none) (.embed "X")
        [("X", EmbeddedBlob.mk "msgpack" "!!!")] "."
        = .error "Base64 decode failed" :=
  ⟨rfl, rfl⟩

/-- C6 (amended): `embed://X` resolves to a blob iff the embed map contains
`X` and, for the binary formats, the payload is valid base64; a missing
embedded blob fails the load; `file://Y` reads exactly `Y` when absolute and
`Y` joined onto the base directory otherwise; any other scheme errors. -/
theorem manifest_url_semantics (fs : String → Option (List Nat))
    (m : List (String × EmbeddedBlob)) (base name Y src : String) :
    ((∃ b, load_blob_from_location_with_base fs (.embed name) m base = .ok b)
      ↔ ∃ blob, m.lookup name = some blob ∧ embed_decodable blob = true)
    ∧ (m.lookup name = none →
      ∃ e, load_blob_from_location_with_base fs (.embed name) m base = .error e)
    ∧ (∀ bytes, fs (resolve_with_base base Y) = some bytes →
      load_blob_from_location_with_base fs (.file Y) m base
        = .ok ⟨AuroraFormat.from_path (file_name (resolve_with_base base Y)), bytes⟩)
    ∧ (is_absolute Y = true → resolve_with_base base Y = Y)
    ∧ (is_absolute Y = false → resolve_with_base base Y = join_path base Y)
    ∧ (strStartsWith src "file://" = false → strStartsWith src "embed://" = false →
      ∃ e, load_blob_from_location_with_base fs (aurora_location_from_str src) m base
        = .error e) := by
  refine ⟨?_, ?_, ?_, ?_, ?_, ?_⟩
  · cases hl : m.lookup name with
    | none =>
      simp [load_blob_from_location_with_base, hl]
    | some blob =>
      by_cases hb : (AuroraFormat.from_format_str blob.format).is_base64_embedded = true
      · cases hd : base64Decode blob.data with
        | none =>
          simp [load_blob_from_location_with_base, hl, hb, hd, embed_decodable]
        | some bytes =>
          simp [load_blob_from_location_with_base, hl, hb, hd, embed_decodable]
      · rw [Bool.not_eq_true] at hb
        simp [load_blob_from_location_with_base, hl, hb, embed_decodable]
  · intro hl
    simp [load_blob_from_location_with_base, hl]
  · intro bytes hfs
    simp [load_blob_from_location_with_base, hfs]
  · intro ha
    simp [resolve_with_base, ha]
  · intro ha
    simp [resolve_with_base, ha]
  · intro h1 h2
    simp [aurora_location_from_str, h1, h2, load_blob_from_location_with_base]

/-- Witness for `manifest_url_semantics`: a concrete embed map, filesystem
and base directory exercising the present-key, missing-key, absolute-path,
relative-path and unknown-scheme branches. -/
theorem manifest_url_semantics_witness :
    (∃ b, load_blob_from_location_with_base
        (fun p => if p = "/base/rel.csv" then some [9] else none) (.embed "X")
        [("X", EmbeddedBlob.mk "csv" "hi")] "/base" = .ok b)
    ∧ (∃ e, load_blob_from_location_with_base
        (fun p => if p = "/base/rel.csv" then some [9] else none) (.embed "Z")
        [("X", EmbeddedBlob.mk "csv" "hi")] "/base" = .error e)
    ∧ load_blob_from_location_with_base
        (fun p => if p = "/base/rel.csv" then some [9] else none) (.file "rel.csv")
        [("X", EmbeddedBlob.mk "csv" "hi")] "/base"
        = .ok ⟨AuroraFormat.from_path
            (file_name (resolve_with_base "/base" "rel.csv")), [9]⟩
    ∧ resolve_with_base "/base" "/abs/f.json" = "/abs/f.json"
    ∧ resolve_with_base "/base" "rel.csv" = join_path "/base" "rel.csv"
    ∧ (∃ e, load_blob_from_location_with_base
        (fun p => if p = "/base/rel.csv" then some [9] else none)
        (aurora_location_from_str "http://x")
        [("X", EmbeddedBlob.mk "csv" "hi")] "/base" = .error e) :=
  ⟨(manifest_url_semantics (fun p => if p = "/base/rel.csv" then some [9] else none)
      [("X", EmbeddedBlob.mk "csv" "hi")] "/base" "X" "rel.csv" "http://x").1.mpr
      ⟨EmbeddedBlob.mk "csv" "hi", rfl, rfl⟩,
    (manifest_url_semantics (fun p => if p = "/base/rel.csv" then some [9] else none)
      [("X", EmbeddedBlob.mk "csv" "hi")] "/base" "Z" "rel.csv" "http://x").2.1 rfl,
    (manifest_url_semantics (fun p => if p = "/base/rel.csv" then some [9] else none)
      [("X", EmbeddedBlob.mk "csv" "hi")] "/base" "X" "rel.csv" "http://x").2.2.1
      [9] (by decide),
    (manifest_url_semantics (fun p => if p = "/base/rel.csv" then some [9] else none)
      [("X", EmbeddedBlob.mk "csv" "hi")] "/base" "X" "/abs/f.json" "http://x").2.2.2.1
      (by decide),
    (manifest_url_semantics (fun p => if p = "/base/rel.csv" then some [9] else none)
      [("X", EmbeddedBlob.mk "csv" "hi")] "/base" "X" "rel.csv" "http://x").2.2.2.2.1
      (by decide),
    (manifest_url_semantics (fun p => if p = "/base/rel.csv" then some [9] else none)
      [("X", EmbeddedBlob.mk "csv" "hi")] "/base" "X" "rel.csv" "http://x").2.2.2.2.2
      (by decide) (by decide)⟩

end AuroraArchive

/-! ## HarvardCommandBuffer (src/bevy_cmdbuffer/buffer.rs) and
DeferredEntityBuilder (src/bevy_registry.rs)

Payloads are modelled by `Nat` tokens standing for the arena pointers; the
invocation of a stored drop function is a side effect in the source and is
modelled by appending the payload token to an explicit `dropped` list. -/

namespace CmdBuffer

/-- Model of `ArgMeta`: component id, payload pointer (token), and whether a
drop function is attached (`drop_fn: Option<DropFn>`). -/
structure ArgMeta where
  comp_id : Nat
  payload : Nat
  drop_fn : Bool
deriving DecidableEq, Repr

/-- Model of `OpHead`. -/
inductive OpHead where
  | modifyEntity (entity : Nat) (args : List ArgMeta) : OpHead
  | batchInsert (entities : List Nat) (payloads : List Nat) (comp_id : Nat)
      (drop_fn : Bool) : OpHead
  | removeComponents (entity : Nat) (ids : List Nat) : OpHead
  | despawn (entity : Nat) : OpHead
deriving DecidableEq, Repr

/-- Model of `Vec::swap_remove(i)`: move the last element into position `i`
and pop the last slot. -/
def swapRemove {α : Type} (l : List α) (i : Nat) : List α :=
  match l.getLast? with
  | none => l
  | some last => (l.set i last).dropLast

/-- Model of the write-combining loop inside `HarvardCommandBuffer::flush`:
scan the pending args from position `i`; when the arg at `i` has a component
id that occurs again later, run its drop function (when attached) and
`swap_remove` it without advancing, else advance.  Returns the surviving
args and the payload tokens dropped, in drop order. -/
def dedupPendingArgs (i : Nat) (l : List ArgMeta) (drops : List Nat) :
    List ArgMeta × List Nat :=
  if h : i < l.length then
    if (l.drop (i + 1)).any (fun b => b.comp_id == (l.get ⟨i, h⟩).comp_id) then
      dedupPendingArgs i (swapRemove l i)
        (drops ++ if (l.get ⟨i, h⟩).drop_fn then [(l.get ⟨i, h⟩).payload] else [])
    else
      dedupPendingArgs (i + 1) l drops
  else (l, drops)
termination_by l.length - i
decreasing_by
  · have hne : l ≠ [] := by
      intro hc
      rw [hc] at h
      simp at h
    have hlast : ∃ last, l.getLast? = some last := by
      cases hg : l.getLast? with
      | none => exact absurd (List.getLast?_eq_none_iff.mp hg) hne
      | some last => exact ⟨last, rfl⟩
    obtain ⟨last, hlast⟩ := hlast
    have : (swapRemove l i).length = l.length - 1 := by
      simp [swapRemove, hlast]
    omega
  · omega

/-- Model of `HarvardCommandBuffer` (arena bookkeeping elided; the `dropped`
field is the ghost list of payload tokens whose drop function has been
invoked during staging). -/
structure HarvardCommandBuffer where
  ops : List OpHead
  pending_entity : Option Nat
  pending_args : List ArgMeta
  dropped : List Nat
deriving DecidableEq, Repr

/-- Model of `HarvardCommandBuffer::new` / `Default`. -/
def HarvardCommandBuffer.new : HarvardCommandBuffer :=
  ⟨[], none, [], []⟩

/-- Model of `HarvardCommandBuffer::flush`: take the pending entity; when it
had pending args, write-combine them, push a `ModifyEntity` op when any arg
survives, and clear the staging area. -/
def HarvardCommandBuffer.flush (b : HarvardCommandBuffer) : HarvardCommandBuffer :=
  match b.pending_entity with
  | none => b
  | some e =>
    if b.pending_args.isEmpty then { b with pending_entity := none }
    else
      let r := dedupPendingArgs 0 b.pending_args []
      { ops := b.ops ++ (if r.1.isEmpty then [] else [.modifyEntity e r.1])
        pending_entity := none
        pending_args := []
        dropped := b.dropped ++ r.2 }

/-- Model of `HarvardCommandBuffer::insert_raw`: flush when the target
entity changes, then stage the arg. -/
def HarvardCommandBuffer.insert_raw (b : HarvardCommandBuffer)
    (entity comp_id payload : Nat) (drop_fn : Bool) : HarvardCommandBuffer :=
  let b1 :=
    if b.pending_entity ≠ some entity then
      { b.flush with pending_entity := some entity }
    else b
  { b1 with pending_args := b1.pending_args ++ [⟨comp_id, payload, drop_fn⟩] }

/-- Model of `HarvardCommandBuffer::insert` / `insert_generic` /
`insert_box`: all three stage a payload with a drop function attached. -/
def HarvardCommandBuffer.insert (b : HarvardCommandBuffer)
    (entity comp_id payload : Nat) : HarvardCommandBuffer :=
  b.insert_raw entity comp_id payload true

/-- Model of `HarvardCommandBuffer::insert_batch` (rows pair each target
entity with its payload, so the entity/component counts match by
construction): flush, then record a `BatchInsert` op unless empty. -/
def HarvardCommandBuffer.insert_batch (b : HarvardCommandBuffer)
    (rows : List (Nat × Nat)) (comp_id : Nat) : HarvardCommandBuffer :=
  let b1 := b.flush
  if rows.isEmpty then b1
  else
    { b1 with
      ops := b1.ops ++ [.batchInsert (rows.map Prod.fst) (rows.map Prod.snd)
        comp_id true] }

/-- Model of `HarvardCommandBuffer::remove_raw`. -/
def HarvardCommandBuffer.remove_raw (b : HarvardCommandBuffer)
    (entity : Nat) (ids : List Nat) : HarvardCommandBuffer :=
  let b1 := b.flush
  if ids.isEmpty then b1
  else { b1 with ops := b1.ops ++ [.removeComponents entity ids] }

/-- Model of `HarvardCommandBuffer::despawn`. -/
def HarvardCommandBuffer.despawn (b : HarvardCommandBuffer) (entity : Nat) :
    HarvardCommandBuffer :=
  let b1 := b.flush
  { b1 with ops := b1.ops ++ [.despawn entity] }

/-- Payloads of a list of args whose drop function is attached: the tokens
dropped when iterating the args and invoking each attached drop function. -/
def dropPayloads (l : List ArgMeta) : List Nat :=
  (l.filter ArgMeta.drop_fn).map ArgMeta.payload

/-- Payload tokens owned by one recorded op whose drop function the `Drop`
impl would run. -/
def opOwnedDrops : OpHead → List Nat
  | .modifyEntity _ args => dropPayloads args
  | .batchInsert _ payloads _ drop_fn => if drop_fn then payloads else []
  | .removeComponents _ _ => []
  | .despawn _ => []

/-- Model of `impl Drop for HarvardCommandBuffer`: run the drop function of
every pending arg that has one, then of every payload owned by the recorded
ops; the result lists the tokens dropped, in order. -/
def HarvardCommandBuffer.dropAll (b : HarvardCommandBuffer) : List Nat :=
  dropPayloads b.pending_args ++ (b.ops.map opOwnedDrops).flatten

/-- Update (or insert) the binding of `k` in an association list, as
`HashMap`-style insertion on the component tables of the model worlds. -/
def setAssoc {κ β : Type} [DecidableEq κ] (l : List (κ × β)) (k : κ) (v : β) :
    List (κ × β) :=
  match l with
  | [] => [(k, v)]
  | (k0, v0) :: rest =>
    if k0 = k then (k, v) :: rest else (k0, v0) :: setAssoc rest k v

/-- The world the buffer is applied to: entities with their component
tables.  An entity is live iff it has an entry. -/
abbrev ApplyWorld := List (Nat × List (Nat × Nat))

/-- Write one component on a live entity (`insert_by_id(s)`); a missing
entity is tolerated and skipped, as with `get_entity_mut` returning `Err`. -/
def ApplyWorld.setComp (w : ApplyWorld) (e c v : Nat) : ApplyWorld :=
  w.map (fun ent => if ent.1 = e then (ent.1, setAssoc ent.2 c v) else ent)

/-- Component lookup in the apply-target world. -/
def ApplyWorld.getComp (w : ApplyWorld) (e c : Nat) : Option Nat :=
  (w.lookup e).bind (List.lookup c)

/-- Model of one iteration of the op loop in
`HarvardCommandBuffer::apply`. -/
def applyOp (w : ApplyWorld) : OpHead → ApplyWorld
  | .modifyEntity e args =>
    if w.any (fun ent => ent.1 == e) then
      args.foldl (fun w a => w.setComp e a.comp_id a.payload) w
    else w
  | .batchInsert es ps c _ =>
    (es.zip ps).foldl
      (fun w r =>
        if w.any (fun ent => ent.1 == r.1) then w.setComp r.1 c r.2 else w) w
  | .removeComponents e ids =>
    w.map (fun ent =>
      if ent.1 = e then (ent.1, ent.2.filter (fun kv => !(ids.contains kv.1)))
      else ent)
  | .despawn e => w.filter (fun ent => ent.1 != e)

/-- Model of `HarvardCommandBuffer::apply`: flush, run every op in recorded
order against the world, then clear the op list and staging area. -/
def HarvardCommandBuffer.apply (b : HarvardCommandBuffer) (w : ApplyWorld) :
    ApplyWorld × HarvardCommandBuffer :=
  let b1 := b.flush
  (b1.ops.foldl applyOp w,
    { b1 with ops := [], pending_args := [], pending_entity := none })

theorem perm_get_cons_swapRemove {α : Type} (l : List α) (i : Nat) (h : i < l.length) :
    l.Perm (l[i] :: swapRemove l i) := by
  have hne : l ≠ [] := by
    intro hc
    subst hc
    simp at h
  obtain ⟨last, hlast⟩ : ∃ y, l.getLast? = some y := by
    cases hg : l.getLast? with
    | none => exact absurd (List.getLast?_eq_none_iff.mp hg) hne
    | some y => exact ⟨y, rfl⟩
  have hsw : swapRemove l i = (l.set i last).dropLast := by
    simp [swapRemove, hlast]
  have hset : l.set i last = l.take i ++ last :: l.drop (i + 1) := by
    rw [List.set_eq_take_append_cons_drop, if_pos h]
  have hdec : l.take i ++ l[i] :: l.drop (i + 1) = l := by
    rw [List.getElem_cons_drop l i h, List.take_append_drop]
  rcases List.eq_nil_or_concat (l.drop (i + 1)) with hd | ⟨ds, y, hd⟩
  · rw [hd] at hdec hset
    have hlast2 : last = l[i] := by
      have h2 := hlast
      rw [← hdec, List.getLast?_concat] at h2
      exact (Option.some_inj.mp h2).symm
    have hsw2 : swapRemove l i = l.take i := by
      rw [hsw, hset, List.dropLast_concat]
    rw [hsw2]
    have hp : (l.take i ++ [l[i]]).Perm (l[i] :: l.take i) := List.perm_append_comm
    rw [hdec] at hp
    exact hp
  · rw [List.concat_eq_append] at hd
    rw [hd] at hdec hset
    have hlast2 : last = y := by
      have h2 := hlast
      have hassoc : l.take i ++ l[i] :: (ds ++ [y]) = (l.take i ++ l[i] :: ds) ++ [y] := by
        simp
      rw [← hdec, hassoc, List.getLast?_concat] at h2
      exact (Option.some_inj.mp h2).symm
    have hsw2 : swapRemove l i = l.take i ++ y :: ds := by
      rw [hsw, hset, hlast2]
      have hassoc : l.take i ++ y :: (ds ++ [y]) = (l.take i ++ y :: ds) ++ [y] := by
        simp
      rw [hassoc, List.dropLast_concat]
    rw [hsw2]
    have hp1 : (l.take i ++ l[i] :: (ds ++ [y])).Perm (l.take i ++ l[i] :: (y :: ds)) :=
      List.Perm.append_left _ (List.Perm.cons _ List.perm_append_comm.symm)
    have hp : (l.take i ++ l[i] :: (ds ++ [y])).Perm (l[i] :: (l.take i ++ y :: ds)) :=
      hp1.trans List.perm_middle
    rw [hdec] at hp
    exact hp

theorem coe_append (l₁ l₂ : List Nat) :
    ((l₁ ++ l₂ : List Nat) : Multiset Nat) = ↑l₁ + ↑l₂ := rfl

theorem dropPayloads_perm {l₁ l₂ : List ArgMeta} (h : l₁.Perm l₂) :
    (dropPayloads l₁).Perm (dropPayloads l₂) :=
  List.Perm.map _ (List.Perm.filter _ h)

theorem dropPayloads_cons (a : ArgMeta) (l : List ArgMeta) :
    dropPayloads (a :: l)
      = (if a.drop_fn then [a.payload] else []) ++ dropPayloads l := by
  by_cases hd : a.drop_fn
  · simp [dropPayloads, List.filter_cons, hd]
  · simp [dropPayloads, List.filter_cons, hd]

theorem dedupPendingArgs_perm_aux (n : Nat) :
    ∀ (i : Nat) (l : List ArgMeta) (drops : List Nat), l.length - i ≤ n →
      ((dedupPendingArgs i l drops).2
        ++ dropPayloads (dedupPendingArgs i l drops).1).Perm
        (drops ++ dropPayloads l) := by
  induction n with
  | zero =>
    intro i l drops hn
    have hge : ¬ i < l.length := by omega
    rw [dedupPendingArgs, dif_neg hge]
  | succ n ih =>
    intro i l drops hn
    rw [dedupPendingArgs]
    by_cases h : i < l.length
    · rw [dif_pos h]
      by_cases hdup :
          ((l.drop (i + 1)).any fun b => b.comp_id == (l.get ⟨i, h⟩).comp_id) = true
      · rw [if_pos hdup]
        have hne : l ≠ [] := by
          intro hc
          rw [hc] at h
          simp at h
        obtain ⟨last, hlast⟩ : ∃ y, l.getLast? = some y := by
          cases hg : l.getLast? with
          | none => exact absurd (List.getLast?_eq_none_iff.mp hg) hne
          | some y => exact ⟨y, rfl⟩
        have hlen : (swapRemove l i).length = l.length - 1 := by
          simp [swapRemove, hlast]
        have ih2 := ih i (swapRemove l i)
          (drops ++ if (l.get ⟨i, h⟩).drop_fn then [(l.get ⟨i, h⟩).payload] else [])
          (by omega)
        refine ih2.trans ?_
        have hperm := perm_get_cons_swapRemove l i h
        have hl : (dropPayloads l).Perm
            ((if (l.get ⟨i, h⟩).drop_fn then [(l.get ⟨i, h⟩).payload] else [])
              ++ dropPayloads (swapRemove l i)) := by
          have hdp := dropPayloads_perm hperm
          rw [dropPayloads_cons] at hdp
          simpa using hdp
        rw [← Multiset.coe_eq_coe] at hl ⊢
        rw [coe_append, coe_append, coe_append, hl, coe_append]
        abel
      · rw [if_neg hdup]
        exact ih (i + 1) l drops (by omega)
    · rw [dif_neg h]

/-- The write-combining loop is drop-complete: the dropped payloads plus the
droppable payloads of the survivors are a permutation of the accumulator
plus the droppable payloads of the input. -/
theorem dedupPendingArgs_perm (i : Nat) (l : List ArgMeta) (drops : List Nat) :
    ((dedupPendingArgs i l drops).2
      ++ dropPayloads (dedupPendingArgs i l drops).1).Perm
      (drops ++ dropPayloads l) :=
  dedupPendingArgs_perm_aux (l.length - i) i l drops (Nat.le_refl _)

/-- The drop invocations over the whole lifetime of the buffer: those made
by write-combining during staging plus those the `Drop` impl makes. -/
def HarvardCommandBuffer.lifetimeDrops (b : HarvardCommandBuffer) : List Nat :=
  b.dropped ++ b.dropAll

theorem flush_lifetimeDrops (b : HarvardCommandBuffer) :
    (b.flush.lifetimeDrops).Perm b.lifetimeDrops := by
  obtain ⟨ops, pe, pa, dr⟩ := b
  cases pe with
  | none => exact List.Perm.refl _
  | some e =>
    by_cases hemp : pa.isEmpty
    · rw [List.isEmpty_iff] at hemp
      subst hemp
      exact List.Perm.refl _
    · have hemp2 : pa.isEmpty = false := by
        rw [← Bool.not_eq_true]
        exact hemp
      have hded := dedupPendingArgs_perm 0 pa []
      simp only [List.nil_append] at hded
      have hkept : ((if (dedupPendingArgs 0 pa []).1.isEmpty then ([] : List OpHead)
            else [OpHead.modifyEntity e (dedupPendingArgs 0 pa []).1]).map
              opOwnedDrops).flatten
          = dropPayloads (dedupPendingArgs 0 pa []).1 := by
        by_cases hk : (dedupPendingArgs 0 pa []).1.isEmpty
        · rw [if_pos hk]
          rw [List.isEmpty_iff] at hk
          simp [hk, dropPayloads]
        · rw [if_neg hk]
          simp [opOwnedDrops, dropPayloads]
      simp only [HarvardCommandBuffer.flush, hemp2, Bool.false_eq_true, if_false,
        HarvardCommandBuffer.lifetimeDrops, HarvardCommandBuffer.dropAll,
        List.filter_nil, List.map_nil, List.nil_append, List.map_append,
        List.flatten_append, hkept]
      rw [← Multiset.coe_eq_coe] at hded ⊢
      rw [coe_append] at hded
      simp only [coe_append]
      rw [← hded]
      abel

theorem dropPayloads_append (l₁ l₂ : List ArgMeta) :
    dropPayloads (l₁ ++ l₂) = dropPayloads l₁ ++ dropPayloads l₂ := by
  simp [dropPayloads, List.filter_append]

theorem lifetime_push_arg (b : HarvardCommandBuffer) (a : ArgMeta) :
    (({ b with pending_args := b.pending_args ++ [a] }
        : HarvardCommandBuffer).lifetimeDrops).Perm
      (b.lifetimeDrops ++ dropPayloads [a]) := by
  simp only [HarvardCommandBuffer.lifetimeDrops, HarvardCommandBuffer.dropAll,
    dropPayloads_append]
  rw [← Multiset.coe_eq_coe]
  simp only [coe_append]
  abel

theorem lifetime_push_op (b : HarvardCommandBuffer) (op : OpHead) :
    (({ b with ops := b.ops ++ [op] } : HarvardCommandBuffer).lifetimeDrops).Perm
      (b.lifetimeDrops ++ opOwnedDrops op) := by
  simp only [HarvardCommandBuffer.lifetimeDrops, HarvardCommandBuffer.dropAll,
    List.map_append, List.flatten_append, List.map_cons, List.map_nil,
    List.flatten_cons, List.flatten_nil, List.append_nil]
  rw [← Multiset.coe_eq_coe]
  simp only [coe_append]
  abel

/-- The operations a load session issues against the buffer; each `insert`
stages one payload with a drop function, as `insert` / `insert_generic` /
`insert_box` do. -/
inductive Cmd where
  | insert (entity comp_id payload : Nat) : Cmd
  | insertBatch (rows : List (Nat × Nat)) (comp_id : Nat) : Cmd
  | removeComponents (entity : Nat) (ids : List Nat) : Cmd
  | despawn (entity : Nat) : Cmd
deriving DecidableEq, Repr

/-- Run one buffer operation. -/
def runCmd (b : HarvardCommandBuffer) : Cmd → HarvardCommandBuffer
  | .insert e c p => b.insert e c p
  | .insertBatch rows c => b.insert_batch rows c
  | .removeComponents e ids => b.remove_raw e ids
  | .despawn e => b.despawn e

/-- Build a buffer from a fresh one by a sequence of operations. -/
def runCmds (cmds : List Cmd) : HarvardCommandBuffer :=
  cmds.foldl runCmd HarvardCommandBuffer.new

/-- The payloads (with attached drop functions) a command hands over to the
buffer. -/
def cmdPayloads : Cmd → List Nat
  | .insert _ _ p => [p]
  | .insertBatch rows _ => rows.map Prod.snd
  | .removeComponents _ _ => []
  | .despawn _ => []

theorem runCmd_lifetimeDrops (b : HarvardCommandBuffer) (cmd : Cmd) :
    ((runCmd b cmd).lifetimeDrops).Perm (b.lifetimeDrops ++ cmdPayloads cmd) := by
  cases cmd with
  | insert e c p =>
    show ((b.insert_raw e c p true).lifetimeDrops).Perm _
    unfold HarvardCommandBuffer.insert_raw
    by_cases hpe : b.pending_entity ≠ some e
    · rw [if_pos hpe]
      have h1 := lifetime_push_arg { b.flush with pending_entity := some e }
        ⟨c, p, true⟩
      refine h1.trans ?_
      have h2 : ({ b.flush with pending_entity := some e }
          : HarvardCommandBuffer).lifetimeDrops = b.flush.lifetimeDrops := rfl
      rw [h2]
      have h3 : dropPayloads [⟨c, p, true⟩] = [p] := by
        simp [dropPayloads]
      rw [h3]
      exact List.Perm.append_right [p] (flush_lifetimeDrops b)
    · rw [if_neg hpe]
      have h1 := lifetime_push_arg b ⟨c, p, true⟩
      refine h1.trans ?_
      have h3 : dropPayloads [⟨c, p, true⟩] = [p] := by
        simp [dropPayloads]
      rw [h3]
      exact List.Perm.refl _
  | insertBatch rows c =>
    show ((b.insert_batch rows c).lifetimeDrops).Perm _
    unfold HarvardCommandBuffer.insert_batch
    by_cases hr : rows.isEmpty
    · rw [if_pos hr]
      rw [List.isEmpty_iff] at hr
      subst hr
      simpa [cmdPayloads] using flush_lifetimeDrops b
    · rw [if_neg hr]
      have h1 := lifetime_push_op b.flush
        (.batchInsert (rows.map Prod.fst) (rows.map Prod.snd) c true)
      refine h1.trans ?_
      have h2 : opOwnedDrops
          (.batchInsert (rows.map Prod.fst) (rows.map Prod.snd) c true)
          = rows.map Prod.snd := by
        simp [opOwnedDrops]
      rw [h2]
      exact List.Perm.append_right _ (flush_lifetimeDrops b)
  | removeComponents e ids =>
    show ((b.remove_raw e ids).lifetimeDrops).Perm _
    unfold HarvardCommandBuffer.remove_raw
    by_cases hi : ids.isEmpty
    · rw [if_pos hi]
      simpa [cmdPayloads] using flush_lifetimeDrops b
    · rw [if_neg hi]
      have h1 := lifetime_push_op b.flush (.removeComponents e ids)
      refine h1.trans ?_
      have h2 : opOwnedDrops (.removeComponents e ids) = [] := rfl
      rw [h2]
      simpa [cmdPayloads] using List.Perm.append_right ([] : List Nat)
        (flush_lifetimeDrops b)
  | despawn e =>
    show ((b.despawn e).lifetimeDrops).Perm _
    unfold HarvardCommandBuffer.despawn
    have h1 := lifetime_push_op b.flush (.despawn e)
    refine h1.trans ?_
    have h2 : opOwnedDrops (.despawn e) = [] := rfl
    rw [h2]
    simpa [cmdPayloads] using List.Perm.append_right ([] : List Nat)
      (flush_lifetimeDrops b)

theorem runCmds_lifetimeDrops (cmds : List Cmd) (b : HarvardCommandBuffer) :
    ((cmds.foldl runCmd b).lifetimeDrops).Perm
      (b.lifetimeDrops ++ (cmds.map cmdPayloads).flatten) := by
  induction cmds generalizing b with
  | nil => simp
  | cons cmd rest ih =>
    simp only [List.foldl_cons, List.map_cons, List.flatten_cons]
    refine (ih (runCmd b cmd)).trans ?_
    have h2 := List.Perm.append_right ((rest.map cmdPayloads).flatten)
      (runCmd_lifetimeDrops b cmd)
    refine h2.trans ?_
    rw [List.append_assoc]

/-- C3: a `HarvardCommandBuffer` built by any sequence of staging operations
and then dropped without `apply` destroys every payload it owns exactly
once: the drop invocations made by its `Drop` impl (`dropAll`), together
with those already made by write-combining during staging (`dropped`), are a
permutation of all payloads handed to the buffer — none is leaked and none
is dropped twice. -/
theorem drop_safety (cmds : List Cmd) :
    ((runCmds cmds).dropped ++ (runCmds cmds).dropAll).Perm
      ((cmds.map cmdPayloads).flatten) := by
  have h := runCmds_lifetimeDrops cmds HarvardCommandBuffer.new
  simpa [HarvardCommandBuffer.lifetimeDrops, runCmds, HarvardCommandBuffer.new,
    HarvardCommandBuffer.dropAll, dropPayloads] using h

end CmdBuffer

/-- Model of `DeferredEntityBuilder` (src/bevy_registry.rs), generic over
the component-id type `ι` and payload type `κ`; `dropped` is the ghost list
of payloads whose drop function has been invoked by the builder (the source
never invokes any, so no operation appends to it). -/
structure DeferredEntityBuilder (ι κ : Type) where
  ids : List ι
  ptrs : List κ
  dropped : List κ

/-- Model of `DeferredEntityBuilder::new`. -/
def DeferredEntityBuilder.new {ι κ : Type} : DeferredEntityBuilder ι κ :=
  ⟨[], [], []⟩

/-- Model of `DeferredEntityBuilder::insert_by_id`: when the id is already
staged, overwrite the stored pointer in place — without running the old
pointer's drop function — else push both. -/
def DeferredEntityBuilder.insert_by_id {ι κ : Type} [DecidableEq ι]
    (b : DeferredEntityBuilder ι κ) (id : ι) (ptr : κ) :
    DeferredEntityBuilder ι κ :=
  match b.ids.findIdx? (fun x => x = id) with
  | some i => { b with ptrs := b.ptrs.set i ptr }
  | none => { b with ids := b.ids ++ [id], ptrs := b.ptrs ++ [ptr] }

namespace CmdBuffer

theorem lookup_setAssoc {κ β : Type} [DecidableEq κ] [BEq κ] [LawfulBEq κ]
    (l : List (κ × β)) (k : κ) (v : β) :
    List.lookup k (setAssoc l k v) = some v := by
  induction l with
  | nil => simp [setAssoc, List.lookup]
  | cons kv t ih =>
    obtain ⟨k0, v0⟩ := kv
    by_cases hk : k0 = k
    · subst hk
      simp [setAssoc, List.lookup]
    · have hbeq : (k == k0) = false := by
        simp
        exact fun hc => hk hc.symm
      simp [setAssoc, hk, List.lookup, hbeq, ih]

/-- C2 counterexample: with three staged insertions of the same component id
(payload tokens 1, 2, 3 in order), `flush` keeps the second insertion, not
the last: the surviving arg, and the value observed after `apply`, carry
payload 2 while 3 ≠ 2 was inserted last, and the drop function of the
last-inserted payload 3 has run; moreover on the
`DeferredEntityBuilder::insert_by_id` path an overwritten payload's drop
function never runs (zero times, not once). -/
theorem write_combining_counterexample :
    ((((HarvardCommandBuffer.new.insert 0 7 1).insert 0 7 2).insert 0 7 3).flush).ops
      = [.modifyEntity 0 [⟨7, 2, true⟩]]
    ∧ ((((HarvardCommandBuffer.new.insert 0 7 1).insert 0 7 2).insert 0 7 3).flush).dropped
      = [1, 3]
    ∧ ApplyWorld.getComp
        (((((HarvardCommandBuffer.new.insert 0 7 1).insert 0 7 2).insert 0 7 3).apply
          [(0, [])]).1) 0 7 = some 2
    ∧ (2 : Nat) ≠ 3
    ∧ (((DeferredEntityBuilder.new.insert_by_id 7 1).insert_by_id 7 2)
        : DeferredEntityBuilder Nat Nat).ptrs = [2]
    ∧ (((DeferredEntityBuilder.new.insert_by_id 7 1).insert_by_id 7 2)
        : DeferredEntityBuilder Nat Nat).dropped = [] := by
  refine ⟨?_, ?_, ?_, by decide, ?_, ?_⟩
  · simp [HarvardCommandBuffer.insert, HarvardCommandBuffer.insert_raw,
      HarvardCommandBuffer.new, HarvardCommandBuffer.flush, dedupPendingArgs,
      swapRemove]
  · simp [HarvardCommandBuffer.insert, HarvardCommandBuffer.insert_raw,
      HarvardCommandBuffer.new, HarvardCommandBuffer.flush, dedupPendingArgs,
      swapRemove]
  · simp [HarvardCommandBuffer.insert, HarvardCommandBuffer.insert_raw,
      HarvardCommandBuffer.new, HarvardCommandBuffer.flush,
      HarvardCommandBuffer.apply, dedupPendingArgs, swapRemove, applyOp,
      ApplyWorld.setComp, ApplyWorld.getComp, setAssoc, List.lookup]
  · simp [DeferredEntityBuilder.insert_by_id, DeferredEntityBuilder.new,
      List.findIdx?]
  · simp [DeferredEntityBuilder.insert_by_id, DeferredEntityBuilder.new,
      List.findIdx?]

/-- C2 (amended): with exactly two staged insertions of the same component
id for one entity, `HarvardCommandBuffer::flush` keeps only the last value,
the value observed after `apply` is the last one, and the first payload's
drop function runs exactly once; with three or more staged duplicates a
single value still survives and every other payload is dropped exactly once,
but the survivor need not be the last-inserted (with three it is the
second).  On the `DeferredEntityBuilder::insert_by_id` path the last value
likewise survives, but the overwritten payload's drop function is never
invoked. -/
theorem write_combining (e c p1 p2 : Nat) (comps : List (Nat × Nat)) :
    ((((HarvardCommandBuffer.new.insert e c p1).insert e c p2).flush).ops
        = [.modifyEntity e [⟨c, p2, true⟩]]
      ∧ (((HarvardCommandBuffer.new.insert e c p1).insert e c p2).flush).dropped
        = [p1])
    ∧ ApplyWorld.getComp
        ((((HarvardCommandBuffer.new.insert e c p1).insert e c p2).apply
          [(e, comps)]).1) e c = some p2
    ∧ (((DeferredEntityBuilder.new.insert_by_id c p1).insert_by_id c p2)
        : DeferredEntityBuilder Nat Nat).ids = [c]
    ∧ (((DeferredEntityBuilder.new.insert_by_id c p1).insert_by_id c p2)
        : DeferredEntityBuilder Nat Nat).ptrs = [p2]
    ∧ (((DeferredEntityBuilder.new.insert_by_id c p1).insert_by_id c p2)
        : DeferredEntityBuilder Nat Nat).dropped = [] := by
  refine ⟨⟨?_, ?_⟩, ?_, ?_, ?_, ?_⟩
  · simp [HarvardCommandBuffer.insert, HarvardCommandBuffer.insert_raw,
      HarvardCommandBuffer.new, HarvardCommandBuffer.flush, dedupPendingArgs,
      swapRemove]
  · simp [HarvardCommandBuffer.insert, HarvardCommandBuffer.insert_raw,
      HarvardCommandBuffer.new, HarvardCommandBuffer.flush, dedupPendingArgs,
      swapRemove]
  · simp [HarvardCommandBuffer.insert, HarvardCommandBuffer.insert_raw,
      HarvardCommandBuffer.new, HarvardCommandBuffer.flush,
      HarvardCommandBuffer.apply, dedupPendingArgs, swapRemove, applyOp,
      ApplyWorld.setComp, ApplyWorld.getComp, List.lookup, lookup_setAssoc]
  · simp [DeferredEntityBuilder.insert_by_id, DeferredEntityBuilder.new,
      List.findIdx?]
  · simp [DeferredEntityBuilder.insert_by_id, DeferredEntityBuilder.new,
      List.findIdx?]
  · simp [DeferredEntityBuilder.insert_by_id, DeferredEntityBuilder.new,
      List.findIdx?]

end CmdBuffer

/-! ## apply_with_remap (src/entity_archive.rs,
src/binary_archive/world_snapshot.rs)

The caller-supplied `EntityRemapper` is modelled as `Nat → Option Nat`,
where `none` stands for the `Entity::PLACEHOLDER` sentinel returned for a
missing mapping.  The per-type remap hooks (`IDRemapRegistry` lives outside
the archived sources) only rewrite component payloads in place and do not
affect the placeholder-handling control flow, so they are elided. -/

namespace Remap

open CmdBuffer

/-- Model of `EntitySnapshot`: entity id with its components. -/
structure EntitySnapshot where
  id : Nat
  components : List (String × Val)

/-- Remap-target world: entity index to component table. -/
abbrev RWorld := List (Nat × List (String × Val))

/-- Write one component of a live entity
(`world.entity_mut(entity).insert(v)`). -/
def setRComp (w : RWorld) (e : Nat) (t : String) (v : Val) : RWorld :=
  match w with
  | [] => [(e, [(t, v)])]
  | (e0, comps) :: rest =>
    if e0 = e then (e0, setAssoc comps t v) :: rest
    else (e0, comps) :: setRComp rest e t v

/-- Model of `load_world_snapshot_with_remap` (src/entity_archive.rs): a row
whose old id the mapper sends to `PLACEHOLDER` is skipped (`continue`) and
loading proceeds with the remaining rows; otherwise every component with a
registered factory is imported onto the mapped entity.  The function is
total: this path never fails. -/
def load_world_snapshot_with_remap (reg : List String)
    (mapper : Nat → Option Nat) (snapshot : List EntitySnapshot) (w : RWorld) :
    RWorld :=
  snapshot.foldl
    (fun w es =>
      match mapper es.id with
      | none => w
      | some e =>
        es.components.foldl
          (fun w tv => if reg.contains tv.1 then setRComp w e tv.1 tv.2 else w)
          w)
    w

/-- Model of `RawTData`: a component id with the column of arena payloads
still to be handed out (popped from the back). -/
structure RawTData where
  comp_id : Nat
  data : List Nat

/-- One row of the arrow loop: pop one payload from every column and stage
it on the mapped entity (`buffer.insert_box`, mode `Full`). -/
def stageRow (e : Nat) : List RawTData → HarvardCommandBuffer →
    HarvardCommandBuffer × List RawTData
  | [], b => (b, [])
  | raw :: rest, b =>
    let p := raw.data.getLast?.getD 0
    let b2 := b.insert e raw.comp_id p
    let (b3, rest2) := stageRow e rest b2
    (b3, { raw with data := raw.data.dropLast } :: rest2)

/-- The row loop of `load_arrow_archetype_with_remap`
(src/binary_archive/world_snapshot.rs), already reversed: a row whose old id
maps to `PLACEHOLDER` hits
`panic!("Entity mapping failure: ...")` — modelled as `Except.error` — which
aborts the whole load; otherwise the row is staged and the loop continues. -/
def arrowRowsRev (mapper : Nat → Option Nat) :
    List Nat → List RawTData → HarvardCommandBuffer →
    Except String (HarvardCommandBuffer × List RawTData)
  | [], cols, b => .ok (b, cols)
  | id :: rest, cols, b =>
    match mapper id with
    | none => .error "Entity mapping failure: Old ID mapped to PLACEHOLDER"
    | some e =>
      let r := stageRow e cols b
      arrowRowsRev mapper rest r.2 r.1

/-- Model of `load_arrow_archetype_with_remap`: the source iterates
`archetype.entities.iter().rev()`. -/
def load_arrow_archetype_with_remap (mapper : Nat → Option Nat)
    (entities : List Nat) (cols : List RawTData) (b : HarvardCommandBuffer) :
    Except String (HarvardCommandBuffer × List RawTData) :=
  arrowRowsRev mapper entities.reverse cols b

/-- C5 counterexample: on the arrow path a single row whose old id has no
mapping makes the entire load fail with a panic, instead of being handled
with the sentinel entity and loading continuing. -/
theorem remap_placeholder_counterexample :
    load_arrow_archetype_with_remap (fun _ => none) [0] []
        HarvardCommandBuffer.new
      = .error "Entity mapping failure: Old ID mapped to PLACEHOLDER" :=
  rfl

theorem arrowRowsRev_ok (mapper : Nat → Option Nat) (l : List Nat)
    (cols : List RawTData) (b : HarvardCommandBuffer)
    (h : ∀ id ∈ l, (mapper id).isSome) :
    ∃ r, arrowRowsRev mapper l cols b = .ok r := by
  induction l generalizing cols b with
  | nil => exact ⟨(b, cols), rfl⟩
  | cons id rest ih =>
    have hid := h id (List.mem_cons_self id rest)
    obtain ⟨e, he⟩ := Option.isSome_iff_exists.mp hid
    obtain ⟨r, hr⟩ := ih (stageRow e cols b).2 (stageRow e cols b).1
      (fun i hi => h i (List.mem_cons_of_mem _ hi))
    refine ⟨r, ?_⟩
    simp [arrowRowsRev, he, hr]

theorem arrowRowsRev_error (mapper : Nat → Option Nat) (l : List Nat)
    (cols : List RawTData) (b : HarvardCommandBuffer) (id : Nat)
    (hmem : id ∈ l) (hnone : mapper id = none) :
    ∃ e, arrowRowsRev mapper l cols b = .error e := by
  induction l generalizing cols b with
  | nil => cases hmem
  | cons x rest ih =>
    cases hx : mapper x with
    | none =>
      exact ⟨"Entity mapping failure: Old ID mapped to PLACEHOLDER",
        by simp [arrowRowsRev, hx]⟩
    | some e =>
      rcases List.mem_cons.mp hmem with heq | hrest
      · subst heq
        rw [hx] at hnone
        cases hnone
      · obtain ⟨msg, hmsg⟩ := ih (stageRow e cols b).2 (stageRow e cols b).1 hrest
        exact ⟨msg, by simp [arrowRowsRev, hx, hmsg]⟩

/-- C5 (amended): the two `apply_with_remap` paths treat a missing mapping
differently.  The JSON/world-snapshot path skips an unmapped row silently
and continues, so the loaded world equals the one obtained from the mapped
rows only, and this path never fails.  The arrow path succeeds when every
row id is mapped, but any row whose old id maps to the `PLACEHOLDER`
sentinel makes the entire load fail with a panic. -/
theorem remap_placeholder_spec (reg : List String) (mapper : Nat → Option Nat)
    (snapshot : List EntitySnapshot) (w : RWorld) (entities : List Nat)
    (cols : List RawTData) (b : HarvardCommandBuffer) (id : Nat) :
    (load_world_snapshot_with_remap reg mapper snapshot w
      = load_world_snapshot_with_remap reg mapper
          (snapshot.filter (fun es => (mapper es.id).isSome)) w)
    ∧ ((∀ i ∈ entities, (mapper i).isSome) →
      ∃ r, load_arrow_archetype_with_remap mapper entities cols b = .ok r)
    ∧ (id ∈ entities → mapper id = none →
      ∃ e, load_arrow_archetype_with_remap mapper entities cols b = .error e) := by
  refine ⟨?_, ?_, ?_⟩
  · induction snapshot generalizing w with
    | nil => rfl
    | cons es rest ih =>
      cases hm : mapper es.id with
      | none =>
        simp only [load_world_snapshot_with_remap, List.foldl_cons, hm,
          List.filter_cons, Option.isSome_none, Bool.false_eq_true, if_false]
        exact ih w
      | some e =>
        simp only [load_world_snapshot_with_remap, List.foldl_cons, hm,
          List.filter_cons, Option.isSome_some, if_true]
        exact ih _
  · intro h
    exact arrowRowsRev_ok mapper entities.reverse cols b
      (fun i hi => h i (List.mem_reverse.mp hi))
  · intro hmem hnone
    exact arrowRowsRev_error mapper entities.reverse cols b id
      (List.mem_reverse.mpr hmem) hnone

/-- Witness for `remap_placeholder_spec`: a mapper defined only at 0,
exercising the skip equation, the all-mapped arrow success and the
unmapped-row arrow failure. -/
theorem remap_placeholder_spec_witness :
    (load_world_snapshot_with_remap ["T"] (fun n => if n = 0 then some 5 else none)
        [⟨0, [("T", Val.int 1)]⟩, ⟨1, [("T", Val.int 2)]⟩] []
      = load_world_snapshot_with_remap ["T"] (fun n => if n = 0 then some 5 else none)
          ([⟨0, [("T", Val.int 1)]⟩, ⟨1, [("T", Val.int 2)]⟩].filter
            (fun es => ((fun n => if n = 0 then some 5 else none) es.id).isSome)) [])
    ∧ (∃ r, load_arrow_archetype_with_remap
        (fun n => if n = 0 then some 5 else none) [0] [] HarvardCommandBuffer.new
        = .ok r)
    ∧ (∃ e, load_arrow_archetype_with_remap
        (fun n => if n = 0 then some 5 else none) [0, 1] [] HarvardCommandBuffer.new
        = .error e) :=
  ⟨(remap_placeholder_spec ["T"] (fun n => if n = 0 then some 5 else none)
      [⟨0, [("T", Val.int 1)]⟩, ⟨1, [("T", Val.int 2)]⟩] [] [0] []
      HarvardCommandBuffer.new 1).1,
    (remap_placeholder_spec ["T"] (fun n => if n = 0 then some 5 else none)
      [] [] [0] [] HarvardCommandBuffer.new 1).2.1 (by decide),
    (remap_placeholder_spec ["T"] (fun n => if n = 0 then some 5 else none)
      [] [] [0, 1] [] HarvardCommandBuffer.new 1).2.2 (by decide) (by decide)⟩

end Remap

/-! ## save_world_arch_snapshot / load_world_arch_snapshot_defragment
(src/archetype_archive.rs)

The host ECS world is modelled by its archetypes: each archetype stores its
(distinct) component types and its rows, a row being an entity index with
the component values in column order.  Components are modelled by their
dynamic values, so the external serde codec pair installed by
`SnapshotRegistry::register::<T>()` (serialize on export, deserialize in
`dyn_ctor`) is the identity and the registry reduces to the set of
registered type names, every entry in the default `Full` mode. -/

namespace ArchetypeArchive

/-- Model of `iter().enumerate()`. -/
def enumerate {α : Type} (start : Nat) : List α → List (Nat × α)
  | [] => []
  | x :: xs => (start, x) :: enumerate (start + 1) xs

/-- One archetype of the source world. -/
structure MArchetype where
  types : List String
  rows : List (Nat × List Val)

/-- The source world, as its archetype list. -/
abbrev MWorld := List MArchetype

/-- Whether the archetype holds the entity (bevy: the entity's location
points at this archetype). -/
def MArchetype.hasEntity (a : MArchetype) (e : Nat) : Bool :=
  a.rows.any (fun r => r.1 == e)

/-- Model of `world.get::<T>(e)` as the host ECS exposes it: find the
archetype holding `e` and read the value in the column of `t`. -/
def MWorld.get (w : MWorld) (e : Nat) (t : String) : Option Val :=
  match w.find? (fun a => a.hasEntity e) with
  | none => none
  | some a =>
    match a.rows.find? (fun r => r.1 == e), a.types.findIdx? (fun x => x = t) with
    | some r, some i => r.2.get? i
    | _, _ => none

/-- The entity indices of the world, in archetype iteration order
(`WorldExt::iter_entities`). -/
def MWorld.entityIndices (w : MWorld) : List Nat :=
  (w.map (fun a => a.rows.map Prod.fst)).flatten

/-- Model of the per-archetype body of `save_world_arch_snapshot`: when no
component of the archetype is registered, the default (empty) snapshot is
produced; otherwise one column per registered component type, exporting
each row's component from the world (`export` of the `Full` codec reads
`world.get`). -/
def saveArchetype (w : MWorld) (reg : List String) (a : MArchetype) :
    ArchetypeSnapshot :=
  if a.types.any (fun t => reg.contains t) then
    { component_types := a.types.filter (fun t => reg.contains t)
      storage_types :=
        (a.types.filter (fun t => reg.contains t)).map (fun _ => .table)
      columns := (a.types.filter (fun t => reg.contains t)).map
        (fun t => a.rows.map (fun r => (MWorld.get w r.1 t).getD Val.null))
      entities := a.rows.map Prod.fst }
  else ⟨[], [], [], []⟩

/-- Model of `save_world_arch_snapshot`: the sorted entity indices of the
whole world, and one snapshot per non-empty archetype. -/
def save_world_arch_snapshot (w : MWorld) (reg : List String) :
    WorldArchSnapshot :=
  { entities := (MWorld.entityIndices w).mergeSort (fun a b => a ≤ b)
    archetypes :=
      (w.filter (fun a => !a.rows.isEmpty)).map (saveArchetype w reg) }

/-- Model of the file-local `count_entities` of src/archetype_archive.rs:
`entities.last().map(|x| *x).unwrap_or(0) + 1`. -/
def count_entities (s : WorldArchSnapshot) : Nat :=
  s.entities.getLast?.getD 0 + 1

/-- The world built by the defragmenting loader: the number of reserved
entity slots (indices `0..reserved-1` are live) and the component tables
committed so far. -/
structure LWorld where
  reserved : Nat
  comps : List (Nat × List (String × Val))

/-- Component lookup in the loaded world. -/
def LWorld.get (lw : LWorld) (e : Nat) (t : String) : Option Val :=
  ((lw.comps.lookup e).getD []).lookup t

/-- Model of `DeferredEntityBuilder::commit` on entity `e`: the ECS bulk
`insert_by_ids` writes each staged (id, value) pair onto the entity's
component table. -/
def commitBundle (lw : LWorld) (e : Nat) (ids : List String) (vals : List Val) :
    LWorld :=
  { lw with
    comps := CmdBuffer.setAssoc lw.comps e
      ((ids.zip vals).foldl (fun acc iv => CmdBuffer.setAssoc acc iv.1 iv.2)
        ((lw.comps.lookup e).getD [])) }

/-- The value `dyn_ctor` receives for column `ci` at row `row`
(`&arch.columns[col_idx][row]`); the `Full`-mode constructor is the
identity on the dynamic value. -/
def cellAt (cols : List (List Val)) (ci row : Nat) : Val :=
  (((cols.get? ci).getD []).get? row).getD Val.null

/-- The row loop of `load_world_arch_snapshot_defragment` for one
archetype: resolve each entity id (it must have been reserved, else the
source's `unwrap` panics — modelled as `none`), build its bundle through
`DeferredEntityBuilder::insert_by_id` over the registered columns, and
commit it. -/
def loadArchRows (reserved : Nat) (info : List (Nat × String))
    (cols : List (List Val)) : List (Nat × Nat) → LWorld → Option LWorld
  | [], lw => some lw
  | (row, e) :: rest, lw =>
    if e < reserved then
      let db := info.foldl
        (fun (db : DeferredEntityBuilder String Val) ci =>
          db.insert_by_id ci.2 (cellAt cols ci.1 row))
        DeferredEntityBuilder.new
      loadArchRows reserved info cols rest (commitBundle lw e db.ids db.ptrs)
    else none

/-- Model of `load_world_arch_snapshot_defragment`: reserve
`count_entities` slots, then per archetype collect `arch_info` (the
enumerated component types that have a registered factory; every registered
entry is in `Full` mode, so the builder path is `insert_by_id`) and run the
row loop. -/
def load_world_arch_snapshot_defragment (s : WorldArchSnapshot)
    (reg : List String) : Option LWorld :=
  s.archetypes.foldl
    (fun acc arch =>
      acc.bind
        (loadArchRows (count_entities s)
          ((enumerate 0 arch.component_types).filter
            (fun p => reg.contains p.2))
          arch.columns
          (enumerate 0 arch.entities)))
    (some ⟨count_entities s, []⟩)

open CmdBuffer

theorem lookup_setAssoc_ne {κ β : Type} [DecidableEq κ] [BEq κ] [LawfulBEq κ]
    (l : List (κ × β)) (k : κ) (v : β) (k2 : κ) (h : k2 ≠ k) :
    List.lookup k2 (setAssoc l k v) = List.lookup k2 l := by
  induction l with
  | nil =>
    have hne : (k2 == k) = false := by
      simp [h]
    simp [setAssoc, List.lookup, hne]
  | cons kv t ih =>
    obtain ⟨k0, v0⟩ := kv
    by_cases hk : k0 = k
    · subst hk
      have hne : (k2 == k0) = false := by
        simp [h]
      simp [setAssoc, List.lookup, hne]
    · by_cases h2 : k2 = k0
      · subst h2
        simp [setAssoc, hk, List.lookup]
      · have hne : (k2 == k0) = false := by
          simp [h2]
        simp [setAssoc, hk, List.lookup, hne, ih]

theorem foldl_setAssoc_notmem {κ β : Type} [DecidableEq κ] [BEq κ] [LawfulBEq κ]
    (items : List (κ × β)) (base : List (κ × β)) (t : κ)
    (h : t ∉ items.map Prod.fst) :
    List.lookup t (items.foldl (fun acc iv => setAssoc acc iv.1 iv.2) base)
      = List.lookup t base := by
  induction items generalizing base with
  | nil => rfl
  | cons it rest ih =>
    simp only [List.map_cons, List.mem_cons, not_or] at h
    simp only [List.foldl_cons]
    rw [ih _ h.2, lookup_setAssoc_ne _ _ _ _ h.1]

theorem foldl_setAssoc_mem {κ β : Type} [DecidableEq κ] [BEq κ] [LawfulBEq κ]
    (items : List (κ × β)) (base : List (κ × β)) (t : κ) (v : β)
    (hn : (items.map Prod.fst).Nodup) (hmem : (t, v) ∈ items) :
    List.lookup t (items.foldl (fun acc iv => setAssoc acc iv.1 iv.2) base)
      = some v := by
  induction items generalizing base with
  | nil => cases hmem
  | cons it rest ih =>
    simp only [List.map_cons, List.nodup_cons] at hn
    rcases List.mem_cons.mp hmem with heq | hrest
    · subst heq
      simp only [List.foldl_cons]
      have hnot : t ∉ rest.map Prod.fst := by
        simpa using hn.1
      rw [foldl_setAssoc_notmem _ _ _ hnot]
      exact lookup_setAssoc base t v
    · simp only [List.foldl_cons]
      exact ih (setAssoc base it.1 it.2) hn.2 hrest

theorem lookup_mem_nodup {κ β : Type} [DecidableEq κ] [BEq κ] [LawfulBEq κ]
    (items : List (κ × β)) (t : κ) (v : β)
    (hn : (items.map Prod.fst).Nodup) (hmem : (t, v) ∈ items) :
    items.lookup t = some v := by
  induction items with
  | nil => cases hmem
  | cons it rest ih =>
    obtain ⟨k0, v0⟩ := it
    simp only [List.map_cons, List.nodup_cons] at hn
    rcases List.mem_cons.mp hmem with heq | hrest
    · rw [Prod.mk.injEq] at heq
      obtain ⟨h1, h2⟩ := heq
      subst h1
      subst h2
      simp [List.lookup]
    · have htk : t ≠ k0 := by
        intro hc
        subst hc
        exact hn.1 (List.mem_map.mpr ⟨(t, v), hrest, rfl⟩)
      have hne : (t == k0) = false := by
        simp [htk]
      simp [List.lookup, hne]
      exact ih hn.2 hrest

theorem lookup_notmem {κ β : Type} [DecidableEq κ] [BEq κ] [LawfulBEq κ]
    (items : List (κ × β)) (t : κ) (h : t ∉ items.map Prod.fst) :
    items.lookup t = none := by
  rw [List.lookup_eq_none_iff]
  intro p hp
  simp only [bne_iff_ne, ne_eq]
  intro hc
  exact h (List.mem_map.mpr ⟨p, hp, hc.symm⟩)

theorem builder_foldl_nodup {α : Type} (f : α → String) (g : α → Val)
    (items : List α) :
    ∀ (db : DeferredEntityBuilder String Val),
      (db.ids ++ items.map f).Nodup →
      ((items.foldl (fun db x => db.insert_by_id (f x) (g x)) db).ids
          = db.ids ++ items.map f
        ∧ (items.foldl (fun db x => db.insert_by_id (f x) (g x)) db).ptrs
          = db.ptrs ++ items.map g) := by
  induction items with
  | nil =>
    intro db h
    simp
  | cons x rest ih =>
    intro db h
    have hfx : f x ∉ db.ids := by
      rw [List.nodup_append] at h
      intro hc
      exact h.2.2 hc (List.mem_cons_self _ _)
    have hidx : db.ids.findIdx? (fun y => y = f x) = none := by
      rw [List.findIdx?_eq_none_iff]
      intro y hy
      simp only [decide_eq_false_iff_not]
      intro hc
      subst hc
      exact hfx hy
    have hstep : db.insert_by_id (f x) (g x)
        = { db with ids := db.ids ++ [f x], ptrs := db.ptrs ++ [g x] } := by
      simp [DeferredEntityBuilder.insert_by_id, hidx]
    simp only [List.foldl_cons, hstep]
    have h2 : (({ db with ids := db.ids ++ [f x], ptrs := db.ptrs ++ [g x] }
        : DeferredEntityBuilder String Val).ids ++ rest.map f).Nodup := by
      show ((db.ids ++ [f x]) ++ rest.map f).Nodup
      rw [List.append_assoc]
      simpa using h
    obtain ⟨ha, hb⟩ := ih _ h2
    constructor
    · rw [ha]
      show (db.ids ++ [f x]) ++ rest.map f = _
      rw [List.append_assoc]
      rfl
    · rw [hb]
      show (db.ptrs ++ [g x]) ++ rest.map g = _
      rw [List.append_assoc]
      rfl

theorem enumerate_map_snd {α : Type} (l : List α) :
    ∀ n, (enumerate n l).map Prod.snd = l := by
  induction l with
  | nil => intro n; rfl
  | cons x xs ih =>
    intro n
    simp [enumerate, ih]

theorem mem_enumerate_snd {α : Type} (l : List α) :
    ∀ n p, p ∈ enumerate n l → p.2 ∈ l := by
  induction l with
  | nil =>
    intro n p hp
    cases hp
  | cons x xs ih =>
    intro n p hp
    rcases List.mem_cons.mp hp with heq | hrest
    · subst heq
      exact List.mem_cons_self _ _
    · exact List.mem_cons_of_mem _ (ih _ _ hrest)

theorem hasEntity_iff (a : MArchetype) (e : Nat) :
    a.hasEntity e = true ↔ e ∈ a.rows.map Prod.fst := by
  rw [MArchetype.hasEntity, List.any_eq_true]
  constructor
  · rintro ⟨r, hr, hb⟩
    have hre : r.1 = e := by simpa using hb
    exact hre ▸ List.mem_map.mpr ⟨r, hr, rfl⟩
  · intro h
    obtain ⟨r, hr, hfst⟩ := List.mem_map.mp h
    exact ⟨r, hr, by simp [hfst]⟩

theorem find_archetype (w : MWorld)
    (h3 : ((w.map (fun a => a.rows.map Prod.fst)).flatten).Nodup)
    (a : MArchetype) (ha : a ∈ w) (e : Nat) (he : a.hasEntity e = true) :
    w.find? (fun a => a.hasEntity e) = some a := by
  induction w with
  | nil => cases ha
  | cons a0 w2 ih =>
    simp only [List.map_cons, List.flatten_cons, List.nodup_append] at h3
    rcases List.mem_cons.mp ha with heq | hmem
    · subst heq
      simp [List.find?_cons, he]
    · have h0 : a0.hasEntity e = false := by
        rw [← Bool.not_eq_true]
        intro hc
        have he1 : e ∈ a0.rows.map Prod.fst := (hasEntity_iff a0 e).mp hc
        have he2 : e ∈ (w2.map (fun a => a.rows.map Prod.fst)).flatten := by
          rw [List.mem_flatten]
          exact ⟨a.rows.map Prod.fst, List.mem_map.mpr ⟨a, hmem, rfl⟩,
            (hasEntity_iff a e).mp he⟩
        exact h3.2.2 he1 he2
      simp only [List.find?_cons, h0]
      exact ih h3.2.1 hmem

theorem find_row (rows : List (Nat × List Val))
    (hn : (rows.map Prod.fst).Nodup) (r : Nat × List Val) (hr : r ∈ rows) :
    rows.find? (fun x => x.1 == r.1) = some r := by
  induction rows with
  | nil => cases hr
  | cons r0 rest ih =>
    simp only [List.map_cons, List.nodup_cons] at hn
    rcases List.mem_cons.mp hr with heq | hmem
    · subst heq
      simp [List.find?_cons]
    · have hne : (r0.1 == r.1) = false := by
        simp only [beq_eq_false_iff_ne, ne_eq]
        intro hc
        exact hn.1 (hc ▸ List.mem_map.mpr ⟨r, hmem, rfl⟩)
      simp only [List.find?_cons, hne]
      exact ih hn.2 hmem

/-- The value `world.get` returns for a row of a known archetype, under the
world invariants: the row's value in the column of `t`. -/
theorem MWorld_get_spec (w : MWorld)
    (h3 : ((w.map (fun a => a.rows.map Prod.fst)).flatten).Nodup)
    (a : MArchetype) (ha : a ∈ w) (r : Nat × List Val) (hr : r ∈ a.rows)
    (t : String) :
    MWorld.get w r.1 t
      = match a.types.findIdx? (fun x => x = t) with
        | some i => r.2.get? i
        | none => none := by
  have hrown : (a.rows.map Prod.fst).Nodup := by
    have hseg : (a.rows.map Prod.fst) ∈ w.map (fun a => a.rows.map Prod.fst) :=
      List.mem_map.mpr ⟨a, ha, rfl⟩
    exact (List.nodup_flatten.mp h3).1 _ hseg
  have he : a.hasEntity r.1 = true :=
    (hasEntity_iff a r.1).mpr (List.mem_map.mpr ⟨r, hr, rfl⟩)
  unfold MWorld.get
  rw [find_archetype w h3 a ha r.1 he]
  dsimp only
  rw [find_row a.rows hrown r hr]
  cases a.types.findIdx? (fun x => x = t) <;> rfl

theorem commit_get_other (lw : LWorld) (e : Nat) (ids : List String)
    (vals : List Val) (e2 : Nat) (h : e2 ≠ e) (t : String) :
    (commitBundle lw e ids vals).get e2 t = lw.get e2 t := by
  simp [commitBundle, LWorld.get, lookup_setAssoc_ne _ _ _ _ h]

theorem commit_lookup_other (lw : LWorld) (e : Nat) (ids : List String)
    (vals : List Val) (e2 : Nat) (h : e2 ≠ e) :
    (commitBundle lw e ids vals).comps.lookup e2 = lw.comps.lookup e2 := by
  simp [commitBundle, lookup_setAssoc_ne _ _ _ _ h]

theorem zip_map_fst_sublist {α β : Type} :
    ∀ (l₁ : List α) (l₂ : List β), ((l₁.zip l₂).map Prod.fst).Sublist l₁ := by
  intro l₁
  induction l₁ with
  | nil =>
    intro l₂
    simp
  | cons x xs ih =>
    intro l₂
    cases l₂ with
    | nil => simp
    | cons y ys =>
      simp only [List.zip_cons_cons, List.map_cons]
      exact List.Sublist.cons₂ x (ih ys)

theorem commit_get_self (lw : LWorld) (e : Nat) (ids : List String)
    (vals : List Val) (t : String) (hfresh : lw.comps.lookup e = none)
    (hn : ids.Nodup) :
    (commitBundle lw e ids vals).get e t = (ids.zip vals).lookup t := by
  have hkeys : ((ids.zip vals).map Prod.fst).Nodup :=
    List.Nodup.sublist (zip_map_fst_sublist ids vals) hn
  simp only [commitBundle, LWorld.get, hfresh, Option.getD_none,
    lookup_setAssoc, Option.getD_some]
  by_cases hmem : t ∈ (ids.zip vals).map Prod.fst
  · obtain ⟨p, hp, hfst⟩ := List.mem_map.mp hmem
    have hpv : (t, p.2) ∈ ids.zip vals := by
      rw [← hfst]
      exact hp
    rw [foldl_setAssoc_mem _ _ _ _ hkeys hpv, lookup_mem_nodup _ _ _ hkeys hpv]
  · rw [foldl_setAssoc_notmem _ _ _ hmem, lookup_notmem _ _ hmem]
    rfl

/-- The bundle the builder produces for one row: the registered types with
the row's cell values, in column order. -/
def bundleOf (info : List (Nat × String)) (cols : List (List Val)) (row : Nat) :
    List (String × Val) :=
  info.map (fun ci => (ci.2, cellAt cols ci.1 row))

theorem enum_pair_lookup (g : Nat → Val) (t : String) :
    ∀ (l : List String) (n : Nat),
      (((enumerate n l).map (fun p => (p.2, g p.1))).lookup t)
        = (List.findIdx? (fun x => x = t) l n).map g := by
  intro l
  induction l with
  | nil => intro n; rfl
  | cons x xs ih =>
    intro n
    simp only [enumerate, List.map_cons, List.findIdx?_cons]
    by_cases hx : x = t
    · subst hx
      simp [List.lookup]
    · have hbne : (t == x) = false := by
        simp
        intro hc
        exact hx hc.symm
      simp only [List.lookup, hbne, decide_eq_true_eq, hx, if_false]
      exact ih (n + 1)

theorem loadArchRows_enum (reserved : Nat) (info : List (Nat × String))
    (cols : List (List Val)) (hinfo : (info.map Prod.snd).Nodup) :
    ∀ (ents : List Nat) (k : Nat) (lw : LWorld),
      (∀ e ∈ ents, e < reserved) → ents.Nodup →
      (∀ e ∈ ents, lw.comps.lookup e = none) →
      ∃ lw2, loadArchRows reserved info cols (enumerate k ents) lw = some lw2
        ∧ (∀ e2, e2 ∉ ents → lw2.comps.lookup e2 = lw.comps.lookup e2)
        ∧ (∀ j e, ents.get? j = some e → ∀ t,
            lw2.get e t = (bundleOf info cols (k + j)).lookup t) := by
  intro ents
  induction ents with
  | nil =>
    intro k lw _ _ _
    refine ⟨lw, rfl, fun e2 _ => rfl, fun j e hj => ?_⟩
    cases hj
  | cons e ents2 ih =>
    intro k lw hlt hnod hfresh
    have hlt0 : e < reserved := hlt e (List.mem_cons_self _ _)
    simp only [List.nodup_cons] at hnod
    have hdb := builder_foldl_nodup Prod.snd
      (fun ci => cellAt cols ci.1 k) info DeferredEntityBuilder.new
      (by simpa [DeferredEntityBuilder.new] using hinfo)
    set db := info.foldl
      (fun (db : DeferredEntityBuilder String Val) ci =>
        db.insert_by_id ci.2 (cellAt cols ci.1 k))
      DeferredEntityBuilder.new with hdbdef
    have hids : db.ids = info.map Prod.snd := by
      simpa [DeferredEntityBuilder.new] using hdb.1
    have hptrs : db.ptrs = info.map (fun ci => cellAt cols ci.1 k) := by
      simpa [DeferredEntityBuilder.new] using hdb.2
    have hzip : db.ids.zip db.ptrs = bundleOf info cols k := by
      rw [hids, hptrs, List.zip_map']
      rfl
    obtain ⟨lw2, hload, hframe, hrows⟩ := ih (k + 1)
      (commitBundle lw e db.ids db.ptrs)
      (fun x hx => hlt x (List.mem_cons_of_mem _ hx)) hnod.2
      (fun x hx => by
        rw [commit_lookup_other lw e db.ids db.ptrs x
          (fun hc => hnod.1 (hc ▸ hx))]
        exact hfresh x (List.mem_cons_of_mem _ hx))
    refine ⟨lw2, ?_, ?_, ?_⟩
    · show loadArchRows reserved info cols ((k, e) :: enumerate (k + 1) ents2) lw
        = some lw2
      rw [loadArchRows, if_pos hlt0]
      exact hload
    · intro e2 he2
      simp only [List.mem_cons, not_or] at he2
      rw [hframe e2 he2.2, commit_lookup_other lw e db.ids db.ptrs e2 he2.1]
    · intro j e0 hj t
      cases j with
      | zero =>
        have he0 : e = e0 := by
          simpa using hj
        subst he0
        have hgl : lw2.get e t
            = (commitBundle lw e db.ids db.ptrs).get e t := by
          show ((lw2.comps.lookup e).getD []).lookup t = _
          rw [hframe e hnod.1]
          rfl
        rw [hgl, commit_get_self _ _ _ _ _
          (hfresh e (List.mem_cons_self _ _)) (by rw [hids]; exact hinfo),
          hzip, Nat.add_zero]
      | succ j2 =>
        have hj2 : ents2.get? j2 = some e0 := by
          simpa using hj
        have harith : k + 1 + j2 = k + (j2 + 1) := by omega
        have := hrows j2 e0 hj2 t
        rw [harith] at this
        exact this

/-- The column the save path produces for a registered type: each row's
exported component. -/
def colOf (w : MWorld) (a : MArchetype) (t : String) : List Val :=
  a.rows.map (fun r => (MWorld.get w r.1 t).getD Val.null)

theorem saveArchetype_reg (w : MWorld) (reg : List String) (a : MArchetype)
    (hall : ∀ t ∈ a.types, reg.contains t = true) (hne : a.types ≠ []) :
    saveArchetype w reg a
      = { component_types := a.types
          storage_types := a.types.map (fun _ => .table)
          columns := a.types.map (colOf w a)
          entities := a.rows.map Prod.fst } := by
  have hany : a.types.any (fun t => reg.contains t) = true := by
    rw [List.any_eq_true]
    cases hty : a.types with
    | nil => exact absurd hty hne
    | cons t0 ts =>
      exact ⟨t0, List.mem_cons_self _ _, hall t0 (hty ▸ List.mem_cons_self _ _)⟩
  have hfilter : a.types.filter (fun t => reg.contains t) = a.types :=
    List.filter_eq_self.mpr hall
  rw [saveArchetype, if_pos hany, hfilter]
  rfl

theorem bundle_lookup_eq_get (w : MWorld)
    (h1 : ∀ a ∈ w, ∀ r ∈ a.rows, r.2.length = a.types.length)
    (h3 : ((w.map (fun a => a.rows.map Prod.fst)).flatten).Nodup)
    (a : MArchetype) (ha : a ∈ w) (j : Nat) (r : Nat × List Val)
    (hj : a.rows.get? j = some r) (t : String) :
    (bundleOf (enumerate 0 a.types) (a.types.map (colOf w a)) j).lookup t
      = MWorld.get w r.1 t := by
  have hr : r ∈ a.rows := List.get?_mem hj
  have hlookup : (bundleOf (enumerate 0 a.types) (a.types.map (colOf w a)) j).lookup t
      = (List.findIdx? (fun x => x = t) a.types 0).map
          (fun i => cellAt (a.types.map (colOf w a)) i j) :=
    enum_pair_lookup (fun i => cellAt (a.types.map (colOf w a)) i j) t a.types 0
  rw [hlookup, MWorld_get_spec w h3 a ha r hr t]
  cases hfi : a.types.findIdx? (fun x => x = t) with
  | none => rfl
  | some i =>
    simp only [Option.map_some']
    obtain ⟨hilt, hit, _⟩ := List.findIdx?_eq_some_iff_getElem.mp hfi
    have hit2 : a.types[i] = t := by
      simpa using hit
    have hcols : (a.types.map (colOf w a)).get? i = some (colOf w a t) := by
      rw [List.get?_eq_getElem?, List.getElem?_map, List.getElem?_eq_getElem hilt,
        Option.map_some', hit2]
    have hcell : cellAt (a.types.map (colOf w a)) i j
        = (MWorld.get w r.1 t).getD Val.null := by
      rw [cellAt, hcols]
      simp only [Option.getD_some, colOf]
      rw [List.get?_eq_getElem?, List.getElem?_map, ← List.get?_eq_getElem?, hj]
      rfl
    have hget : MWorld.get w r.1 t = r.2.get? i := by
      rw [MWorld_get_spec w h3 a ha r hr t, hfi]
    have hvlen : i < r.2.length := by
      rw [h1 a ha r hr]
      exact hilt
    obtain ⟨v, hv⟩ : ∃ v, r.2.get? i = some v := by
      rw [List.get?_eq_getElem?, List.getElem?_eq_getElem hvlen]
      exact ⟨_, rfl⟩
    rw [hcell, hget, hv]
    rfl

theorem load_one_archetype (w : MWorld) (reg : List String)
    (h1 : ∀ a ∈ w, ∀ r ∈ a.rows, r.2.length = a.types.length)
    (h2 : ∀ a ∈ w, a.types.Nodup)
    (h3 : ((w.map (fun a => a.rows.map Prod.fst)).flatten).Nodup)
    (hreg : ∀ a ∈ w, ∀ t ∈ a.types, reg.contains t = true)
    (a : MArchetype) (ha : a ∈ w) (reserved : Nat)
    (hres : ∀ r ∈ a.rows, r.1 < reserved) (lw : LWorld)
    (hfresh : ∀ r ∈ a.rows, lw.comps.lookup r.1 = none) :
    ∃ lw2,
      loadArchRows reserved
        ((enumerate 0 (saveArchetype w reg a).component_types).filter
          (fun p => reg.contains p.2))
        (saveArchetype w reg a).columns
        (enumerate 0 (saveArchetype w reg a).entities) lw = some lw2
      ∧ (∀ e2, e2 ∉ a.rows.map Prod.fst →
          lw2.comps.lookup e2 = lw.comps.lookup e2)
      ∧ (∀ r ∈ a.rows, ∀ t, lw2.get r.1 t = MWorld.get w r.1 t) := by
  have hrowfst : (a.rows.map Prod.fst).Nodup :=
    (List.nodup_flatten.mp h3).1 _ (List.mem_map.mpr ⟨a, ha, rfl⟩)
  by_cases hty : a.types = []
  · have hsave : saveArchetype w reg a = ⟨[], [], [], []⟩ := by
      rw [saveArchetype, if_neg]
      rw [hty]
      simp
    refine ⟨lw, ?_, fun e2 _ => rfl, ?_⟩
    · rw [hsave]
      rfl
    · intro r hr t
      have hw : MWorld.get w r.1 t = none := by
        rw [MWorld_get_spec w h3 a ha r hr t, hty]
        rfl
      have hl : lw.get r.1 t = none := by
        show ((lw.comps.lookup r.1).getD []).lookup t = none
        rw [hfresh r hr]
        rfl
      rw [hl, hw]
  · rw [saveArchetype_reg w reg a (hreg a ha) hty]
    have hinfoeq :
        (enumerate 0 a.types).filter (fun p => reg.contains p.2)
          = enumerate 0 a.types :=
      List.filter_eq_self.mpr
        (fun p hp => hreg a ha p.2 (mem_enumerate_snd a.types 0 p hp))
    show ∃ lw2,
      loadArchRows reserved
        ((enumerate 0 a.types).filter (fun p => reg.contains p.2))
        (a.types.map (colOf w a)) (enumerate 0 (a.rows.map Prod.fst)) lw
        = some lw2 ∧ _ ∧ _
    rw [hinfoeq]
    obtain ⟨lw2, hload, hframe, hrows⟩ :=
      loadArchRows_enum reserved (enumerate 0 a.types) (a.types.map (colOf w a))
        (by rw [enumerate_map_snd]; exact h2 a ha)
        (a.rows.map Prod.fst) 0 lw
        (fun e he => by
          obtain ⟨r, hr, hre⟩ := List.mem_map.mp he
          exact hre ▸ hres r hr)
        hrowfst
        (fun e he => by
          obtain ⟨r, hr, hre⟩ := List.mem_map.mp he
          exact hre ▸ hfresh r hr)
    refine ⟨lw2, hload, hframe, ?_⟩
    intro r hr t
    obtain ⟨j, hj⟩ := List.mem_iff_get?.mp hr
    have hent : (a.rows.map Prod.fst).get? j = some r.1 := by
      rw [List.get?_eq_getElem?, List.getElem?_map, ← List.get?_eq_getElem?, hj]
      rfl
    have := hrows j r.1 hent t
    rw [Nat.zero_add] at this
    rw [this]
    exact bundle_lookup_eq_get w h1 h3 a ha j r hj t

theorem sublist_flatten {α : Type} {L1 L2 : List (List α)}
    (h : L1.Sublist L2) : L1.flatten.Sublist L2.flatten := by
  induction h with
  | slnil => exact List.Sublist.refl _
  | cons l h ih =>
    rw [List.flatten_cons]
    exact ih.trans (List.sublist_append_right _ _)
  | cons₂ l h ih =>
    rw [List.flatten_cons, List.flatten_cons]
    exact (List.Sublist.refl l).append ih

theorem sorted_mem_le_getLast (l : List Nat)
    (hs : l.Sorted (fun a b => a ≤ b)) (e : Nat) (he : e ∈ l) :
    e ≤ l.getLast?.getD 0 := by
  rcases List.eq_nil_or_concat l with hnil | ⟨ds, y, hd⟩
  · subst hnil
    cases he
  · rw [List.concat_eq_append] at hd
    subst hd
    rw [List.getLast?_concat]
    show e ≤ y
    have hp : List.Pairwise (fun a b => a ≤ b) (ds ++ [y]) := hs
    rw [List.pairwise_append] at hp
    rcases List.mem_append.mp he with h | h
    · exact hp.2.2 e h y (List.mem_singleton.mpr rfl)
    · rw [List.mem_singleton.mp h]

theorem load_fold (w : MWorld) (reg : List String) (reserved : Nat)
    (h1 : ∀ a ∈ w, ∀ r ∈ a.rows, r.2.length = a.types.length)
    (h2 : ∀ a ∈ w, a.types.Nodup)
    (h3 : ((w.map (fun a => a.rows.map Prod.fst)).flatten).Nodup)
    (hreg : ∀ a ∈ w, ∀ t ∈ a.types, reg.contains t = true)
    (hres : ∀ a ∈ w, ∀ r ∈ a.rows, r.1 < reserved) :
    ∀ (ws : List MArchetype) (lw : LWorld),
      (∀ a ∈ ws, a ∈ w) →
      ((ws.map (fun a => a.rows.map Prod.fst)).flatten).Nodup →
      (∀ a ∈ ws, ∀ r ∈ a.rows, lw.comps.lookup r.1 = none) →
      ∃ lw2,
        ws.foldl
          (fun acc a => acc.bind
            (loadArchRows reserved
              ((enumerate 0 (saveArchetype w reg a).component_types).filter
                (fun p => reg.contains p.2))
              (saveArchetype w reg a).columns
              (enumerate 0 (saveArchetype w reg a).entities)))
          (some lw) = some lw2
        ∧ (∀ e2, e2 ∉ (ws.map (fun a => a.rows.map Prod.fst)).flatten →
            lw2.comps.lookup e2 = lw.comps.lookup e2)
        ∧ (∀ a ∈ ws, ∀ r ∈ a.rows, ∀ t, lw2.get r.1 t = MWorld.get w r.1 t) := by
  intro ws
  induction ws with
  | nil =>
    intro lw _ _ _
    exact ⟨lw, rfl, fun _ _ => rfl, fun a ha => absurd ha (List.not_mem_nil a)⟩
  | cons a ws ih =>
    intro lw hmem hnd hfresh
    have ha : a ∈ w := hmem a (List.mem_cons_self a ws)
    simp only [List.map_cons, List.flatten_cons] at hnd
    obtain ⟨hnd1, hnd2, hdisj⟩ := List.nodup_append.mp hnd
    obtain ⟨lw1, hload1, hframe1, hrows1⟩ :=
      load_one_archetype w reg h1 h2 h3 hreg a ha reserved
        (fun r hr => hres a ha r hr) lw
        (fun r hr => hfresh a (List.mem_cons_self a ws) r hr)
    obtain ⟨lw2, hload2, hframe2, hrows2⟩ :=
      ih lw1 (fun b hb => hmem b (List.mem_cons_of_mem a hb)) hnd2
        (fun b hb r hr => by
          have hflat : r.1 ∈ (ws.map (fun a => a.rows.map Prod.fst)).flatten :=
            List.mem_flatten.mpr
              ⟨b.rows.map Prod.fst, List.mem_map.mpr ⟨b, hb, rfl⟩,
                List.mem_map.mpr ⟨r, hr, rfl⟩⟩
          rw [hframe1 r.1 (fun hin => hdisj hin hflat)]
          exact hfresh b (List.mem_cons_of_mem a hb) r hr)
    refine ⟨lw2, ?_, ?_, ?_⟩
    · have hstep : (some lw).bind
          (loadArchRows reserved
            ((enumerate 0 (saveArchetype w reg a).component_types).filter
              (fun p => reg.contains p.2))
            (saveArchetype w reg a).columns
            (enumerate 0 (saveArchetype w reg a).entities)) = some lw1 := hload1
      simp only [List.foldl_cons]
      rw [hstep]
      exact hload2
    · intro e2 he2
      simp only [List.map_cons, List.flatten_cons, List.mem_append] at he2
      rw [hframe2 e2 (fun h => he2 (Or.inr h)),
        hframe1 e2 (fun h => he2 (Or.inl h))]
    · intro b hb r hr t
      rcases List.mem_cons.mp hb with hba | hbw
      · subst hba
        have hnot : r.1 ∉ (ws.map (fun a => a.rows.map Prod.fst)).flatten :=
          hdisj (List.mem_map.mpr ⟨r, hr, rfl⟩)
        show ((lw2.comps.lookup r.1).getD []).lookup t = _
        rw [hframe2 r.1 hnot]
        exact hrows1 r hr t
      · exact hrows2 b hbw r hr t

/-- C1 (amended): the round-trip identity holds at the snapshot level,
not for every supported archive format. For every world whose archetypes
have well-formed rows (row width = number of component types),
duplicate-free component-type lists, globally duplicate-free entity
indices, and all component types registered in the snapshot registry,
`load_world_arch_snapshot_defragment` applied to
`save_world_arch_snapshot` succeeds, and in the loaded world every entity
index of the original world holds exactly the original world's component
value for every component type (the entity's image is the entity with the
same index, reserved during defragmentation). The formats that serialize
the `WorldArchSnapshot` verbatim (JSON, MessagePack) inherit this
identity; the columnar CSV format re-encodes each archetype and does not —
see `round_trip_csv_counterexample`. -/
theorem round_trip (w : MWorld) (reg : List String)
    (h1 : ∀ a ∈ w, ∀ r ∈ a.rows, r.2.length = a.types.length)
    (h2 : ∀ a ∈ w, a.types.Nodup)
    (h3 : (MWorld.entityIndices w).Nodup)
    (hreg : ∀ a ∈ w, ∀ t ∈ a.types, reg.contains t = true) :
    ∃ lw,
      load_world_arch_snapshot_defragment (save_world_arch_snapshot w reg) reg
        = some lw
      ∧ ∀ e ∈ MWorld.entityIndices w, ∀ t,
          lw.get e t = MWorld.get w e t := by
  have h3f : ((w.map (fun a => a.rows.map Prod.fst)).flatten).Nodup := h3
  have hres : ∀ a ∈ w, ∀ r ∈ a.rows,
      r.1 < count_entities (save_world_arch_snapshot w reg) := by
    intro a ha r hr
    have hmem : r.1 ∈ MWorld.entityIndices w :=
      List.mem_flatten.mpr
        ⟨a.rows.map Prod.fst, List.mem_map.mpr ⟨a, ha, rfl⟩,
          List.mem_map.mpr ⟨r, hr, rfl⟩⟩
    have hmem2 : r.1 ∈ (MWorld.entityIndices w).mergeSort (fun a b => a ≤ b) :=
      (List.mergeSort_perm (MWorld.entityIndices w) _).mem_iff.mpr hmem
    have hle := sorted_mem_le_getLast _
      (mergeSort_nat_sorted (MWorld.entityIndices w)) r.1 hmem2
    exact Nat.lt_succ_of_le hle
  have harch : (save_world_arch_snapshot w reg).archetypes
      = (w.filter (fun a => !a.rows.isEmpty)).map (saveArchetype w reg) := rfl
  rw [load_world_arch_snapshot_defragment, harch, List.foldl_map]
  have hsubfl : (((w.filter (fun a => !a.rows.isEmpty)).map
        (fun a => a.rows.map Prod.fst)).flatten).Sublist
      ((w.map (fun a => a.rows.map Prod.fst)).flatten) :=
    sublist_flatten ((List.filter_sublist w).map _)
  obtain ⟨lw2, hload, hframe, hrows⟩ :=
    load_fold w reg (count_entities (save_world_arch_snapshot w reg))
      h1 h2 h3f hreg hres
      (w.filter (fun a => !a.rows.isEmpty))
      ⟨count_entities (save_world_arch_snapshot w reg), []⟩
      (fun a ha => List.mem_of_mem_filter ha)
      (hsubfl.nodup h3f)
      (fun a _ r _ => rfl)
  refine ⟨lw2, hload, ?_⟩
  intro e he t
  obtain ⟨le, hle, hel⟩ := List.mem_flatten.mp he
  obtain ⟨a, ha, rfl⟩ := List.mem_map.mp hle
  obtain ⟨r, hr, rfl⟩ := List.mem_map.mp hel
  have haf : a ∈ w.filter (fun a => !a.rows.isEmpty) := by
    refine List.mem_filter.mpr ⟨ha, ?_⟩
    cases hrw : a.rows with
    | nil =>
      rw [hrw] at hr
      cases hr
    | cons x xs => simp [hrw]
  exact hrows a haf r hr t

/-- Witness for `round_trip` at a one-archetype world with a single entity
and one registered component. -/
theorem round_trip_witness :
    (∀ a ∈ ([⟨["A"], [(0, [Val.int 1])]⟩] : MWorld),
        ∀ r ∈ a.rows, r.2.length = a.types.length)
    ∧ (∀ a ∈ ([⟨["A"], [(0, [Val.int 1])]⟩] : MWorld), a.types.Nodup)
    ∧ (MWorld.entityIndices [⟨["A"], [(0, [Val.int 1])]⟩]).Nodup
    ∧ (∀ a ∈ ([⟨["A"], [(0, [Val.int 1])]⟩] : MWorld),
        ∀ t ∈ a.types, (["A"] : List String).contains t = true)
    ∧ (∃ lw,
        load_world_arch_snapshot_defragment
          (save_world_arch_snapshot [⟨["A"], [(0, [Val.int 1])]⟩] ["A"]) ["A"]
          = some lw
        ∧ ∀ e ∈ MWorld.entityIndices [⟨["A"], [(0, [Val.int 1])]⟩], ∀ t,
            lw.get e t = MWorld.get [⟨["A"], [(0, [Val.int 1])]⟩] e t) :=
  ⟨by decide, by decide, by decide, by decide,
    round_trip [⟨["A"], [(0, [Val.int 1])]⟩] ["A"]
      (by decide) (by decide) (by decide) (by decide)⟩

end ArchetypeArchive

/-! ## Columnar CSV archive (src/csv_archive.rs) -/

namespace CsvArchive

open ArchetypeArchive (enumerate)

/-- `format!("{}.{}", t, k)`: the mangled header of field `k` of
component `t`. -/
def dotJoin (t k : String) : String :=
  ⟨t.data ++ '.' :: k.data⟩

/-- `format!("{}.", t)`: the prefix stripped from a mangled header. -/
def dotPrefix (t : String) : String :=
  ⟨t.data ++ ['.']⟩

/-- `str::strip_prefix`. -/
def stripPrefix (s pre : String) : Option String :=
  if pre.data.isPrefixOf s.data then some ⟨s.data.drop pre.data.length⟩
  else none

/-- `str::split_once('.')` on the character list: split at the first dot. -/
def splitOnceAux : List Char → Option (List Char × List Char)
  | [] => none
  | c :: rest =>
    if c = '.' then some ([], rest)
    else (splitOnceAux rest).map (fun p => (c :: p.1, p.2))

/-- `header.split_once('.')`. -/
def split_once_dot (s : String) : Option (String × String) :=
  (splitOnceAux s.data).map (fun p => (⟨p.1⟩, ⟨p.2⟩))

/-- Model of `infer_schema` (src/csv_archive.rs): an object cell
contributes one mangled header per key, any other cell the component name
itself as a whole-value column. -/
def infer_schema (component : String) (v : Val) : List String :=
  match v with
  | Val.obj kvs => kvs.map (fun kv => dotJoin component kv.1)
  | _ => [component]

/-- Set-union accumulator: `seen` is the set built so far. The source
collects fields into a `HashSet` whose iteration order is unspecified; the
model fixes the first-occurrence order. -/
def dedupFirstAux (seen : List String) : List String → List String
  | [] => []
  | x :: xs =>
    if seen.contains x then dedupFirstAux seen xs
    else x :: dedupFirstAux (x :: seen) xs

/-- The per-column schema union of `columnar_from_snapshot`:
`col.iter().map(|x| infer_schema(type_name, x))` extended into one set. -/
def schemaFields (type_name : String) (col : List Val) : List String :=
  dedupFirstAux [] (col.map (infer_schema type_name)).flatten

/-- Model of `ColumnarCsv` (the `header_index_map` is the index of each
header in `headers`, rebuilt on demand). -/
structure ColumnarCsv where
  headers : List String
  columns : List (List Val)
  row_index : List Nat

/-- The per-column fill loop of `columnar_from_snapshot`: for each
`(idx, item)` of the component's snapshot column, an object cell writes
its `suffix` entry (if present) at row `idx`, any other cell is written
whole. -/
def fillStep (suffix : String) (c : List Val) (p : Nat × Val) : List Val :=
  match p.2 with
  | Val.obj kvs =>
    match List.lookup suffix kvs with
    | some v => c.set p.1 v
    | none => c
  | item => c.set p.1 item

def fillColumn (values : List Val) (suffix : String) (col : List Val) :
    List Val :=
  (enumerate 0 values).foldl (fillStep suffix) col

/-- `csv.get_column_mut(name).unwrap()` followed by the fill loop: locate
the column by header name (the panic on a missing header is `none`). -/
def updateColumn (headers : List String) (cols : List (List Val))
    (name : String) (values : List Val) (suffix : String) :
    Option (List (List Val)) :=
  match headers.findIdx? (fun h => h = name) with
  | some i => some (cols.set i (fillColumn values suffix (cols.getD i [])))
  | none => none

/-- The `for name in &schema.fields` loop: the suffix is
`name.strip_prefix(format!("{}.", component)).unwrap_or("")`. -/
def fillFields (component : String) (values : List Val)
    (headers : List String) :
    List String → List (List Val) → Option (List (List Val))
  | [], cols => some cols
  | f :: rest, cols =>
    match updateColumn headers cols f values
        ((stripPrefix f (dotPrefix component)).getD "") with
    | some cols2 => fillFields component values headers rest cols2
    | none => none

/-- The `for (values, schema) in snapshot.columns.iter().zip(schemas)`
loop. -/
def fillAll (headers : List String) :
    List (List Val × (String × List String)) → List (List Val) →
    Option (List (List Val))
  | [], cols => some cols
  | vs :: rest, cols =>
    match fillFields vs.2.1 vs.1 headers vs.2.2 cols with
    | some cols2 => fillAll headers rest cols2
    | none => none

/-- The `schemas` list of `columnar_from_snapshot`: one
`(component, fields)` group per column. -/
def snapshotSchemas (s : ArchetypeSnapshot) : List (String × List String) :=
  (s.columns.zip s.component_types).map (fun p => (p.2, schemaFields p.2 p.1))

/-- The `cols` header list of `columnar_from_snapshot`: all schema fields
in order. -/
def snapshotHeaders (s : ArchetypeSnapshot) : List String :=
  ((snapshotSchemas s).map Prod.snd).flatten

/-- Model of `columnar_from_snapshot`: compute the per-component schema
unions, append one all-`Null` column of `entities.len()` rows per header
(`append_columns` errors — an `unwrap` panic, modelled `none` — on a
duplicate header), set `row_index` to the snapshot's entities, and run the
fill loops. -/
def columnar_from_snapshot (s : ArchetypeSnapshot) : Option ColumnarCsv :=
  if (snapshotHeaders s).Nodup then
    match fillAll (snapshotHeaders s) (s.columns.zip (snapshotSchemas s))
        ((snapshotHeaders s).map
          (fun _ => List.replicate s.entities.length Val.null)) with
    | some cols => some ⟨snapshotHeaders s, cols, s.entities⟩
    | none => none
  else none

/-- The component a header belongs to in `to_archetype_snapshot`: the part
before the first dot, or the whole header for a whole-value column. -/
def headerKey (h : String) : String :=
  match split_once_dot h with
  | some p => p.1
  | none => h

/-- The field name a header carries: the part after the first dot, `none`
for a whole-value column. -/
def headerField (h : String) : Option String :=
  (split_once_dot h).map Prod.snd

/-- The `component_fields` group of one component: the
`(field, column index)` pairs of every header assigned to it, in header
order. The source's `HashMap` iterates in unspecified key order but keeps
per-key insertion order; the model fixes first-occurrence key order. -/
def groupOf (headers : List String) (comp : String) :
    List (Option String × Nat) :=
  (enumerate 0 headers).filterMap
    (fun p => if headerKey p.2 = comp then some (headerField p.2, p.1)
      else none)

/-- `csv.columns[col_idx][row]` (in-range by construction of the groups;
out of range is the source's index panic, defaulted here as the cells are
always in range when the csv is well-formed). -/
def csvCell (cols : List (List Val)) (ci row : Nat) : Val :=
  (cols.getD ci []).getD row Val.null

/-- Lexicographic order on character lists: the `Ord` of Rust `String`
keys in a `BTreeMap` (byte-wise lexicographic). -/
def charListLt : List Char → List Char → Bool
  | [], [] => false
  | [], _ :: _ => true
  | _ :: _, [] => false
  | a :: as, b :: bs =>
    if a.toNat < b.toNat then true
    else if b.toNat < a.toNat then false
    else charListLt as bs

/-- `String` key order. -/
def strLt (a b : String) : Bool :=
  charListLt a.data b.data

/-- `serde_json::Map::insert` on the key-sorted association list
(`serde_json`'s map is a `BTreeMap`): insert or overwrite, keeping keys
sorted. -/
def insertSortedKV (k : String) (v : Val) :
    List (String × Val) → List (String × Val)
  | [] => [(k, v)]
  | kv :: rest =>
    if k = kv.1 then (k, v) :: rest
    else if strLt k kv.1 then (k, v) :: kv :: rest
    else kv :: insertSortedKV k v rest

/-- The object-rebuilding loop of `to_archetype_snapshot`:
`map.insert(field_name.unwrap().clone(), csv.columns[ci][row])` over the
group's fields (the `unwrap` of a whole-value entry inside a multi-field
group is the source's panic, modelled `none`). -/
def buildObjFields (cols : List (List Val)) (row : Nat) :
    List (Option String × Nat) → List (String × Val) →
    Option (List (String × Val))
  | [], acc => some acc
  | (some k, ci) :: rest, acc =>
    buildObjFields cols row rest (insertSortedKV k (csvCell cols ci row) acc)
  | (none, _) :: _, _ => none

/-- One rebuilt cell: a single whole-value entry is pushed directly,
otherwise an object is assembled from the group's fields. -/
def buildCell (cols : List (List Val)) (fields : List (Option String × Nat))
    (row : Nat) : Option Val :=
  match fields with
  | [(none, ci)] => some (csvCell cols ci row)
  | fs => (buildObjFields cols row fs []).map Val.obj

/-- The `for row in 0..csv.row_index.len()` loop of one component: one
rebuilt cell per row. -/
def componentColumn (cols : List (List Val))
    (fields : List (Option String × Nat)) :
    List Nat → Option (List Val)
  | [] => some []
  | row :: rest =>
    match buildCell cols fields row with
    | some v => (componentColumn cols fields rest).map (fun l => v :: l)
    | none => none

/-- `BTreeMap` insertion of an entity id into the sorted key list (a later
duplicate id overwrites, leaving the key set unchanged). -/
def insertSortedNodup (x : Nat) : List Nat → List Nat
  | [] => [x]
  | y :: ys =>
    if x = y then y :: ys
    else if x < y then x :: y :: ys
    else y :: insertSortedNodup x ys

/-- The key list of `csv.row_index.iter().enumerate().map(|(i, &id)|
(id, i)).collect::<BTreeMap<_, _>>()`. The source assigns this map to the
snapshot's `entities` vector; only its sorted, deduplicated key list
enters the entity-index → row mapping. -/
def sortedKeys (l : List Nat) : List Nat :=
  l.foldl (fun acc x => insertSortedNodup x acc) []

/-- The rebuilt columns, one per component group in key order. -/
def groupsColumns (cols : List (List Val)) (nrows : Nat) :
    List (String × List (Option String × Nat)) → Option (List (List Val))
  | [] => some []
  | g :: rest =>
    match componentColumn cols g.2 (List.range nrows) with
    | some c => (groupsColumns cols nrows rest).map (fun l => c :: l)
    | none => none

/-- The component keys of `to_archetype_snapshot`'s `component_fields`
map, in first-occurrence order. -/
def csvKeys (csv : ColumnarCsv) : List String :=
  dedupFirstAux [] (csv.headers.map headerKey)

/-- The `component_fields` groups, one per key. -/
def csvGroups (csv : ColumnarCsv) : List (String × List (Option String × Nat)) :=
  (csvKeys csv).map (fun comp => (comp, groupOf csv.headers comp))

/-- Model of `to_archetype_snapshot`: group the headers by component,
rebuild one column per component over all rows, and take the `BTreeMap`
of `(id, row)` pairs as the entity list. -/
def to_archetype_snapshot (csv : ColumnarCsv) : Option ArchetypeSnapshot :=
  match groupsColumns csv.columns csv.row_index.length (csvGroups csv) with
  | some cols =>
    some { component_types := csvKeys csv
           storage_types := (csvKeys csv).map (fun _ => .table)
           columns := cols
           entities := sortedKeys csv.row_index }
  | none => none

/-- The cell an `ArchetypeSnapshot` holds for entity `e` and component
`t`: the row is `e`'s position in `entities` (`entity_id → row idx`), the
column is `t`'s position in `component_types`. -/
def snapCell (s : ArchetypeSnapshot) (e : Nat) (t : String) : Option Val :=
  match s.entities.findIdx? (fun x => x = e),
      s.component_types.findIdx? (fun x => x = t) with
  | some r, some c => some ((s.columns.getD c []).getD r Val.null)
  | _, _ => none

/-- The key list of an object cell (discriminates rebuilt cells from
original ones). -/
def objKeyList : Val → List String
  | Val.obj kvs => kvs.map Prod.fst
  | _ => []

/-- Whether a cell is a JSON object (`Value::is_object`). -/
def isObjB : Val → Bool
  | Val.obj _ => true
  | _ => false

/-- C8 counterexample: a one-component snapshot whose two cells are flat
objects of scalars with different key sets (`{"x": 1}` and `{"y": 2}`). The schema union produces columns `C.x`
and `C.y`, the fill leaves the missing entries `Null`, and the rebuilt
cell at row 0 is the object with keys `x` and `y` (its `y` entry `Null`)
— not the original object with the single key `x`: the cell is not
preserved. -/
theorem csv_roundtrip_counterexample :
    (((columnar_from_snapshot
        { component_types := ["C"], storage_types := [.table],
          columns := [[Val.obj [("x", Val.int 1)], Val.obj [("y", Val.int 2)]]],
          entities := [0, 1] }).bind to_archetype_snapshot).map
      (fun s1 => objKeyList ((s1.columns.getD 0 []).getD 0 Val.null)))
      = some ["x", "y"]
    ∧ objKeyList
        ((({ component_types := ["C"], storage_types := [.table],
             columns := [[Val.obj [("x", Val.int 1)], Val.obj [("y", Val.int 2)]]],
             entities := [0, 1] } : ArchetypeSnapshot).columns.getD 0 []).getD 0
          Val.null)
      = ["x"] :=
  ⟨by decide, by decide⟩

theorem charListLt_self (l : List Char) : charListLt l l = false := by
  induction l with
  | nil => rfl
  | cons a as ih => simp [charListLt, ih]

theorem charListLt_asymm : ∀ (l1 l2 : List Char),
    charListLt l1 l2 = true → charListLt l2 l1 = false := by
  intro l1
  induction l1 with
  | nil =>
    intro l2 h
    cases l2 with
    | nil => rfl
    | cons b bs => rfl
  | cons a as ih =>
    intro l2 h
    cases l2 with
    | nil => simp [charListLt] at h
    | cons b bs =>
      rw [charListLt] at h ⊢
      by_cases h1 : a.toNat < b.toNat
      · have h2 : ¬b.toNat < a.toNat := Nat.lt_asymm h1
        simp [h1, h2]
      · by_cases h2 : b.toNat < a.toNat
        · simp [h1, h2] at h
        · simp only [h1, h2, if_false] at h ⊢
          exact ih bs h

theorem strLt_ne {a b : String} (h : strLt a b = true) : a ≠ b := by
  intro he
  rw [he, strLt, charListLt_self] at h
  cases h

theorem strLt_asymm {a b : String} (h : strLt a b = true) :
    strLt b a = false :=
  charListLt_asymm a.data b.data h

theorem splitOnceAux_none : ∀ {l : List Char}, ('.') ∉ l →
    splitOnceAux l = none := by
  intro l h
  induction l with
  | nil => rfl
  | cons c cs ih =>
    have hc : ¬c = '.' := fun hc => h (hc ▸ List.mem_cons_self _ _)
    rw [splitOnceAux, if_neg hc, ih (fun hm => h (List.mem_cons_of_mem _ hm))]
    rfl

theorem splitOnceAux_append (t k : List Char) (h : ('.') ∉ t) :
    splitOnceAux (t ++ '.' :: k) = some (t, k) := by
  induction t with
  | nil => simp [splitOnceAux]
  | cons c cs ih =>
    have hc : ¬c = '.' := fun hc => h (hc ▸ List.mem_cons_self _ _)
    rw [List.cons_append, splitOnceAux, if_neg hc,
      ih (fun hm => h (List.mem_cons_of_mem _ hm))]
    rfl

theorem headerKey_plain (t : String) (h : ('.') ∉ t.data) :
    headerKey t = t := by
  simp [headerKey, split_once_dot, splitOnceAux_none h]

theorem headerKey_dotJoin (t k : String) (h : ('.') ∉ t.data) :
    headerKey (dotJoin t k) = t := by
  have hd : (dotJoin t k).data = t.data ++ '.' :: k.data := rfl
  simp [headerKey, split_once_dot, hd, splitOnceAux_append t.data k.data h]

theorem headerField_plain (t : String) (h : ('.') ∉ t.data) :
    headerField t = none := by
  simp [headerField, split_once_dot, splitOnceAux_none h]

theorem headerField_dotJoin (t k : String) (h : ('.') ∉ t.data) :
    headerField (dotJoin t k) = some k := by
  have hd : (dotJoin t k).data = t.data ++ '.' :: k.data := rfl
  simp [headerField, split_once_dot, hd, splitOnceAux_append t.data k.data h]

theorem strip_dotJoin (t k : String) :
    stripPrefix (dotJoin t k) (dotPrefix t) = some k := by
  have hjoin : (dotJoin t k).data = (t.data ++ ['.']) ++ k.data := by
    show t.data ++ '.' :: k.data = (t.data ++ ['.']) ++ k.data
    simp
  have hpre : (dotPrefix t).data.isPrefixOf (dotJoin t k).data = true := by
    rw [List.isPrefixOf_iff_prefix]
    show (t.data ++ ['.']) <+: (dotJoin t k).data
    rw [hjoin]
    exact List.prefix_append _ _
  rw [stripPrefix, if_pos hpre]
  congr 1
  apply String.ext
  show (dotJoin t k).data.drop (dotPrefix t).data.length = k.data
  have hlen : (dotPrefix t).data.length = (t.data ++ ['.']).length := rfl
  rw [hjoin, hlen, List.drop_left]

theorem dot_append_inj : ∀ (t1 t2 k1 k2 : List Char),
    ('.') ∉ t1 → ('.') ∉ t2 → t1 ++ '.' :: k1 = t2 ++ '.' :: k2 →
    t1 = t2 ∧ k1 = k2 := by
  intro t1
  induction t1 with
  | nil =>
    intro t2 k1 k2 h1 h2 h
    cases t2 with
    | nil => simpa using h
    | cons c cs =>
      simp only [List.nil_append, List.cons_append, List.cons.injEq] at h
      exact absurd (h.1 ▸ List.mem_cons_self c cs) h2
  | cons c cs ih =>
    intro t2 k1 k2 h1 h2 h
    cases t2 with
    | nil =>
      simp only [List.nil_append, List.cons_append, List.cons.injEq] at h
      exact absurd (h.1 ▸ List.mem_cons_self c cs) h1
    | cons d ds =>
      simp only [List.cons_append, List.cons.injEq] at h
      obtain ⟨hcd, hrest⟩ := h
      obtain ⟨hts, hks⟩ := ih ds k1 k2
        (fun hm => h1 (List.mem_cons_of_mem _ hm))
        (fun hm => h2 (List.mem_cons_of_mem _ hm)) hrest
      exact ⟨by rw [hcd, hts], hks⟩

theorem dotJoin_inj {t1 t2 k1 k2 : String} (h1 : ('.') ∉ t1.data)
    (h2 : ('.') ∉ t2.data) (h : dotJoin t1 k1 = dotJoin t2 k2) :
    t1 = t2 ∧ k1 = k2 := by
  have hd : t1.data ++ '.' :: k1.data = t2.data ++ '.' :: k2.data :=
    congrArg String.data h
  obtain ⟨ht, hk⟩ := dot_append_inj t1.data t2.data k1.data k2.data h1 h2 hd
  exact ⟨String.ext ht, String.ext hk⟩

theorem dotJoin_right_inj (t : String) : Function.Injective (dotJoin t) := by
  intro k1 k2 h
  have hd : t.data ++ '.' :: k1.data = t.data ++ '.' :: k2.data :=
    congrArg String.data h
  have := List.append_cancel_left hd
  simp only [List.cons.injEq] at this
  exact String.ext this.2

theorem dotJoin_ne_plain {t k t' : String} (h : ('.') ∉ t'.data) :
    dotJoin t k ≠ t' := by
  intro he
  apply h
  rw [← he]
  show ('.') ∈ t.data ++ '.' :: k.data
  exact List.mem_append_right _ (List.mem_cons_self _ _)

theorem contains_iff {x : String} {l : List String} :
    l.contains x = true ↔ x ∈ l := by
  simp [List.contains, List.elem_iff]

theorem dedupFirstAux_congr : ∀ (l s1 s2 : List String),
    (∀ x, x ∈ s1 ↔ x ∈ s2) → dedupFirstAux s1 l = dedupFirstAux s2 l := by
  intro l
  induction l with
  | nil => intro s1 s2 _; rfl
  | cons x xs ih =>
    intro s1 s2 h
    simp only [dedupFirstAux]
    by_cases hx : x ∈ s2
    · rw [if_pos (contains_iff.mpr ((h x).mpr hx)), if_pos (contains_iff.mpr hx)]
      exact ih s1 s2 h
    · have h1 : x ∉ s1 := fun hx1 => hx ((h x).mp hx1)
      rw [if_neg (fun hc => h1 (contains_iff.mp hc)),
        if_neg (fun hc => hx (contains_iff.mp hc))]
      rw [ih (x :: s1) (x :: s2) (fun y => by simp [h y])]

theorem dedupFirstAux_append : ∀ (l1 l2 s : List String),
    dedupFirstAux s (l1 ++ l2)
      = dedupFirstAux s l1 ++ dedupFirstAux (l1 ++ s) l2 := by
  intro l1
  induction l1 with
  | nil => intro l2 s; rfl
  | cons x xs ih =>
    intro l2 s
    simp only [List.cons_append, dedupFirstAux, List.append_eq]
    by_cases hx : x ∈ s
    · have hc := contains_iff.mpr hx
      rw [if_pos hc, if_pos hc, ih l2 s]
      congr 1
      exact dedupFirstAux_congr l2 (xs ++ s) (x :: xs ++ s)
        (fun y => by
          constructor
          · intro hy
            exact List.mem_cons_of_mem _ hy
          · intro hy
            rcases List.mem_cons.mp hy with rfl | hy2
            · exact List.mem_append_right _ hx
            · exact hy2)
    · have hc : ¬s.contains x = true := fun hc => hx (contains_iff.mp hc)
      rw [if_neg hc, if_neg hc, ih l2 (x :: s), List.cons_append]
      congr 2
      exact dedupFirstAux_congr l2 (xs ++ x :: s) (x :: xs ++ s)
        (fun y => by
          constructor
          · intro hy
            rcases List.mem_append.mp hy with hy1 | hy2
            · exact List.mem_cons_of_mem _ (List.mem_append_left _ hy1)
            · rcases List.mem_cons.mp hy2 with rfl | hy3
              · exact List.mem_cons_self _ _
              · exact List.mem_cons_of_mem _ (List.mem_append_right _ hy3)
          · intro hy
            rcases List.mem_cons.mp hy with rfl | hy2
            · exact List.mem_append_right _ (List.mem_cons_self _ _)
            · rcases List.mem_append.mp hy2 with hy3 | hy4
              · exact List.mem_append_left _ hy3
              · exact List.mem_append_right _ (List.mem_cons_of_mem _ hy4))

theorem dedupFirstAux_all_mem : ∀ {l s : List String},
    (∀ x ∈ l, x ∈ s) → dedupFirstAux s l = [] := by
  intro l
  induction l with
  | nil => intro s _; rfl
  | cons x xs ih =>
    intro s h
    rw [dedupFirstAux, if_pos (contains_iff.mpr (h x (List.mem_cons_self _ _)))]
    exact ih (fun y hy => h y (List.mem_cons_of_mem _ hy))

theorem dedupFirstAux_nodup_fresh : ∀ {l s : List String},
    l.Nodup → (∀ x ∈ l, x ∉ s) → dedupFirstAux s l = l := by
  intro l
  induction l with
  | nil => intro s _ _; rfl
  | cons x xs ih =>
    intro s hnd h
    rw [dedupFirstAux,
      if_neg (fun hc => h x (List.mem_cons_self _ _) (contains_iff.mp hc))]
    congr 1
    refine ih (List.nodup_cons.mp hnd).2 (fun y hy hmem => ?_)
    rcases List.mem_cons.mp hmem with rfl | hy2
    · exact (List.nodup_cons.mp hnd).1 hy
    · exact h y (List.mem_cons_of_mem _ hy) hy2

theorem dedupFirstAux_const {t : String} : ∀ {l s : List String},
    (∀ x ∈ l, x = t) → l ≠ [] → t ∉ s → dedupFirstAux s l = [t] := by
  intro l
  induction l with
  | nil => intro s _ hne _; exact absurd rfl hne
  | cons x xs ih =>
    intro s hall _ hts
    have hx : x = t := hall x (List.mem_cons_self _ _)
    subst hx
    rw [dedupFirstAux, if_neg (fun hc => hts (contains_iff.mp hc))]
    congr 1
    exact dedupFirstAux_all_mem
      (fun y hy => (hall y (List.mem_cons_of_mem _ hy)) ▸ List.mem_cons_self _ _)

theorem dedupFirstAux_key_blocks :
    ∀ (KB : List (String × List String)) (seen : List String),
      (∀ q ∈ KB, (∀ x ∈ q.2, x = q.1) ∧ q.2 ≠ []) →
      (KB.map Prod.fst).Nodup →
      (∀ q ∈ KB, q.1 ∉ seen) →
      dedupFirstAux seen (KB.map Prod.snd).flatten = KB.map Prod.fst := by
  intro KB
  induction KB with
  | nil => intro seen _ _ _; rfl
  | cons q KB' ih =>
    intro seen hall hnd hseen
    simp only [List.map_cons, List.flatten_cons]
    rw [dedupFirstAux_append]
    have hq := hall q (List.mem_cons_self _ _)
    rw [dedupFirstAux_const hq.1 hq.2 (hseen q (List.mem_cons_self _ _)),
      List.singleton_append]
    congr 1
    refine ih (q.2 ++ seen)
      (fun r hr => hall r (List.mem_cons_of_mem _ hr))
      (List.nodup_cons.mp hnd).2
      (fun r hr hmem => ?_)
    rcases List.mem_append.mp hmem with h1 | h2
    · have : r.1 = q.1 := hq.1 r.1 h1
      exact (List.nodup_cons.mp hnd).1
        (this ▸ List.mem_map.mpr ⟨r, hr, rfl⟩)
    · exact hseen r (List.mem_cons_of_mem _ hr) h2

theorem schemaFields_uniform (t : String) (col : List Val) (F : List String)
    (hne : col ≠ []) (hF : F.Nodup)
    (hu : ∀ v ∈ col, infer_schema t v = F) :
    schemaFields t col = F := by
  cases col with
  | nil => exact absurd rfl hne
  | cons v0 rest =>
    rw [schemaFields, List.map_cons, List.flatten_cons,
      hu v0 (List.mem_cons_self _ _), dedupFirstAux_append,
      dedupFirstAux_nodup_fresh hF (fun x _ hx => (List.not_mem_nil x) hx)]
    rw [dedupFirstAux_all_mem (s := F ++ []) (fun x hx => by
      obtain ⟨B, hB, hxB⟩ := List.mem_flatten.mp hx
      obtain ⟨v, hv, rfl⟩ := List.mem_map.mp hB
      rw [hu v (List.mem_cons_of_mem _ hv)] at hxB
      exact List.mem_append_left _ hxB)]
    exact List.append_nil F

/-- The value a filled column holds per row: an object row gives its
`suffix` entry (the initial `Null` remains when the key is absent), any
other row the cell itself. -/
def extractCell (suffix : String) : Val → Val
  | Val.obj kvs => (List.lookup suffix kvs).getD Val.null
  | v => v

theorem set_append_len {α : Type} : ∀ (pre : List α) (x u : α) (l : List α),
    (pre ++ x :: l).set pre.length u = pre ++ u :: l := by
  intro pre
  induction pre with
  | nil => intro x u l; rfl
  | cons a as ih =>
    intro x u l
    show a :: (as ++ x :: l).set as.length u = a :: (as ++ u :: l)
    rw [ih]

theorem fillColumn_fold (suffix : String) :
    ∀ (values pre : List Val),
      (enumerate pre.length values).foldl (fillStep suffix)
        (pre ++ List.replicate values.length Val.null)
      = pre ++ values.map (extractCell suffix) := by
  intro values
  induction values with
  | nil => intro pre; simp [enumerate]
  | cons v vs ih =>
    intro pre
    rw [List.length_cons, List.replicate_succ, enumerate, List.foldl_cons]
    have hstep :
        fillStep suffix (pre ++ Val.null :: List.replicate vs.length Val.null)
          (pre.length, v)
        = pre ++ extractCell suffix v :: List.replicate vs.length Val.null := by
      cases v with
      | obj kvs =>
        show (match List.lookup suffix kvs with
          | some u => (pre ++ Val.null :: List.replicate vs.length Val.null).set
              pre.length u
          | none => pre ++ Val.null :: List.replicate vs.length Val.null)
          = pre ++ (List.lookup suffix kvs).getD Val.null
              :: List.replicate vs.length Val.null
        cases hlk : List.lookup suffix kvs with
        | some u =>
          show (pre ++ Val.null :: List.replicate vs.length Val.null).set
              pre.length u = pre ++ u :: List.replicate vs.length Val.null
          exact set_append_len pre _ _ _
        | none => rfl
      | null => exact set_append_len pre _ _ _
      | bool b => exact set_append_len pre _ _ _
      | int n => exact set_append_len pre _ _ _
      | str s => exact set_append_len pre _ _ _
      | arr l => exact set_append_len pre _ _ _
    rw [hstep]
    have h2 := ih (pre ++ [extractCell suffix v])
    simpa [List.append_assoc] using h2

theorem fillColumn_replicate (values : List Val) (suffix : String) :
    fillColumn values suffix (List.replicate values.length Val.null)
      = values.map (extractCell suffix) := by
  have h := fillColumn_fold suffix values []
  simpa [fillColumn] using h

theorem findIdx?_self_nodup {α : Type} [DecidableEq α] {l : List α}
    (hnd : l.Nodup) {i : Nat} (hi : i < l.length) :
    l.findIdx? (fun x => x = l.get ⟨i, hi⟩) = some i := by
  apply List.findIdx?_eq_some_iff_getElem.mpr
  refine ⟨hi, by simp [List.get_eq_getElem], ?_⟩
  intro j hji
  simp only [decide_eq_true_eq]
  intro hlj
  have h2 : l.get ⟨j, Nat.lt_trans hji hi⟩ = l.get ⟨i, hi⟩ := by
    simpa [List.get_eq_getElem] using hlj
  have h3 := (List.Nodup.get_inj_iff hnd).mp h2
  have h4 : j = i := congrArg Fin.val h3
  omega

theorem fillFields_spec (comp : String) (values : List Val)
    (headers : List String) (hnd : headers.Nodup) :
    ∀ (fields : List String) (cols : List (List Val)),
      cols.length = headers.length →
      fields.Nodup → (∀ f ∈ fields, f ∈ headers) →
      ∃ cols2, fillFields comp values headers fields cols = some cols2
        ∧ cols2.length = headers.length
        ∧ (∀ j f0, headers[j]? = some f0 →
            (f0 ∉ fields → cols2[j]? = cols[j]?)
            ∧ (f0 ∈ fields → cols2[j]? = some (fillColumn values
                ((stripPrefix f0 (dotPrefix comp)).getD "")
                (cols.getD j [])))) := by
  intro fields
  induction fields with
  | nil =>
    intro cols hlen _ _
    exact ⟨cols, rfl, hlen, fun j f0 _ =>
      ⟨fun _ => rfl, fun h => absurd h (List.not_mem_nil f0)⟩⟩
  | cons f rest ih =>
    intro cols hlen hndf hmem
    have hf : f ∈ headers := hmem f (List.mem_cons_self _ _)
    cases hfi : headers.findIdx? (fun h => h = f) with
    | none =>
      exfalso
      have := List.findIdx?_eq_none_iff.mp hfi f hf
      simp at this
    | some i =>
      obtain ⟨hi, hpi, _⟩ := List.findIdx?_eq_some_iff_getElem.mp hfi
      have hhi : headers[i] = f := by simpa using hpi
      have hrun : fillFields comp values headers (f :: rest) cols
          = fillFields comp values headers rest
            (cols.set i (fillColumn values
              ((stripPrefix f (dotPrefix comp)).getD "") (cols.getD i []))) := by
        rw [fillFields, updateColumn, hfi]
      obtain ⟨cols2, hrun2, hlen2, hpt⟩ := ih
        (cols.set i (fillColumn values
          ((stripPrefix f (dotPrefix comp)).getD "") (cols.getD i [])))
        (by rw [List.length_set]; exact hlen)
        (List.nodup_cons.mp hndf).2
        (fun g hg => hmem g (List.mem_cons_of_mem _ hg))
      refine ⟨cols2, by rw [hrun]; exact hrun2, hlen2, ?_⟩
      intro j f0 hj
      obtain ⟨hjlt, hjf0⟩ := List.getElem?_eq_some_iff.mp hj
      constructor
      · intro hnotin
        have hne : f0 ≠ f := fun he => hnotin (he ▸ List.mem_cons_self _ _)
        have hji : j ≠ i := by
          intro he
          subst he
          apply hne
          rw [← hjf0]
          exact hhi
        rw [(hpt j f0 hj).1
            (fun hmem2 => hnotin (List.mem_cons_of_mem _ hmem2)),
          List.getElem?_set_ne (Ne.symm hji)]
      · intro hin
        rcases List.mem_cons.mp hin with rfl | hrest
        · have hji : j = i := by
            have hg : headers.get ⟨j, hjlt⟩ = headers.get ⟨i, hi⟩ := by
              simp [List.get_eq_getElem, hjf0, hhi]
            have h3 := (List.Nodup.get_inj_iff hnd).mp hg
            exact congrArg Fin.val h3
          subst hji
          rw [(hpt j f0 hj).1 (List.nodup_cons.mp hndf).1,
            List.getElem?_set_self (hlen ▸ hjlt)]
        · have hne : f0 ≠ f := fun he =>
            (List.nodup_cons.mp hndf).1 (he ▸ hrest)
          have hji : j ≠ i := by
            intro he
            subst he
            apply hne
            rw [← hjf0]
            exact hhi
          rw [(hpt j f0 hj).2 hrest, List.getD_eq_getElem?_getD,
            List.getElem?_set_ne (Ne.symm hji), ← List.getD_eq_getElem?_getD]

theorem fillAll_spec (headers : List String) (hnd : headers.Nodup) :
    ∀ (pairs : List (List Val × (String × List String)))
      (cols : List (List Val)),
      cols.length = headers.length →
      ((pairs.map (fun pr => pr.2.2)).flatten).Nodup →
      (∀ pr ∈ pairs, ∀ f ∈ pr.2.2, f ∈ headers) →
      ∃ cols2, fillAll headers pairs cols = some cols2
        ∧ cols2.length = headers.length
        ∧ ∀ j f0, headers[j]? = some f0 →
            ((∀ pr ∈ pairs, f0 ∉ pr.2.2) → cols2[j]? = cols[j]?)
            ∧ (∀ pr ∈ pairs, f0 ∈ pr.2.2 →
                cols2[j]? = some (fillColumn pr.1
                  ((stripPrefix f0 (dotPrefix pr.2.1)).getD "")
                  (cols.getD j []))) := by
  intro pairs
  induction pairs with
  | nil =>
    intro cols hlen _ _
    exact ⟨cols, rfl, hlen, fun j f0 _ =>
      ⟨fun _ => rfl, fun pr hpr => absurd hpr (List.not_mem_nil pr)⟩⟩
  | cons pr rest ih =>
    intro cols hlen hndf hmem
    simp only [List.map_cons, List.flatten_cons] at hndf
    obtain ⟨hnd1, hnd2, hdisj⟩ := List.nodup_append.mp hndf
    obtain ⟨cols1, hrun1, hlen1, hpt1⟩ := fillFields_spec pr.2.1 pr.1
      headers hnd pr.2.2 cols hlen hnd1
      (fun f hf => hmem pr (List.mem_cons_self _ _) f hf)
    obtain ⟨cols2, hrun2, hlen2, hpt2⟩ := ih cols1 hlen1 hnd2
      (fun q hq f hf => hmem q (List.mem_cons_of_mem _ hq) f hf)
    have hrun : fillAll headers (pr :: rest) cols = some cols2 := by
      rw [fillAll, hrun1]
      exact hrun2
    refine ⟨cols2, hrun, hlen2, ?_⟩
    intro j f0 hj
    constructor
    · intro hnone
      rw [(hpt2 j f0 hj).1
          (fun q hq => hnone q (List.mem_cons_of_mem _ hq)),
        (hpt1 j f0 hj).1 (hnone pr (List.mem_cons_self _ _))]
    · intro q hq hf0
      rcases List.mem_cons.mp hq with rfl | hq2
      · have hnot2 : ∀ q2 ∈ rest, f0 ∉ q2.2.2 := by
          intro q2 hq2 hmem2
          exact hdisj hf0 (List.mem_flatten.mpr
            ⟨q2.2.2, List.mem_map.mpr ⟨q2, hq2, rfl⟩, hmem2⟩)
        rw [(hpt2 j f0 hj).1 hnot2, (hpt1 j f0 hj).2 hf0]
      · have hnot1 : f0 ∉ pr.2.2 := fun hmem1 =>
          hdisj hmem1 (List.mem_flatten.mpr
            ⟨q.2.2, List.mem_map.mpr ⟨q, hq2, rfl⟩, hf0⟩)
        have hc1 : cols1[j]? = cols[j]? := (hpt1 j f0 hj).1 hnot1
        rw [(hpt2 j f0 hj).2 q hq2 hf0, List.getD_eq_getElem?_getD, hc1,
          ← List.getD_eq_getElem?_getD]

theorem enumerate_append {α : Type} :
    ∀ (l1 l2 : List α) (k : Nat),
      enumerate k (l1 ++ l2) = enumerate k l1 ++ enumerate (k + l1.length) l2 := by
  intro l1
  induction l1 with
  | nil => intro l2 k; simp [enumerate]
  | cons x xs ih =>
    intro l2 k
    have he : k + 1 + xs.length = k + (x :: xs).length := by
      rw [List.length_cons]
      omega
    rw [List.cons_append, enumerate, enumerate, ih l2 (k + 1),
      List.cons_append, he]

theorem enumerate_map {α β : Type} (f : α → β) :
    ∀ (l : List α) (k : Nat),
      enumerate k (l.map f) = (enumerate k l).map (fun p => (p.1, f p.2)) := by
  intro l
  induction l with
  | nil => intro k; rfl
  | cons x xs ih =>
    intro k
    rw [List.map_cons, enumerate, enumerate, ih (k + 1), List.map_cons]

theorem enumerate_getElem? {α : Type} :
    ∀ (l : List α) (k j : Nat),
      (enumerate k l)[j]? = l[j]?.map (fun x => (k + j, x)) := by
  intro l
  induction l with
  | nil => intro k j; simp [enumerate]
  | cons x xs ih =>
    intro k j
    cases j with
    | zero => simp [enumerate]
    | succ j2 =>
      rw [enumerate, List.getElem?_cons_succ, List.getElem?_cons_succ,
        ih (k + 1) j2]
      have he : k + 1 + j2 = k + (j2 + 1) := by omega
      rw [he]

theorem enumerate_length {α : Type} :
    ∀ (l : List α) (k : Nat), (enumerate k l).length = l.length := by
  intro l
  induction l with
  | nil => intro k; rfl
  | cons x xs ih => intro k; rw [enumerate, List.length_cons, List.length_cons, ih]

theorem zip_self_zip {α β : Type} : ∀ (as : List α) (bs : List β),
    as.zip (as.zip bs) = (as.zip bs).map (fun p => (p.1, p)) := by
  intro as
  induction as with
  | nil => intro bs; rfl
  | cons a as2 ih =>
    intro bs
    cases bs with
    | nil => rfl
    | cons b bs2 => simp [List.zip_cons_cons, ih bs2]

theorem zip_getElem?_of {α β : Type} :
    ∀ (as : List α) (bs : List β) (i : Nat) (a : α) (b : β),
      as[i]? = some a → bs[i]? = some b → (as.zip bs)[i]? = some (a, b) := by
  intro as
  induction as with
  | nil => intro bs i a b ha _; simp at ha
  | cons x xs ih =>
    intro bs i a b ha hb
    cases bs with
    | nil => simp at hb
    | cons y ys =>
      cases i with
      | zero =>
        simp only [List.getElem?_cons_zero, Option.some.injEq] at ha hb
        simp [List.zip_cons_cons, ha, hb]
      | succ i2 =>
        simp only [List.getElem?_cons_succ] at ha hb
        rw [List.zip_cons_cons, List.getElem?_cons_succ]
        exact ih ys i2 a b ha hb

theorem flatten_getElem?_block {α : Type} :
    ∀ (H1 : List (List α)) (B : List α) (H2 : List (List α)) (m : Nat),
      m < B.length →
      ((H1 ++ B :: H2).flatten)[(H1.map List.length).sum + m]? = B[m]? := by
  intro H1
  induction H1 with
  | nil =>
    intro B H2 m hm
    simp only [List.nil_append, List.flatten_cons, List.map_nil, List.sum_nil,
      Nat.zero_add]
    rw [List.getElem?_append_left hm]
  | cons h1 H1' ih =>
    intro B H2 m hm
    simp only [List.cons_append, List.flatten_cons, List.map_cons, List.sum_cons]
    have hidx : h1.length + (H1'.map List.length).sum + m
        = h1.length + ((H1'.map List.length).sum + m) := by omega
    rw [hidx, List.getElem?_append_right (Nat.le_add_right _ _),
      Nat.add_sub_cancel_left]
    exact ih B H2 m hm

/-- The grouped header entries of component `t` when the headers are laid
out as consecutive per-component blocks starting at global index `k`. -/
def groupBlocks (t : String) : List (String × List String) → Nat →
    List (Option String × Nat)
  | [], _ => []
  | q :: rest, k =>
    (if q.1 = t then (enumerate k q.2).map (fun p => (headerField p.2, p.1))
     else [])
      ++ groupBlocks t rest (k + q.2.length)

theorem filterMap_block_all (t : String) :
    ∀ (B : List String), (∀ h ∈ B, headerKey h = t) →
      ∀ (k : Nat),
        List.filterMap
          (fun p => if headerKey p.2 = t then some (headerField p.2, p.1)
            else none)
          (enumerate k B)
        = (enumerate k B).map (fun p => (headerField p.2, p.1)) := by
  intro B
  induction B with
  | nil => intro _ k; rfl
  | cons x xs ih =>
    intro hall k
    rw [enumerate, List.filterMap_cons, List.map_cons]
    rw [if_pos (hall x (List.mem_cons_self _ _))]
    rw [ih (fun y hy => hall y (List.mem_cons_of_mem _ hy)) (k + 1)]

theorem filterMap_block_none (t : String) :
    ∀ (B : List String), (∀ h ∈ B, headerKey h ≠ t) →
      ∀ (k : Nat),
        List.filterMap
          (fun p => if headerKey p.2 = t then some (headerField p.2, p.1)
            else none)
          (enumerate k B)
        = [] := by
  intro B
  induction B with
  | nil => intro _ k; rfl
  | cons x xs ih =>
    intro hall k
    rw [enumerate, List.filterMap_cons,
      if_neg (hall x (List.mem_cons_self _ _))]
    exact ih (fun y hy => hall y (List.mem_cons_of_mem _ hy)) (k + 1)

theorem filterMap_groupBlocks (t : String) :
    ∀ (Ls : List (String × List String)) (k : Nat),
      (∀ q ∈ Ls, ∀ h ∈ q.2, headerKey h = q.1) →
      List.filterMap
        (fun p => if headerKey p.2 = t then some (headerField p.2, p.1)
          else none)
        (enumerate k (Ls.map Prod.snd).flatten)
      = groupBlocks t Ls k := by
  intro Ls
  induction Ls with
  | nil => intro k _; rfl
  | cons q rest ih =>
    intro k hall
    simp only [List.map_cons, List.flatten_cons]
    rw [enumerate_append, List.filterMap_append, groupBlocks]
    congr 1
    · by_cases hq : q.1 = t
      · rw [if_pos hq]
        exact filterMap_block_all t q.2
          (fun h hh => (hall q (List.mem_cons_self _ _) h hh).trans hq) k
      · rw [if_neg hq]
        exact filterMap_block_none t q.2
          (fun h hh he =>
            hq (((hall q (List.mem_cons_self _ _) h hh).symm.trans he))) k
    · exact ih (k + q.2.length)
        (fun r hr => hall r (List.mem_cons_of_mem _ hr))

theorem groupBlocks_single (t : String) :
    ∀ (Ls : List (String × List String)) (k : Nat),
      (∀ q ∈ Ls, q.1 ≠ t) → groupBlocks t Ls k = [] := by
  intro Ls
  induction Ls with
  | nil => intro k _; rfl
  | cons q rest ih =>
    intro k hall
    rw [groupBlocks, if_neg (hall q (List.mem_cons_self _ _)), List.nil_append]
    exact ih (k + q.2.length) (fun r hr => hall r (List.mem_cons_of_mem _ hr))

theorem groupBlocks_unique (t : String) :
    ∀ (L1 : List (String × List String)) (q : String × List String)
      (L2 : List (String × List String)) (k : Nat),
      q.1 = t → (∀ r ∈ L1, r.1 ≠ t) → (∀ r ∈ L2, r.1 ≠ t) →
      groupBlocks t (L1 ++ q :: L2) k
        = (enumerate (k + (L1.map (fun r => r.2.length)).sum) q.2).map
            (fun p => (headerField p.2, p.1)) := by
  intro L1
  induction L1 with
  | nil =>
    intro q L2 k hq _ h2
    rw [List.nil_append, groupBlocks, if_pos hq,
      groupBlocks_single t L2 (k + q.2.length) h2, List.append_nil]
    simp
  | cons r L1' ih =>
    intro q L2 k hq h1 h2
    rw [List.cons_append, groupBlocks,
      if_neg (h1 r (List.mem_cons_self _ _)), List.nil_append,
      ih q L2 (k + r.2.length) hq
        (fun r2 hr2 => h1 r2 (List.mem_cons_of_mem _ hr2)) h2]
    congr 2
    simp [List.sum_cons]
    omega

theorem insertSortedKV_append (k : String) (v : Val) :
    ∀ (acc : List (String × Val)), (∀ kv ∈ acc, strLt kv.1 k = true) →
      insertSortedKV k v acc = acc ++ [(k, v)] := by
  intro acc
  induction acc with
  | nil => intro _; rfl
  | cons kv rest ih =>
    intro hall
    have h1 := hall kv (List.mem_cons_self _ _)
    rw [insertSortedKV, if_neg (fun he => (strLt_ne h1) he.symm)]
    rw [if_neg (fun he : strLt k kv.1 = true => by
      rw [strLt_asymm h1] at he
      cases he)]
    rw [ih (fun kv2 h2 => hall kv2 (List.mem_cons_of_mem _ h2)),
      List.cons_append]

theorem buildObjFields_asc (cols : List (List Val)) (row : Nat) :
    ∀ (es : List (String × Nat)) (acc : List (String × Val)),
      List.Pairwise (fun a b => strLt a.1 b.1 = true) es →
      (∀ kv ∈ acc, ∀ q ∈ es, strLt kv.1 q.1 = true) →
      buildObjFields cols row (es.map (fun q => (some q.1, q.2))) acc
        = some (acc ++ es.map (fun q => (q.1, csvCell cols q.2 row))) := by
  intro es
  induction es with
  | nil => intro acc _ _; simp [buildObjFields]
  | cons q rest ih =>
    intro acc hpw hacc
    have hacc2 : ∀ kv ∈ acc ++ [(q.1, csvCell cols q.2 row)],
        ∀ r ∈ rest, strLt kv.1 r.1 = true := by
      intro kv hkv r hr
      rcases List.mem_append.mp hkv with hkv1 | hkv2
      · exact hacc kv hkv1 r (List.mem_cons_of_mem _ hr)
      · rw [List.mem_singleton.mp hkv2]
        exact (List.pairwise_cons.mp hpw).1 r hr
    rw [List.map_cons, buildObjFields,
      insertSortedKV_append _ _ acc
        (fun kv h2 => hacc kv h2 q (List.mem_cons_self _ _)),
      ih _ (List.pairwise_cons.mp hpw).2 hacc2, List.map_cons]
    simp [List.append_assoc]

theorem componentColumn_some (cols : List (List Val))
    (fields : List (Option String × Nat)) (f : Nat → Val) :
    ∀ (rows : List Nat), (∀ r ∈ rows, buildCell cols fields r = some (f r)) →
      componentColumn cols fields rows = some (rows.map f) := by
  intro rows
  induction rows with
  | nil => intro _; rfl
  | cons r rest ih =>
    intro hall
    rw [componentColumn, hall r (List.mem_cons_self _ _),
      ih (fun r2 h2 => hall r2 (List.mem_cons_of_mem _ h2)), List.map_cons]
    rfl

theorem groupsColumns_some (cols : List (List Val)) (nrows : Nat) :
    ∀ (gs : List (String × List (Option String × Nat))),
      (∀ g ∈ gs, ∃ c, componentColumn cols g.2 (List.range nrows) = some c) →
      ∃ out, groupsColumns cols nrows gs = some out
        ∧ out.length = gs.length
        ∧ ∀ (j : Nat) (g : String × List (Option String × Nat)),
            gs[j]? = some g →
            out[j]? = componentColumn cols g.2 (List.range nrows) := by
  intro gs
  induction gs with
  | nil =>
    intro _
    exact ⟨[], rfl, rfl, fun j g hj => by simp at hj⟩
  | cons g rest ih =>
    intro hall
    obtain ⟨c, hc⟩ := hall g (List.mem_cons_self _ _)
    obtain ⟨out, hout, hlen, hpt⟩ :=
      ih (fun g2 h2 => hall g2 (List.mem_cons_of_mem _ h2))
    refine ⟨c :: out, ?_, by simp [hlen], ?_⟩
    · rw [groupsColumns, hc, hout]
      rfl
    · intro j g2 hj
      cases j with
      | zero =>
        simp only [List.getElem?_cons_zero, Option.some.injEq] at hj
        rw [List.getElem?_cons_zero, ← hj, hc]
      | succ j2 =>
        rw [List.getElem?_cons_succ]
        rw [List.getElem?_cons_succ] at hj
        exact hpt j2 g2 hj

theorem insertSortedNodup_append (x : Nat) :
    ∀ (l : List Nat), (∀ y ∈ l, y < x) → insertSortedNodup x l = l ++ [x] := by
  intro l
  induction l with
  | nil => intro _; rfl
  | cons y ys ih =>
    intro hall
    have hy := hall y (List.mem_cons_self _ _)
    rw [insertSortedNodup, if_neg (Nat.ne_of_gt hy),
      if_neg (Nat.lt_asymm hy),
      ih (fun y2 h2 => hall y2 (List.mem_cons_of_mem _ h2)), List.cons_append]

theorem sortedKeys_aux :
    ∀ (l acc : List Nat), (∀ y ∈ acc, ∀ x ∈ l, y < x) →
      List.Pairwise (fun a b => a < b) l →
      l.foldl (fun a x => insertSortedNodup x a) acc = acc ++ l := by
  intro l
  induction l with
  | nil => intro acc _ _; simp
  | cons x xs ih =>
    intro acc hacc hpw
    rw [List.foldl_cons,
      insertSortedNodup_append x acc
        (fun y hy => hacc y hy x (List.mem_cons_self _ _)),
      ih (acc ++ [x]) ?hnext (List.pairwise_cons.mp hpw).2]
    · simp
    case hnext =>
      intro y hy z hz
      rcases List.mem_append.mp hy with hy1 | hy2
      · exact hacc y hy1 z (List.mem_cons_of_mem _ hz)
      · rw [List.mem_singleton.mp hy2]
        exact (List.pairwise_cons.mp hpw).1 z hz

theorem sortedKeys_strict (l : List Nat)
    (h : List.Pairwise (fun a b => a < b) l) : sortedKeys l = l := by
  have h2 := sortedKeys_aux l [] (fun y hy => absurd hy (List.not_mem_nil y)) h
  simpa [sortedKeys] using h2

theorem map_getD_range {α : Type} (l : List α) (d : α) :
    (List.range l.length).map (fun i => l.getD i d) = l := by
  apply List.ext_getElem?
  intro n
  rw [List.getElem?_map]
  by_cases h : n < l.length
  · rw [List.getElem?_range h, Option.map_some', List.getD_eq_getElem l d h,
      List.getElem?_eq_getElem h]
  · have h1 : (List.range l.length)[n]? = none := by
      rw [List.getElem?_eq_none]
      · rw [List.length_range]
        omega
    have h2 : l[n]? = none := by
      rw [List.getElem?_eq_none]
      omega
    rw [h1, h2]
    rfl

theorem map_lookup_self : ∀ (kvs : List (String × Val)),
    (kvs.map Prod.fst).Nodup →
    (kvs.map Prod.fst).map
      (fun k => (k, (List.lookup k kvs).getD Val.null)) = kvs := by
  intro kvs
  induction kvs with
  | nil => intro _; rfl
  | cons kv rest ih =>
    obtain ⟨k, v⟩ := kv
    intro hnd
    simp only [List.map_cons] at hnd ⊢
    have hk : List.lookup k ((k, v) :: rest) = some v := by
      simp [List.lookup]
    have htail : (rest.map Prod.fst).map
        (fun k2 => (k2, (List.lookup k2 ((k, v) :: rest)).getD Val.null))
        = (rest.map Prod.fst).map
        (fun k2 => (k2, (List.lookup k2 rest).getD Val.null)) := by
      apply List.map_congr_left
      intro k2 hk2
      have hne : k2 ≠ k := fun he => (List.nodup_cons.mp hnd).1 (he ▸ hk2)
      have hbeq : (k2 == k) = false := beq_eq_false_iff_ne.mpr hne
      simp [List.lookup, hbeq]
    rw [hk, htail, ih (List.nodup_cons.mp hnd).2]
    rfl

theorem infer_schema_scalar {t : String} {v : Val} (h : isObjB v = false) :
    infer_schema t v = [t] := by
  cases v with
  | obj kvs => simp [isObjB] at h
  | null => rfl
  | bool b => rfl
  | int n => rfl
  | str s => rfl
  | arr l => rfl

theorem extractCell_scalar {sfx : String} {v : Val} (h : isObjB v = false) :
    extractCell sfx v = v := by
  cases v with
  | obj kvs => simp [isObjB] at h
  | null => rfl
  | bool b => rfl
  | int n => rfl
  | str s => rfl
  | arr l => rfl

/-- The schema of a uniform column, read off its first row (empty columns
have no schema). -/
def specF (p : List Val × String) : List String :=
  match p.1 with
  | [] => []
  | v :: _ => infer_schema p.2 v

/-- A uniform flat column: every cell a non-object, or every cell an
object with one common, strictly ordered, nonempty key list. -/
def colOK (c : List Val) : Prop :=
  (∀ v ∈ c, isObjB v = false)
  ∨ (∃ ks, ks ≠ [] ∧ List.Pairwise (fun a b => strLt a b = true) ks ∧
      ∀ v ∈ c, ∃ kvs, v = Val.obj kvs ∧ kvs.map Prod.fst = ks)

theorem ks_nodup {ks : List String}
    (h : List.Pairwise (fun a b => strLt a b = true) ks) : ks.Nodup :=
  h.imp (fun hab => strLt_ne hab)

theorem infer_schema_obj (t : String) (ks : List String) {v : Val}
    (h : ∃ kvs, v = Val.obj kvs ∧ kvs.map Prod.fst = ks) :
    infer_schema t v = ks.map (dotJoin t) := by
  obtain ⟨kvs, rfl, hkeys⟩ := h
  show kvs.map (fun kv => dotJoin t kv.1) = ks.map (dotJoin t)
  rw [← hkeys, List.map_map]
  rfl

theorem schemaFields_specF (p : List Val × String) (hp : colOK p.1) :
    schemaFields p.2 p.1 = specF p := by
  obtain ⟨c, t⟩ := p
  dsimp only at hp ⊢
  cases c with
  | nil => rfl
  | cons v rest =>
    show schemaFields t (v :: rest) = infer_schema t v
    rcases hp with hsc | ⟨ks, _, hks2, hobj⟩
    · rw [schemaFields_uniform t (v :: rest) [t] (List.cons_ne_nil _ _)
        (List.nodup_singleton _)
        (fun v2 hv2 => infer_schema_scalar (hsc v2 hv2)),
        infer_schema_scalar (hsc v (List.mem_cons_self _ _))]
    · rw [schemaFields_uniform t (v :: rest) (ks.map (dotJoin t))
        (List.cons_ne_nil _ _)
        ((ks_nodup hks2).map (dotJoin_right_inj t))
        (fun v2 hv2 => infer_schema_obj t ks (hobj v2 hv2)),
        infer_schema_obj t ks (hobj v (List.mem_cons_self _ _))]

theorem specF_key (p : List Val × String) (hdot : ('.') ∉ p.2.data)
    (hp : colOK p.1) : ∀ h ∈ specF p, headerKey h = p.2 := by
  obtain ⟨c, t⟩ := p
  dsimp only at hp hdot ⊢
  intro h hh
  cases c with
  | nil => cases hh
  | cons v rest =>
    rw [show specF (v :: rest, t) = infer_schema t v from rfl] at hh
    rcases hp with hsc | ⟨ks, _, _, hobj⟩
    · rw [infer_schema_scalar (hsc v (List.mem_cons_self _ _))] at hh
      rw [List.mem_singleton.mp hh]
      exact headerKey_plain t hdot
    · rw [infer_schema_obj t ks (hobj v (List.mem_cons_self _ _))] at hh
      obtain ⟨k, _, rfl⟩ := List.mem_map.mp hh
      exact headerKey_dotJoin t k hdot

theorem specF_field (p : List Val × String) (hdot : ('.') ∉ p.2.data)
    (hp : colOK p.1) :
    (∀ v ∈ p.1, isObjB v = false) → ∀ h ∈ specF p, headerField h = none := by
  obtain ⟨c, t⟩ := p
  dsimp only at hp hdot ⊢
  intro hsc h hh
  cases c with
  | nil => cases hh
  | cons v rest =>
    rw [show specF (v :: rest, t) = infer_schema t v from rfl,
      infer_schema_scalar (hsc v (List.mem_cons_self _ _))] at hh
    rw [List.mem_singleton.mp hh]
    exact headerField_plain t hdot

theorem specF_nodup (p : List Val × String) (hp : colOK p.1) :
    (specF p).Nodup := by
  obtain ⟨c, t⟩ := p
  dsimp only at hp ⊢
  cases c with
  | nil => exact List.nodup_nil
  | cons v rest =>
    show (infer_schema t v).Nodup
    rcases hp with hsc | ⟨ks, _, hks2, hobj⟩
    · rw [infer_schema_scalar (hsc v (List.mem_cons_self _ _))]
      exact List.nodup_singleton _
    · rw [infer_schema_obj t ks (hobj v (List.mem_cons_self _ _))]
      exact (ks_nodup hks2).map (dotJoin_right_inj t)

theorem specF_nonempty (p : List Val × String) (hne : p.1 ≠ [])
    (hp : colOK p.1) : specF p ≠ [] := by
  obtain ⟨c, t⟩ := p
  dsimp only at hp hne ⊢
  cases c with
  | nil => exact absurd rfl hne
  | cons v rest =>
    show infer_schema t v ≠ []
    rcases hp with hsc | ⟨ks, hks1, _, hobj⟩
    · rw [infer_schema_scalar (hsc v (List.mem_cons_self _ _))]
      exact List.cons_ne_nil _ _
    · rw [infer_schema_obj t ks (hobj v (List.mem_cons_self _ _))]
      intro hmap
      exact hks1 (List.map_eq_nil_iff.mp hmap)

theorem zip_map_self {α β γ : Type} (g : α × β → γ) :
    ∀ (as : List α) (bs : List β),
      as.zip ((as.zip bs).map g) = (as.zip bs).map (fun p => (p.1, g p)) := by
  intro as
  induction as with
  | nil => intro bs; rfl
  | cons a as2 ih =>
    intro bs
    cases bs with
    | nil => rfl
    | cons b bs2 => simp [List.zip_cons_cons, ih bs2]

theorem side_keys_ne (L1 : List (String × List String))
    (q : String × List String) (L2 : List (String × List String))
    (hnd : ((L1 ++ q :: L2).map Prod.fst).Nodup) :
    (∀ r ∈ L1, r.1 ≠ q.1) ∧ (∀ r ∈ L2, r.1 ≠ q.1) := by
  rw [List.map_append, List.map_cons] at hnd
  have hmid := List.nodup_middle.mp hnd
  have hnotmem := (List.nodup_cons.mp hmid).1
  constructor
  · intro r hr he
    exact hnotmem (List.mem_append_left _ (he ▸ List.mem_map.mpr ⟨r, hr, rfl⟩))
  · intro r hr he
    exact hnotmem (List.mem_append_right _ (he ▸ List.mem_map.mpr ⟨r, hr, rfl⟩))

theorem groupOf_block_at (L1 : List (String × List String))
    (q : String × List String) (L2 : List (String × List String))
    (hkeys : ∀ r ∈ L1 ++ q :: L2, ∀ h ∈ r.2, headerKey h = r.1)
    (hnd : ((L1 ++ q :: L2).map Prod.fst).Nodup) :
    groupOf (((L1 ++ q :: L2).map Prod.snd).flatten) q.1
      = (enumerate (L1.map (fun r => r.2.length)).sum q.2).map
          (fun p => (headerField p.2, p.1)) := by
  obtain ⟨h1, h2⟩ := side_keys_ne L1 q L2 hnd
  rw [groupOf, filterMap_groupBlocks _ _ 0 hkeys,
    groupBlocks_unique _ _ _ _ 0 rfl h1 h2, Nat.zero_add]

theorem headers_block_at (L1 : List (String × List String))
    (q : String × List String) (L2 : List (String × List String))
    (m : Nat) (hm : m < q.2.length) :
    (((L1 ++ q :: L2).map Prod.snd).flatten)[(L1.map
        (fun r => r.2.length)).sum + m]?
      = q.2[m]? := by
  have hb := flatten_getElem?_block (L1.map Prod.snd) q.2 (L2.map Prod.snd) m hm
  rw [List.map_append, List.map_cons]
  rw [show (L1.map (fun r => r.2.length)).sum
      = ((L1.map Prod.snd).map List.length).sum from by rw [List.map_map]; rfl]
  exact hb

theorem enumerate_pairwise {α : Type} (R : α → α → Prop) :
    ∀ (l : List α) (k : Nat), List.Pairwise R l →
      List.Pairwise (fun p q => R p.2 q.2) (enumerate k l) := by
  intro l
  induction l with
  | nil => intro k _; exact List.Pairwise.nil
  | cons x xs ih =>
    intro k hpw
    rw [enumerate]
    refine List.Pairwise.cons ?_ (ih (k + 1) (List.pairwise_cons.mp hpw).2)
    intro q hq
    exact (List.pairwise_cons.mp hpw).1 q.2
      (ArchetypeArchive.mem_enumerate_snd xs (k + 1) q hq)

theorem buildCell_not_single_none (cols : List (List Val))
    (fs : List (Option String × Nat)) (row : Nat)
    (h : ∀ q ∈ fs, q.1.isSome = true) (hne : fs ≠ []) :
    buildCell cols fs row = (buildObjFields cols row fs []).map Val.obj := by
  cases fs with
  | nil => exact absurd rfl hne
  | cons q rest =>
    obtain ⟨oq, cq⟩ := q
    cases oq with
    | none =>
      have := h (none, cq) (List.mem_cons_self _ _)
      simp at this
    | some k =>
      cases rest with
      | nil => rfl
      | cons q2 r2 => rfl

theorem component_rebuild (colsF : List (List Val)) (H : List String)
    (col : List Val) (t : String) (off n : Nat)
    (hcol_len : col.length = n)
    (hOK : colOK col) (hdot : ('.') ∉ t.data) (hne : col ≠ [])
    (hgrp : groupOf H t = (enumerate off (specF (col, t))).map
        (fun p => (headerField p.2, p.1)))
    (hHat : ∀ (m : Nat), m < (specF (col, t)).length →
        H[off + m]? = (specF (col, t))[m]?)
    (hfill : ∀ (j : Nat) (f0 : String), H[j]? = some f0 →
        f0 ∈ specF (col, t) →
        colsF[j]? = some (col.map (extractCell
          ((stripPrefix f0 (dotPrefix t)).getD "")))) :
    componentColumn colsF (groupOf H t) (List.range n)
      = some ((List.range n).map (fun r => col.getD r Val.null)) := by
  rcases hOK with hsc | ⟨ks, hks1, hks2, hobj⟩
  · -- scalar column: one whole-value header
    have hspecF : specF (col, t) = [t] := by
      cases col with
      | nil => exact absurd rfl hne
      | cons v0 crest =>
        show infer_schema t v0 = [t]
        exact infer_schema_scalar (hsc v0 (List.mem_cons_self _ _))
    have hH0 : H[off]? = some t := by
      have h1 := hHat 0 (by rw [hspecF]; exact Nat.zero_lt_one)
      rw [Nat.add_zero] at h1
      rw [h1, hspecF]
      rfl
    have hcF : colsF[off]? = some col := by
      have h2 := hfill off t hH0 (by rw [hspecF]; exact List.mem_singleton_self t)
      rw [h2]
      congr 1
      rw [List.map_congr_left (fun v hv => extractCell_scalar (hsc v hv))]
      exact List.map_id' col
    have hgrp2 : groupOf H t = [(none, off)] := by
      rw [hgrp, hspecF]
      simp [enumerate, headerField_plain t hdot]
    rw [hgrp2]
    apply componentColumn_some
    intro r hr
    show some (csvCell colsF off r) = some (col.getD r Val.null)
    congr 1
    rw [csvCell, List.getD_eq_getElem?_getD colsF off [], hcF]
    rfl
  · -- object column: one header per key
    have hspecF : specF (col, t) = ks.map (dotJoin t) := by
      cases col with
      | nil => exact absurd rfl hne
      | cons v0 crest =>
        show infer_schema t v0 = ks.map (dotJoin t)
        exact infer_schema_obj t ks (hobj v0 (List.mem_cons_self _ _))
    have hgrp2 : groupOf H t
        = ((enumerate off ks).map (fun q => (q.2, q.1))).map
            (fun q => (some q.1, q.2)) := by
      rw [hgrp, hspecF, enumerate_map (dotJoin t), List.map_map, List.map_map]
      apply List.map_congr_left
      intro p _
      show (headerField (dotJoin t p.2), p.1) = (some p.2, p.1)
      rw [headerField_dotJoin t p.2 hdot]
    have hcolm : ∀ m (hm : m < ks.length),
        colsF[off + m]? = some (col.map (extractCell (ks.get ⟨m, hm⟩))) := by
      intro m hm
      have hmlen : m < (specF (col, t)).length := by
        rw [hspecF, List.length_map]
        exact hm
      have hHm : H[off + m]? = some (dotJoin t (ks.get ⟨m, hm⟩)) := by
        rw [hHat m hmlen, hspecF, List.getElem?_map, List.getElem?_eq_getElem hm]
        rfl
      have h2 := hfill (off + m) (dotJoin t (ks.get ⟨m, hm⟩)) hHm (by
        rw [hspecF]
        exact List.mem_map.mpr ⟨ks.get ⟨m, hm⟩, List.get_mem ks m hm, rfl⟩)
      rw [strip_dotJoin] at h2
      simp only [Option.getD_some] at h2
      exact h2
    rw [hgrp2]
    apply componentColumn_some
    intro r hr
    have hrn : r < n := List.mem_range.mp hr
    have hrc : r < col.length := by omega
    obtain ⟨kvs, hvr, hkeys_r⟩ := hobj (col.get ⟨r, hrc⟩) (List.get_mem col r hrc)
    have hfs_ne : ((enumerate off ks).map (fun q => (q.2, q.1))).map
        (fun q => (some q.1, q.2)) ≠ [] := by
      intro hnil
      apply hks1
      have hl := congrArg List.length hnil
      simp only [List.length_map, enumerate_length, List.length_nil] at hl
      exact List.length_eq_zero.mp hl
    rw [buildCell_not_single_none colsF _ r (by
        intro q hq
        obtain ⟨q2, _, rfl⟩ := List.mem_map.mp hq
        rfl) hfs_ne]
    have hpw : List.Pairwise (fun (a b : String × Nat) => strLt a.1 b.1 = true)
        ((enumerate off ks).map (fun q => (q.2, q.1))) := by
      apply List.pairwise_map.mpr
      exact (enumerate_pairwise (fun a b => strLt a b = true) ks off hks2).imp
        (fun h => h)
    rw [buildObjFields_asc colsF r ((enumerate off ks).map (fun q => (q.2, q.1)))
      [] hpw (fun kv hkv => absurd hkv (List.not_mem_nil kv))]
    have hlist : ((enumerate off ks).map (fun q => (q.2, q.1))).map
        (fun q => (q.1, csvCell colsF q.2 r))
        = ks.map (fun k => (k, (List.lookup k kvs).getD Val.null)) := by
      apply List.ext_getElem?
      intro m
      rw [List.getElem?_map, List.getElem?_map, List.getElem?_map,
        enumerate_getElem?]
      by_cases hm : m < ks.length
      · rw [List.getElem?_eq_getElem hm]
        simp only [Option.map_some']
        congr 2
        have hc := hcolm m hm
        rw [csvCell, List.getD_eq_getElem?_getD colsF (off + m) [], hc]
        simp only [Option.getD_some]
        rw [List.getD_eq_getElem?_getD, List.getElem?_map,
          List.getElem?_eq_getElem hrc]
        simp only [Option.map_some', Option.getD_some]
        rw [show col[r] = Val.obj kvs from hvr]
        rfl
      · rw [List.getElem?_eq_none (Nat.le_of_not_lt hm)]
        rfl
    rw [List.nil_append, hlist, ← hkeys_r,
      map_lookup_self kvs (by rw [hkeys_r]; exact ks_nodup hks2)]
    simp only [Option.map_some']
    congr 1
    rw [List.getD_eq_getElem?_getD, List.getElem?_eq_getElem hrc]
    simp only [Option.getD_some]
    rw [← hvr]
    exact List.get_eq_getElem col ⟨r, hrc⟩

theorem snapCell_eq (s2 : ArchetypeSnapshot) (e : Nat) (t : String)
    (r c : Nat)
    (hfe : s2.entities.findIdx? (fun x => x = e) = some r)
    (hft : s2.component_types.findIdx? (fun x => x = t) = some c) :
    snapCell s2 e t = some ((s2.columns.getD c []).getD r Val.null) := by
  rw [snapCell, hfe, hft]

/-- The per-component header blocks of a uniform snapshot: component name
with its schema read off the first row. -/
def specBlocks (s : ArchetypeSnapshot) : List (String × List String) :=
  (s.columns.zip s.component_types).map (fun p => (p.2, specF p))

theorem specBlocks_snd (s : ArchetypeSnapshot) :
    (specBlocks s).map Prod.snd
      = (s.columns.zip s.component_types).map specF := by
  rw [specBlocks, List.map_map]
  rfl

theorem specBlocks_fst (s : ArchetypeSnapshot)
    (hlen : s.columns.length = s.component_types.length) :
    (specBlocks s).map Prod.fst = s.component_types := by
  rw [specBlocks, List.map_map]
  exact List.map_snd_zip _ _ (le_of_eq hlen.symm)

theorem specBlocks_length (s : ArchetypeSnapshot)
    (hlen : s.columns.length = s.component_types.length) :
    (specBlocks s).length = s.component_types.length := by
  have := congrArg List.length (specBlocks_fst s hlen)
  simpa using this

theorem to_archetype_eq (csv : ColumnarCsv) (out : List (List Val))
    (h : groupsColumns csv.columns csv.row_index.length (csvGroups csv)
      = some out) :
    to_archetype_snapshot csv = some
      { component_types := csvKeys csv
        storage_types := (csvKeys csv).map (fun _ => StorageTypeFlag.table)
        columns := out
        entities := sortedKeys csv.row_index } := by
  rw [to_archetype_snapshot, h]

/-- C8 (amended): the CSV round trip preserves every cell for snapshots
whose columns are uniform and flat: equal column and type counts, every
column as long as the entity list, duplicate-free component types without
dots, strictly increasing entity ids, and each column either all
non-objects or all objects over one common strictly-sorted nonempty key
set. -/
theorem csv_roundtrip (s : ArchetypeSnapshot)
    (hlen : s.columns.length = s.component_types.length)
    (hclen : ∀ c ∈ s.columns, c.length = s.entities.length)
    (htypes : s.component_types.Nodup)
    (hdots : ∀ t ∈ s.component_types, ('.') ∉ t.data)
    (hents : List.Pairwise (fun a b => a < b) s.entities)
    (hcols : ∀ c ∈ s.columns, colOK c) :
    ∃ s1, (columnar_from_snapshot s).bind to_archetype_snapshot = some s1
      ∧ ∀ e ∈ s.entities, ∀ t ∈ s.component_types,
          snapCell s1 e t = snapCell s e t := by
  have hspecs : snapshotSchemas s = specBlocks s := by
    rw [snapshotSchemas, specBlocks]
    exact List.map_congr_left (fun p hp => by
      rw [schemaFields_specF p (hcols p.1 (List.of_mem_zip hp).1)])
  have hheaders : snapshotHeaders s = ((specBlocks s).map Prod.snd).flatten := by
    rw [snapshotHeaders, hspecs]
  have hheaders2 : snapshotHeaders s
      = ((s.columns.zip s.component_types).map specF).flatten := by
    rw [hheaders, specBlocks_snd]
  have hmapsnd : (s.columns.zip s.component_types).map Prod.snd
      = s.component_types := List.map_snd_zip _ _ (le_of_eq hlen.symm)
  have hblock : ∀ q ∈ specBlocks s, ∀ h ∈ q.2, headerKey h = q.1 := by
    intro q hq h hh
    obtain ⟨p, hp, rfl⟩ := List.mem_map.mp hq
    exact specF_key p (hdots p.2 (List.of_mem_zip hp).2)
      (hcols p.1 (List.of_mem_zip hp).1) h hh
  have hHnd : (snapshotHeaders s).Nodup := by
    rw [hheaders]
    refine List.nodup_flatten.mpr ⟨?_, ?_⟩
    · intro B hB
      obtain ⟨q, hq, rfl⟩ := List.mem_map.mp hB
      obtain ⟨p, hp, rfl⟩ := List.mem_map.mp hq
      exact specF_nodup p (hcols p.1 (List.of_mem_zip hp).1)
    · rw [specBlocks_snd]
      apply List.pairwise_map.mpr
      have hpw : List.Pairwise (fun p q : (List Val × String) => p.2 ≠ q.2)
          (s.columns.zip s.component_types) := by
        have h1 : ((s.columns.zip s.component_types).map Prod.snd).Nodup := by
          rw [hmapsnd]
          exact htypes
        exact List.pairwise_map.mp h1
      refine hpw.imp_of_mem ?_
      intro p q hp hq hne h hhp hhq
      exact hne (by
        rw [← specF_key p (hdots p.2 (List.of_mem_zip hp).2)
            (hcols p.1 (List.of_mem_zip hp).1) h hhp,
          ← specF_key q (hdots q.2 (List.of_mem_zip hq).2)
            (hcols q.1 (List.of_mem_zip hq).1) h hhq])
  have hpairs : s.columns.zip (snapshotSchemas s)
      = (s.columns.zip s.component_types).map
          (fun p => (p.1, (p.2, specF p))) := by
    rw [hspecs, specBlocks, zip_map_self]
  obtain ⟨colsF, hfill0, hflen, hfpt⟩ := fillAll_spec (snapshotHeaders s) hHnd
    (s.columns.zip (snapshotSchemas s))
    ((snapshotHeaders s).map
      (fun _ => List.replicate s.entities.length Val.null))
    (by rw [List.length_map])
    (by
      rw [hpairs, List.map_map]
      show ((((s.columns.zip s.component_types)).map specF).flatten).Nodup
      rw [← hheaders2]
      exact hHnd)
    (by
      intro pr hpr f hf
      rw [hpairs] at hpr
      obtain ⟨p, hp, rfl⟩ := List.mem_map.mp hpr
      rw [hheaders2]
      exact List.mem_flatten.mpr ⟨specF p, List.mem_map.mpr ⟨p, hp, rfl⟩, hf⟩)
  have hcsv : columnar_from_snapshot s
      = some ⟨snapshotHeaders s, colsF, s.entities⟩ := by
    rw [columnar_from_snapshot, if_pos hHnd, hfill0]
  rcases hents_nil : s.entities with _ | ⟨e0, erest⟩
  · -- no entities: all columns and headers are empty
    have hcne : ∀ p ∈ s.columns.zip s.component_types, p.1 = [] := by
      intro p hp
      have h1 := hclen p.1 (List.of_mem_zip hp).1
      rw [hents_nil] at h1
      exact List.length_eq_zero.mp (by simpa using h1)
    have hH : snapshotHeaders s = [] := by
      rw [hheaders2]
      apply List.eq_nil_iff_forall_not_mem.mpr
      intro x hx
      obtain ⟨B, hB, hxB⟩ := List.mem_flatten.mp hx
      obtain ⟨p, hp, rfl⟩ := List.mem_map.mp hB
      have hsp : specF p = [] := by
        rw [specF, hcne p hp]
      rw [hsp] at hxB
      cases hxB
    refine ⟨⟨[], [], [], []⟩, ?_, ?_⟩
    · rw [hcsv, hH, hents_nil]
      rfl
    · intro e he
      cases he
  · -- at least one entity
    have hne_ents : s.entities ≠ [] := by
      rw [hents_nil]
      exact List.cons_ne_nil _ _
    have hce : ∀ p ∈ s.columns.zip s.component_types, p.1 ≠ [] := by
      intro p hp hnil
      have h1 := hclen p.1 (List.of_mem_zip hp).1
      rw [hnil, hents_nil] at h1
      simp at h1
    rw [← hents_nil]
    -- component keys of the rebuilt snapshot are exactly the types
    have hkeys : csvKeys ⟨snapshotHeaders s, colsF, s.entities⟩
        = s.component_types := by
      show dedupFirstAux [] ((snapshotHeaders s).map headerKey)
        = s.component_types
      rw [hheaders2, List.map_flatten, List.map_map]
      have h1 : (((s.columns.zip s.component_types).map
          (fun p => (p.2, (specF p).map headerKey))).map Prod.snd)
          = (s.columns.zip s.component_types).map
            (fun p => (specF p).map headerKey) := by
        rw [List.map_map]
        rfl
      have h2 : (((s.columns.zip s.component_types).map
          (fun p => (p.2, (specF p).map headerKey))).map Prod.fst)
          = s.component_types := by
        rw [List.map_map]
        exact hmapsnd
      have hkb := dedupFirstAux_key_blocks
        ((s.columns.zip s.component_types).map
          (fun p => (p.2, (specF p).map headerKey))) []
        (by
          intro q hq
          obtain ⟨p, hp, rfl⟩ := List.mem_map.mp hq
          constructor
          · intro x hx
            obtain ⟨h0, hh0, rfl⟩ := List.mem_map.mp hx
            exact specF_key p (hdots p.2 (List.of_mem_zip hp).2)
              (hcols p.1 (List.of_mem_zip hp).1) h0 hh0
          · intro hmap
            exact specF_nonempty p (hce p hp)
              (hcols p.1 (List.of_mem_zip hp).1)
              (List.map_eq_nil_iff.mp hmap)
        )
        (by rw [h2]; exact htypes)
        (fun q _ hmem => (List.not_mem_nil q.1) hmem)
      have hkb2 : dedupFirstAux []
          (((s.columns.zip s.component_types).map
            (fun p => (specF p).map headerKey)).flatten)
          = s.component_types := by
        rw [← h1, hkb, h2]
      exact hkb2
    have hgroups : csvGroups ⟨snapshotHeaders s, colsF, s.entities⟩
        = s.component_types.map
            (fun t => (t, groupOf (snapshotHeaders s) t)) := by
      show (csvKeys ⟨snapshotHeaders s, colsF, s.entities⟩).map
          (fun comp => (comp, groupOf (snapshotHeaders s) comp)) = _
      rw [hkeys]
    -- the rebuilt column of component i is the original column
    have hrebuild : ∀ (i : Nat) (hi : i < s.component_types.length),
        componentColumn colsF
          (groupOf (snapshotHeaders s) (s.component_types.get ⟨i, hi⟩))
          (List.range s.entities.length)
        = some ((List.range s.entities.length).map
            (fun r2 => (s.columns.getD i []).getD r2 Val.null)) := by
      intro i hi
      have hic : i < s.columns.length := by omega
      have hip : i < (s.columns.zip s.component_types).length := by
        simpa [List.length_zip, hlen] using hi
      have hzip : (s.columns.zip s.component_types)[i]?
          = some (s.columns.getD i [], s.component_types.get ⟨i, hi⟩) := by
        apply zip_getElem?_of
        · rw [List.getD_eq_getElem s.columns [] hic]
          exact List.getElem?_eq_getElem hic
        · rw [List.get_eq_getElem]
          exact List.getElem?_eq_getElem hi
      have hpi : (s.columns.zip s.component_types).get ⟨i, hip⟩
          = (s.columns.getD i [], s.component_types.get ⟨i, hi⟩) := by
        have h2 := List.getElem?_eq_getElem hip
        rw [List.get_eq_getElem]
        exact (Option.some.inj (hzip.symm.trans h2)).symm
      have hpmem : (s.columns.getD i [], s.component_types.get ⟨i, hi⟩)
          ∈ s.columns.zip s.component_types := by
        rw [← hpi]
        exact List.get_mem _ i hip
      have hcolmem : s.columns.getD i [] ∈ s.columns :=
        (List.of_mem_zip hpmem).1
      have htypemem : s.component_types.get ⟨i, hi⟩ ∈ s.component_types :=
        (List.of_mem_zip hpmem).2
      have hcolne : s.columns.getD i [] ≠ [] := hce _ hpmem
      have hiL : i < (specBlocks s).length := by
        rw [specBlocks_length s hlen]
        exact hi
      have hq : (specBlocks s).get ⟨i, hiL⟩
          = (s.component_types.get ⟨i, hi⟩,
              specF (s.columns.getD i [], s.component_types.get ⟨i, hi⟩)) := by
        have h3 : (specBlocks s)[i]?
            = some (s.component_types.get ⟨i, hi⟩,
                specF (s.columns.getD i [], s.component_types.get ⟨i, hi⟩)) := by
          rw [specBlocks, List.getElem?_map, hzip]
          rfl
        have h2 := List.getElem?_eq_getElem hiL
        rw [List.get_eq_getElem]
        exact (Option.some.inj (h3.symm.trans h2)).symm
      have hdec : (specBlocks s).take i ++ (specBlocks s).get ⟨i, hiL⟩
          :: (specBlocks s).drop (i + 1) = specBlocks s := by
        rw [List.get_eq_getElem, List.getElem_cons_drop, List.take_append_drop]
      have hkeys2 : ∀ r ∈ (specBlocks s).take i ++ (specBlocks s).get ⟨i, hiL⟩
          :: (specBlocks s).drop (i + 1), ∀ h ∈ r.2, headerKey h = r.1 := by
        intro r hr
        rw [hdec] at hr
        exact hblock r hr
      have hnd2 : (((specBlocks s).take i ++ (specBlocks s).get ⟨i, hiL⟩
          :: (specBlocks s).drop (i + 1)).map Prod.fst).Nodup := by
        rw [hdec, specBlocks_fst s hlen]
        exact htypes
      have hflip : snapshotHeaders s
          = (((specBlocks s).take i ++ (specBlocks s).get ⟨i, hiL⟩
              :: (specBlocks s).drop (i + 1)).map Prod.snd).flatten := by
        rw [hdec]
        exact hheaders
      have hgrp0 := groupOf_block_at ((specBlocks s).take i)
        ((specBlocks s).get ⟨i, hiL⟩) ((specBlocks s).drop (i + 1))
        hkeys2 hnd2
      rw [hq] at hgrp0 hflip
      have hgrp : groupOf (snapshotHeaders s) (s.component_types.get ⟨i, hi⟩)
          = (enumerate ((((specBlocks s).take i).map
              (fun r => r.2.length)).sum)
              (specF (s.columns.getD i [],
                s.component_types.get ⟨i, hi⟩))).map
              (fun p => (headerField p.2, p.1)) := by
        rw [hflip]
        exact hgrp0
      have hHat : ∀ (m : Nat),
          m < (specF (s.columns.getD i [],
            s.component_types.get ⟨i, hi⟩)).length →
          (snapshotHeaders s)[(((specBlocks s).take i).map
            (fun r => r.2.length)).sum + m]?
          = (specF (s.columns.getD i [],
              s.component_types.get ⟨i, hi⟩))[m]? := by
        intro m hm
        have hb := headers_block_at ((specBlocks s).take i)
          ((s.component_types.get ⟨i, hi⟩,
            specF (s.columns.getD i [], s.component_types.get ⟨i, hi⟩)))
          ((specBlocks s).drop (i + 1)) m hm
        rw [hflip]
        exact hb
      have hfill : ∀ (j : Nat) (f0 : String),
          (snapshotHeaders s)[j]? = some f0 →
          f0 ∈ specF (s.columns.getD i [], s.component_types.get ⟨i, hi⟩) →
          colsF[j]? = some ((s.columns.getD i []).map (extractCell
            ((stripPrefix f0
              (dotPrefix (s.component_types.get ⟨i, hi⟩))).getD ""))) := by
        intro j f0 hj hf0
        have hprm : ((s.columns.getD i []), (s.component_types.get ⟨i, hi⟩,
            specF (s.columns.getD i [], s.component_types.get ⟨i, hi⟩)))
            ∈ s.columns.zip (snapshotSchemas s) := by
          rw [hpairs]
          exact List.mem_map.mpr
            ⟨(s.columns.getD i [], s.component_types.get ⟨i, hi⟩), hpmem, rfl⟩
        have h2 := (hfpt j f0 hj).2 _ hprm hf0
        dsimp only at h2
        have hjlt : j < (snapshotHeaders s).length :=
          (List.getElem?_eq_some_iff.mp hj).1
        have hc0 : ((snapshotHeaders s).map
            (fun _ => List.replicate s.entities.length Val.null)).getD j []
            = List.replicate (s.columns.getD i []).length Val.null := by
          rw [List.getD_eq_getElem?_getD, List.getElem?_map,
            List.getElem?_eq_getElem hjlt]
          simp only [Option.map_some', Option.getD_some]
          rw [hclen (s.columns.getD i []) hcolmem]
        rw [h2, hc0, fillColumn_replicate]
      exact component_rebuild colsF (snapshotHeaders s)
        (s.columns.getD i []) (s.component_types.get ⟨i, hi⟩)
        ((((specBlocks s).take i).map (fun r => r.2.length)).sum)
        s.entities.length
        (hclen _ hcolmem) (hcols _ hcolmem) (hdots _ htypemem) hcolne
        hgrp hHat hfill
    -- run the rebuild over all components
    obtain ⟨colsOut, hgc, hgclen, hgcpt⟩ := groupsColumns_some colsF
      s.entities.length
      (s.component_types.map (fun t => (t, groupOf (snapshotHeaders s) t)))
      (by
        intro g hg
        obtain ⟨t2, ht2, rfl⟩ := List.mem_map.mp hg
        obtain ⟨i, hi, hti⟩ := List.mem_iff_getElem.mp ht2
        refine ⟨(List.range s.entities.length).map
          (fun r2 => (s.columns.getD i []).getD r2 Val.null), ?_⟩
        have hr := hrebuild i hi
        rw [List.get_eq_getElem, hti] at hr
        exact hr)
    have hta := to_archetype_eq ⟨snapshotHeaders s, colsF, s.entities⟩
      colsOut (by
        show groupsColumns colsF s.entities.length
          (csvGroups ⟨snapshotHeaders s, colsF, s.entities⟩) = some colsOut
        rw [hgroups]
        exact hgc)
    dsimp only at hta
    rw [hkeys, sortedKeys_strict s.entities hents] at hta
    refine ⟨⟨s.component_types,
      s.component_types.map (fun _ => StorageTypeFlag.table),
      colsOut, s.entities⟩, ?_, ?_⟩
    · rw [hcsv]
      exact hta
    · intro e he t ht
      obtain ⟨r, hr, hre⟩ := List.mem_iff_getElem.mp he
      obtain ⟨i, hi, hti⟩ := List.mem_iff_getElem.mp ht
      have hentnd : s.entities.Nodup := hents.imp (fun h => Nat.ne_of_lt h)
      have hfe : s.entities.findIdx? (fun x => x = e) = some r := by
        have h0 := findIdx?_self_nodup hentnd hr
        rw [List.get_eq_getElem] at h0
        rw [← hre]
        exact h0
      have hft : s.component_types.findIdx? (fun x => x = t) = some i := by
        have h0 := findIdx?_self_nodup htypes hi
        rw [List.get_eq_getElem] at h0
        rw [← hti]
        exact h0
      rw [snapCell_eq ⟨s.component_types,
          s.component_types.map (fun _ => StorageTypeFlag.table),
          colsOut, s.entities⟩ e t r i hfe hft,
        snapCell_eq s e t r i hfe hft]
      congr 1
      show (colsOut.getD i []).getD r Val.null
        = (s.columns.getD i []).getD r Val.null
      have hgi : (s.component_types.map
          (fun t2 => (t2, groupOf (snapshotHeaders s) t2)))[i]?
          = some (s.component_types.get ⟨i, hi⟩,
              groupOf (snapshotHeaders s) (s.component_types.get ⟨i, hi⟩)) := by
        rw [List.getElem?_map, List.getElem?_eq_getElem hi]
        rfl
      have hout : colsOut[i]?
          = some ((List.range s.entities.length).map
              (fun r2 => (s.columns.getD i []).getD r2 Val.null)) := by
        rw [hgcpt i _ hgi]
        exact hrebuild i hi
      rw [List.getD_eq_getElem?_getD colsOut i [], hout]
      simp only [Option.getD_some]
      rw [List.getD_eq_getElem?_getD ((List.range s.entities.length).map
          (fun r2 => (s.columns.getD i []).getD r2 Val.null)) r Val.null,
        List.getElem?_map, List.getElem?_range hr]
      simp only [Option.map_some', Option.getD_some]

/-- A concrete uniform snapshot: one object component over keys `x`, `y`
and one scalar component, two entities. -/
def csvWitnessSnap : ArchetypeSnapshot :=
  { component_types := ["P", "Q"]
    storage_types := [.table, .table]
    columns := [[Val.obj [("x", Val.int 1), ("y", Val.int 2)],
                 Val.obj [("x", Val.int 3), ("y", Val.int 4)]],
                [Val.int 7, Val.int 8]]
    entities := [0, 1] }

theorem csvWitnessCols : ∀ c ∈ csvWitnessSnap.columns, colOK c := by
  intro c hc
  rcases List.mem_cons.mp hc with rfl | hc2
  · refine Or.inr ⟨["x", "y"], by decide, by decide, ?_⟩
    intro v hv
    rcases List.mem_cons.mp hv with rfl | hv2
    · exact ⟨[("x", Val.int 1), ("y", Val.int 2)], rfl, by decide⟩
    · rcases List.mem_cons.mp hv2 with rfl | hv3
      · exact ⟨[("x", Val.int 3), ("y", Val.int 4)], rfl, by decide⟩
      · cases hv3
  · rcases List.mem_cons.mp hc2 with rfl | hc3
    · exact Or.inl (by decide)
    · cases hc3

/-- Witness for `csv_roundtrip` at the concrete two-component snapshot. -/
theorem csv_roundtrip_witness :
    (csvWitnessSnap.columns.length = csvWitnessSnap.component_types.length)
    ∧ (∀ c ∈ csvWitnessSnap.columns, c.length = csvWitnessSnap.entities.length)
    ∧ csvWitnessSnap.component_types.Nodup
    ∧ (∀ t ∈ csvWitnessSnap.component_types, ('.') ∉ t.data)
    ∧ List.Pairwise (fun a b => a < b) csvWitnessSnap.entities
    ∧ (∀ c ∈ csvWitnessSnap.columns, colOK c)
    ∧ (∃ s1,
        (columnar_from_snapshot csvWitnessSnap).bind to_archetype_snapshot
          = some s1
        ∧ ∀ e ∈ csvWitnessSnap.entities, ∀ t ∈ csvWitnessSnap.component_types,
            snapCell s1 e t = snapCell csvWitnessSnap e t) :=
  ⟨by decide, by decide, by decide, by decide, by decide, csvWitnessCols,
    csv_roundtrip csvWitnessSnap (by decide) (by decide) (by decide)
      (by decide) (by decide) csvWitnessCols⟩

end CsvArchive

namespace ArchetypeArchive

/-- One archetype through the CSV archive format:
`serialize_arch_data(arch, &ExportFormat::Csv)` writes the
`columnar_from_snapshot` output and the manifest import parses the blob
back with `to_archetype_snapshot` (`impl From<&WorldWithAurora> for
WorldArchSnapshot` in src/aurora_archive.rs); the source `unwrap`s both
steps — a failure is `none`. -/
def csvArchetypeBlob (a : ArchetypeSnapshot) : Option ArchetypeSnapshot :=
  (CsvArchive.columnar_from_snapshot a).bind CsvArchive.to_archetype_snapshot

/-- Every archetype blob in order (the import loop of
`From<&WorldWithAurora> for WorldArchSnapshot`). -/
def csvArchetypeBlobs : List ArchetypeSnapshot → Option (List ArchetypeSnapshot)
  | [] => some []
  | a :: rest =>
    match csvArchetypeBlob a with
    | some a2 => (csvArchetypeBlobs rest).map (fun l => a2 :: l)
    | none => none

/-- A `WorldArchSnapshot` through the columnar CSV archive format, the
default Aurora export (`impl From<&WorldArchSnapshot> for WorldWithAurora`
uses `ExportFormat::Csv` and skips empty archetypes; the import rebuilds
`entities` as the `BTreeSet` union of the archetype entity lists). -/
def csv_world_roundtrip (s : WorldArchSnapshot) : Option WorldArchSnapshot :=
  (csvArchetypeBlobs (s.archetypes.filter (fun a => !a.entities.isEmpty))).map
    (fun l =>
      { entities := CsvArchive.sortedKeys
          (l.map ArchetypeSnapshot.entities).flatten
        archetypes := l })

/-- C1 counterexample: the round-trip identity does not hold for every
supported archive format. Take the world with one archetype of the single
registered component type `C` and two entities whose `C` cells are the
flat objects `{"x": 1}` and `{"y": 2}`. Saving it, passing the snapshot
through the columnar CSV format (the default Aurora export), and loading
the result leaves entity 0 with a `C` cell whose key set is `{x, y}` (the
CSV schema union pads the missing field with `Null`) instead of the
original `{x}`: the loaded world does not agree with the source world, so
the CSV format breaks the claimed format-generic identity. -/
theorem round_trip_csv_counterexample :
    ((csv_world_roundtrip (save_world_arch_snapshot
          [⟨["C"], [(0, [Val.obj [("x", Val.int 1)]]),
                    (1, [Val.obj [("y", Val.int 2)]])]⟩] ["C"])).bind
        (fun s2 => load_world_arch_snapshot_defragment s2 ["C"])).map
      (fun lw => CsvArchive.objKeyList ((lw.get 0 "C").getD Val.null))
      = some ["x", "y"]
    ∧ CsvArchive.objKeyList
        ((MWorld.get [⟨["C"], [(0, [Val.obj [("x", Val.int 1)]]),
            (1, [Val.obj [("y", Val.int 2)]])]⟩] 0 "C").getD Val.null)
      = ["x"] := by
  have hsave : save_world_arch_snapshot
      [⟨["C"], [(0, [Val.obj [("x", Val.int 1)]]),
                (1, [Val.obj [("y", Val.int 2)]])]⟩] ["C"]
      = { entities := [0, 1]
          archetypes :=
            [{ component_types := ["C"]
               storage_types := [.table]
               columns := [[Val.obj [("x", Val.int 1)],
                 Val.obj [("y", Val.int 2)]]]
               entities := [0, 1] }] } := by
    rw [save_world_arch_snapshot]
    congr 1
    have hs : ([0, 1] : List Nat).Sorted (fun a b => a ≤ b) := by decide
    exact List.mergeSort_eq_self hs
  rw [hsave]
  exact ⟨by decide, by decide⟩

end ArchetypeArchive

end BevyArchive
